import Mathlib

/-!
# file4you: organize engine, category mapping and version-control layer

A shallow embedding of `internal/deskfs/fs.go`, `internal/deskfs/git.go`, of
`directorytree.go`, `metadata.go`, `tags.go` and `kdtree.go` in `internal/filesystem/trees`,
and of the buffer memory of `internal/llm/memory.go`.

Conventions of the embedding

* Go strings are lists of characters (`GoString`).  Every byte the code inspects
  (`/`, `.`, `_`, digits, `\n`) is ASCII, so working on characters instead of
  bytes changes nothing.
* The operating system is an explicit state (`FS`): a finite map from resolved
  paths to entries.  External commands (`git`) are an explicit log of the
  argument vectors issued, answered by an oracle (`GitEnv`).
* `os.Stat` fails with `ENOENT`, `ENOTDIR` or `ENAMETOOLONG` as the kernel of Linux
  does; a name may have 255 bytes and a path fewer than 4096.
* The `sync.Mutex` of `DesktopFS` is one boolean of state; an attempt to lock it
  while it is held is the outcome `blocked` (Go mutexes are not reentrant).
* A nil-pointer dereference is the outcome `panic`.
* A pointer to a node of a tree is the place of the node: the numbers of the children
  taken on the way down from the root.  A change made through the pointer is the change
  of the tree at that place.
* A `float64` is the rational number it denotes; the k-d tree of the library gonum is
  its collection of points, searched by the contract of the library.
-/

namespace File4You

/-! ## Go strings -/

/-- A Go `string`, as the list of its characters. -/
abbrev GoString := List Char

/-- Embeds `strings.Split(s, sep)` for a one-character separator. -/
def stringsSplit (sep : Char) : GoString → List GoString
  | [] => [[]]
  | c :: cs =>
    if c = sep then [] :: stringsSplit sep cs
    else
      match stringsSplit sep cs with
      | [] => [[c]]
      | h :: t => (c :: h) :: t

/-- Embeds `strings.Join(elems, sep)` for a one-character separator. -/
def stringsJoin (sep : Char) : List GoString → GoString
  | [] => []
  | [a] => a
  | a :: b :: rest => a ++ sep :: stringsJoin sep (b :: rest)

/-- Embeds `unicode.IsSpace`. -/
def isSpace (c : Char) : Bool :=
  c = ' ' || c = '\t' || c = '\n' || c = '\r' || c.toNat = 0x0B || c.toNat = 0x0C
    || c.toNat = 0x85 || c.toNat = 0xA0 || c.toNat = 0x1680
    || (0x2000 ≤ c.toNat && c.toNat ≤ 0x200A)
    || c.toNat = 0x2028 || c.toNat = 0x2029 || c.toNat = 0x202F
    || c.toNat = 0x205F || c.toNat = 0x3000

/-- Embeds `strings.TrimSpace`. -/
def stringsTrimSpace (s : GoString) : GoString :=
  ((s.dropWhile isSpace).reverse.dropWhile isSpace).reverse

/-- Embeds `strings.ToLower` on the ASCII letters (the only ones in the extensions at hand). -/
def stringsToLower (s : GoString) : GoString :=
  s.map fun c => if 'A'.toNat ≤ c.toNat ∧ c.toNat ≤ 'Z'.toNat then Char.ofNat (c.toNat + 32) else c

/-- Value of a decimal digit. -/
def digitVal (c : Char) : Option Nat :=
  if '0'.toNat ≤ c.toNat ∧ c.toNat ≤ '9'.toNat then some (c.toNat - '0'.toNat) else none

/-- The digit loop of `strconv.Atoi`: `n = n*10 + int(ch - '0')`, failing on a non-digit. -/
def parseDigits : GoString → Nat → Option Nat
  | [], n => some n
  | c :: cs, n =>
    match digitVal c with
    | some d => parseDigits cs (n * 10 + d)
    | none => none

/-- Embeds `strconv.Atoi` on a 64-bit platform: an optional sign, at least one decimal digit,
and a value that fits `int`; `none` is a syntax or range error. -/
def strconvAtoi (s : GoString) : Option Int :=
  let (neg, digits) :=
    match s with
    | '-' :: rest => (true, rest)
    | '+' :: rest => (false, rest)
    | _ => (false, s)
  if digits = [] then none
  else
    match parseDigits digits 0 with
    | none => none
    | some n =>
      if neg then (if n ≤ 2 ^ 63 then some (-(n : Int)) else none)
      else (if n < 2 ^ 63 then some (n : Int) else none)

/-- Embeds `strconv.Itoa` / the `%d` verb of `fmt.Sprintf`, on a non-negative integer. -/
def strconvItoa (n : Nat) : GoString := Nat.toDigits 10 n

/-! ## `path/filepath` on Unix -/

/-- Embeds `os.PathSeparator`. -/
def Separator : Char := '/'

/-- Whether the path is rooted (starts with the separator). -/
def isRooted (s : GoString) : Bool :=
  match s with
  | c :: _ => c = Separator
  | [] => false

/-- One step of `filepath.Clean` over the elements of a path, on the stack of the
elements kept so far (innermost element first): empty elements and `.` are dropped,
`..` removes the element before it, is dropped at the root and is kept at the start
of a relative path. -/
def cleanStep (rooted : Bool) (stack : List GoString) (c : GoString) : List GoString :=
  if c = [] ∨ c = ['.'] then stack
  else if c = ['.', '.'] then
    match stack with
    | top :: rest => if top = ['.', '.'] then c :: stack else rest
    | [] => if rooted then [] else [c]
  else c :: stack

/-- The elements `filepath.Clean` keeps, outermost first. -/
def cleanComps (s : GoString) : List GoString :=
  ((stringsSplit Separator s).foldl (cleanStep (isRooted s)) []).reverse

/-- Embeds `filepath.Clean`. -/
def filepathClean (s : GoString) : GoString :=
  if isRooted s then Separator :: stringsJoin Separator (cleanComps s)
  else if cleanComps s = [] then ['.']
  else stringsJoin Separator (cleanComps s)

/-- Embeds `filepath.Join`: empty elements are ignored, the rest is joined and cleaned. -/
def filepathJoin (elem : List GoString) : GoString :=
  match elem.filter (fun e => e ≠ []) with
  | [] => []
  | e :: es => filepathClean (stringsJoin Separator (e :: es))

/-- The loop of `filepath.Ext`, on the reversed path: stop at a separator, return
from the final dot. -/
def extLoop : List Char → List Char → GoString
  | [], _ => []
  | c :: cs, acc =>
    if c = Separator then []
    else if c = '.' then '.' :: acc
    else extLoop cs (c :: acc)

/-- Embeds `filepath.Ext`. -/
def filepathExt (path : GoString) : GoString := extLoop path.reverse []

/-- Embeds `filepath.Base`. -/
def filepathBase (path : GoString) : GoString :=
  if path = [] then ['.']
  else
    let stripped := path.reverse.dropWhile (fun c => c = Separator)
    let last := (stripped.takeWhile (fun c => c ≠ Separator)).reverse
    if last = [] then [Separator] else last

/-- Embeds `filepath.Dir`. -/
def filepathDir (path : GoString) : GoString :=
  filepathClean (path.reverse.dropWhile (fun c => c ≠ Separator)).reverse

/-! ## The filesystem -/

/-- A resolved path: whether it is absolute, and its elements after `.`, `..` and
repeated separators are resolved. The kernel resolves a path the way
`filepath.Clean` does (there are no symbolic links in the model). -/
structure PathKey where
  rooted : Bool
  comps : List GoString
  deriving DecidableEq

/-- Resolution of a path string. -/
def pathKey (s : GoString) : PathKey := ⟨isRooted s, cleanComps s⟩

/-- What a path names: a regular file with its bytes, or a directory. -/
inductive Entry where
  | file (content : List Nat)
  | dir
  deriving DecidableEq

/-- A filesystem: the entries below the two base directories (the root `/` and the
working directory `.`), which always exist. Each key occurs at most once in a
filesystem built by the operations below from the empty one. -/
structure FS where
  entries : List (PathKey × Entry)
  deriving DecidableEq

/-- Errors of the `os` package that the code tells apart or wraps. -/
inductive OsErr where
  | notExist
  | notDir
  | isDir
  | notEmpty
  | crossDevice
  | nameTooLong
  deriving DecidableEq

deriving instance DecidableEq for Except

/-- The length of a Go string, which is its number of bytes (UTF-8). -/
def byteLength (s : GoString) : Nat := (s.map Char.utf8Size).sum

/-- The limit of Linux on the bytes of one element of a path (`NAME_MAX`). -/
def NameMax : Nat := 255

/-- The limit of Linux on the bytes of a path, its closing zero byte included
(`PATH_MAX`). -/
def PathMax : Nat := 4096

/-- A path is within the limits of the kernel: it is shorter than `PathMax` and none of
its elements is longer than `NameMax`. -/
def FitsLimits (path : GoString) : Prop :=
  byteLength path < PathMax ∧ ∀ c ∈ cleanComps path, byteLength c ≤ NameMax

instance (path : GoString) : Decidable (FitsLimits path) := by
  unfold FitsLimits; infer_instance

namespace FS

/-- The entry at a resolved path. -/
def lookupKey (fs : FS) (k : PathKey) : Option Entry :=
  if k.comps = [] then some Entry.dir
  else (fs.entries.find? (fun e => e.1 = k)).map Prod.snd

/-- The entry a path string names; the empty string names nothing. -/
def lookup (fs : FS) (path : GoString) : Option Entry :=
  if path = [] then none else fs.lookupKey (pathKey path)

/-- Replace or add the entry at a key. -/
def setKey (fs : FS) (k : PathKey) (e : Entry) : FS :=
  if (fs.entries.find? (fun x => x.1 = k)).isSome then
    ⟨fs.entries.map (fun x => if x.1 = k then (k, e) else x)⟩
  else ⟨fs.entries ++ [(k, e)]⟩

/-- Drop the entry at a key. -/
def eraseKey (fs : FS) (k : PathKey) : FS :=
  ⟨fs.entries.filter (fun x => x.1 ≠ k)⟩

/-- Whether `k` lies strictly below `d`. -/
def isBelow (d k : PathKey) : Bool :=
  d.rooted = k.rooted && d.comps.isPrefixOf k.comps && d.comps.length < k.comps.length

/-- Whether a key is the parent of another one. -/
def isParentOf (d k : PathKey) : Bool :=
  d.rooted = k.rooted && k.comps.dropLast = d.comps && k.comps ≠ []

/-- The parent directory of a key. -/
def parentKey (k : PathKey) : PathKey := ⟨k.rooted, k.comps.dropLast⟩

/-- Whether `os.Stat(path)` returned no error. -/
def exists_ (fs : FS) (path : GoString) : Bool := (fs.lookup path).isSome

/-- The error of `os.Stat` for a path that names nothing: the kernel walks the elements
from the base directory, `done` being the elements passed, and stops at the first
element that is too long (`ENAMETOOLONG`), that is missing (`ENOENT`), or that has a
file where a directory is due (`ENOTDIR`). -/
def statError (fs : FS) (rooted : Bool) : List GoString → List GoString → OsErr
  | _, [] => .notExist
  | done, c :: rest =>
    if NameMax < byteLength c then .nameTooLong
    else
      match fs.lookupKey ⟨rooted, done ++ [c]⟩ with
      | none => .notExist
      | some (Entry.file _) => .notDir
      | some Entry.dir => statError fs rooted (done ++ [c]) rest

/-- Embeds `os.Stat(path)`, of which the code reads the error only: `none` when the call
succeeds, which it does on the paths that name an entry. -/
def stat (fs : FS) (path : GoString) : Option OsErr :=
  if fs.exists_ path then none
  else if path = [] then some .notExist
  else if PathMax ≤ byteLength path then some .nameTooLong
  else some (fs.statError (pathKey path).rooted [] (pathKey path).comps)

/-- The loop of `os.MkdirAll` over the ancestors of the directory, outermost first:
an existing directory is kept, a file in the way is an error, a missing one is made. -/
def mkdirChain (fs : FS) (rooted : Bool) : List (List GoString) → Except OsErr FS
  | [] => .ok fs
  | p :: ps =>
    match fs.lookupKey ⟨rooted, p⟩ with
    | some Entry.dir => mkdirChain fs rooted ps
    | some (Entry.file _) => .error OsErr.notDir
    | none => mkdirChain (fs.setKey ⟨rooted, p⟩ Entry.dir) rooted ps

/-- Embeds `os.MkdirAll(path, perm)`. -/
def mkdirAll (fs : FS) (path : GoString) : Except OsErr FS :=
  if path = [] then .error OsErr.notExist
  else mkdirChain fs (pathKey path).rooted ((pathKey path).comps.inits.tail)

/-- Embeds `os.Create(path)`: the file is created, or truncated when it exists. -/
def create (fs : FS) (path : GoString) : Except OsErr FS :=
  if path = [] then .error OsErr.notExist
  else
    match fs.lookupKey (pathKey path) with
    | some Entry.dir => .error OsErr.isDir
    | _ =>
      match fs.lookupKey (parentKey (pathKey path)) with
      | some Entry.dir => .ok (fs.setKey (pathKey path) (Entry.file []))
      | some (Entry.file _) => .error OsErr.notDir
      | none => .error OsErr.notExist

/-- Embeds `os.Remove(path)`: a file, or an empty directory. -/
def remove (fs : FS) (path : GoString) : Except OsErr FS :=
  match fs.lookup path with
  | none => .error OsErr.notExist
  | some (Entry.file _) => .ok (fs.eraseKey (pathKey path))
  | some Entry.dir =>
    if (pathKey path).comps = [] then .error OsErr.notEmpty
    else if fs.entries.any (fun x => isBelow (pathKey path) x.1) then .error OsErr.notEmpty
    else .ok (fs.eraseKey (pathKey path))

/-- Embeds `os.RemoveAll(path)`: the entry and everything below it; a missing path is no error. -/
def removeAll (fs : FS) (path : GoString) : FS :=
  if path = [] then fs
  else ⟨fs.entries.filter (fun x => x.1 ≠ pathKey path && !isBelow (pathKey path) x.1)⟩

/-- The key an entry at or below `src` gets when `src` is renamed to `dst`. -/
def rekey (src dst k : PathKey) : PathKey :=
  if k = src ∨ isBelow src k then ⟨dst.rooted, dst.comps ++ k.comps.drop src.comps.length⟩ else k

/-- Embeds `os.Rename(src, dst)`. `xdev` tells whether the two paths lie on different devices,
in which case the kernel refuses with `EXDEV`. -/
def rename (xdev : GoString → GoString → Bool) (fs : FS) (src dst : GoString) :
    Except OsErr FS :=
  match fs.lookup src with
  | none => .error OsErr.notExist
  | some se =>
    if dst = [] then .error OsErr.notExist
    else if (pathKey src).comps = [] ∨ (pathKey dst).comps = [] then .error OsErr.notEmpty
    else
      match fs.lookupKey (parentKey (pathKey dst)) with
      | none => .error OsErr.notExist
      | some (Entry.file _) => .error OsErr.notDir
      | some Entry.dir =>
        if xdev src dst then .error OsErr.crossDevice
        else if pathKey src = pathKey dst then .ok fs
        else
          match se, fs.lookupKey (pathKey dst) with
          | Entry.file _, some Entry.dir => .error OsErr.isDir
          | Entry.dir, some (Entry.file _) => .error OsErr.notDir
          | Entry.dir, some Entry.dir =>
            if fs.entries.any (fun x => isBelow (pathKey dst) x.1) then .error OsErr.notEmpty
            else if isBelow (pathKey src) (pathKey dst) then .error OsErr.notExist
            else .ok ⟨((fs.eraseKey (pathKey dst)).entries).map
                    (fun x => (rekey (pathKey src) (pathKey dst) x.1, x.2))⟩
          | Entry.dir, none =>
            if isBelow (pathKey src) (pathKey dst) then .error OsErr.notExist
            else .ok ⟨fs.entries.map (fun x => (rekey (pathKey src) (pathKey dst) x.1, x.2))⟩
          | Entry.file c, _ =>
            .ok ((fs.eraseKey (pathKey src)).setKey (pathKey dst) (Entry.file c))

/-- The bytes of the regular file at a path. -/
def content (fs : FS) (path : GoString) : Option (List Nat) :=
  match fs.lookup path with
  | some (Entry.file c) => some c
  | _ => none

end FS

/-! ## Tree model (`internal/filesystem/trees`) -/

/-- A `time.Time`, as seconds since the Unix epoch and nanoseconds. -/
structure GoTime where
  unix : Int
  nsec : Nat
  deriving DecidableEq

/-- The zero `time.Time` (January 1, year 1, 00:00:00 UTC). -/
def GoTime.zero : GoTime := ⟨-62135596800, 0⟩

/-- Embeds `time.Time.IsZero`. -/
def GoTime.IsZero (t : GoTime) : Bool := t = GoTime.zero

/-- The type `NodeType` is an `int`; `Directory = iota`. -/
def Directory : Int := 0

/-- The constant `File` of `NodeType`. -/
def File : Int := 1

/-- Embeds `StringToNodeType`. -/
def StringToNodeType (s : GoString) : Int :=
  if s = "directory".toList then Directory
  else if s = "file".toList then File
  else -1

/-- What `os.FileInfo` answers. -/
structure FileInfo where
  size : Int
  mode : Nat
  modTime : GoTime
  isDir : Bool
  deriving DecidableEq

/-- The struct `Metadata`. -/
structure Metadata where
  size : Int
  modifiedAt : GoTime
  createdAt : GoTime
  nodeType : Int
  permissions : Nat
  owner : GoString
  tags : List GoString
  deriving DecidableEq

/-- The zero value of `Metadata`. -/
def Metadata.zeroValue : Metadata := ⟨0, GoTime.zero, GoTime.zero, 0, 0, [], []⟩

/-- Embeds `NewMetadata`, on a non-nil `os.FileInfo`. -/
def NewMetadata (fileinfo : FileInfo) : Metadata :=
  { size := fileinfo.size
    modifiedAt := fileinfo.modTime
    createdAt := GoTime.zero
    nodeType := StringToNodeType (if fileinfo.isDir then "directory".toList else "file".toList)
    permissions := fileinfo.mode
    owner := "unknown".toList
    tags := [] }

/-- The struct `FileNode`. -/
structure FileNode where
  path : GoString
  name : GoString
  extension : GoString
  metadata : Metadata
  deriving DecidableEq

/-- Modelled from the spec: the struct `DirectoryNode`, which is declared in a file that
is not part of the sources at hand. The spec lists its path, its ordered children, its
files, its metadata and a non-owning reference to its parent; `AddDirectory` also reads
a field `Type`. The parent reference is read by none of the functions embedded here and
is left out, so that a node is the tree below it. -/
inductive DirectoryNode where
  | mk (path : GoString) (type : Int) (children : List DirectoryNode)
      (files : List FileNode) (metadata : Metadata)

namespace DirectoryNode

/-- Field `Path`. -/
def path : DirectoryNode → GoString
  | mk p _ _ _ _ => p

/-- Field `Type`. -/
def type : DirectoryNode → Int
  | mk _ t _ _ _ => t

/-- Field `Children`. -/
def children : DirectoryNode → List DirectoryNode
  | mk _ _ cs _ _ => cs

/-- Field `Files`. -/
def files : DirectoryNode → List FileNode
  | mk _ _ _ fs _ => fs

/-- Field `Metadata`. -/
def metadata : DirectoryNode → Metadata
  | mk _ _ _ _ m => m

end DirectoryNode

/-- Modelled from the spec: `NewDirectoryNode(path, parent)` (its file is not part of the
sources at hand) makes a directory node with the given path, no children and no files. -/
def NewDirectoryNode (path : GoString) : DirectoryNode :=
  .mk path Directory [] [] Metadata.zeroValue

/-- Modelled from the spec: `(*DirectoryNode).AddFile` (not part of the sources at hand)
appends the file node to the files of the directory. -/
def DirectoryNode.AddFile (node : DirectoryNode) (file : FileNode) : DirectoryNode :=
  .mk node.path node.type node.children (node.files ++ [file]) node.metadata

/-- An ancestor as the loop of `buildPathFromNode` sees it through `Parent`: its name and
whether `IsRoot()` holds of it. -/
structure Ancestor where
  name : GoString
  isRoot : Bool
  deriving DecidableEq

/-- Modelled from the spec: the struct `FileTypeNode` of the category-mapping tree, which
is declared in a file that is not part of the sources at hand. The spec lists its name,
the set of extensions it accepts, its ordered children, a non-owning reference to its
parent and a root flag. The chain of `Parent` references is kept as the list of the
ancestors, nearest first (the empty list is a nil `Parent`). -/
inductive FileTypeNode where
  | mk (name : GoString) (extensions : List GoString) (children : List FileTypeNode)
      (parent : List Ancestor) (root : Bool)

namespace FileTypeNode

/-- Field `Name`. -/
def name : FileTypeNode → GoString
  | mk n _ _ _ _ => n

/-- Field `Extensions`. -/
def extensions : FileTypeNode → List GoString
  | mk _ e _ _ _ => e

/-- Field `Children`. -/
def children : FileTypeNode → List FileTypeNode
  | mk _ _ cs _ _ => cs

/-- The chain of `Parent` references, nearest ancestor first. -/
def parent : FileTypeNode → List Ancestor
  | mk _ _ _ p _ => p

/-- Modelled from the spec: `IsRoot()` (not part of the sources at hand) reads the root
flag of the node. -/
def IsRoot : FileTypeNode → Bool
  | mk _ _ _ _ r => r

/-- Modelled from the spec: `AllowsExtension(ext)` (not part of the sources at hand)
tells whether the extension set of the node contains `ext`. -/
def AllowsExtension (node : FileTypeNode) (ext : GoString) : Bool :=
  decide (ext ∈ node.extensions)

end FileTypeNode

/-! ## Category mapping (`fs.go`, lines 525-590) -/

/-- The loop of `buildPathFromNode` over the `Parent` chain: every ancestor's name is
put in front of the segments, until the chain ends or an ancestor is the root. -/
def collectSegments : List Ancestor → List GoString → List GoString
  | [], segs => segs
  | a :: rest, segs => if a.isRoot then segs else collectSegments rest (a.name :: segs)

/-- Embeds `buildPathFromNode`. The assertion handler made in the function has its exit function
replaced by a logger, so a failed assertion logs and execution goes on. -/
def buildPathFromNode (node : FileTypeNode) : GoString :=
  let node :=
    match node.IsRoot, node.children with
    | true, first :: _ => first
    | _, _ => node
  filepathJoin (collectSegments node.parent [node.name])

mutual
/-- Embeds `findFolderForExtension`. -/
def findFolderForExtension (node : FileTypeNode) (ext : GoString) : GoString × Bool :=
  match node with
  | .mk n e cs p r =>
    if (FileTypeNode.mk n e cs p r).AllowsExtension ext then
      (buildPathFromNode (.mk n e cs p r), true)
    else findInChildren cs ext
/-- The loop of `findFolderForExtension` over the children. -/
def findInChildren (children : List FileTypeNode) (ext : GoString) : GoString × Bool :=
  match children with
  | [] => ([], false)
  | child :: rest =>
    match findFolderForExtension child ext with
    | (path, true) => (path, true)
    | (_, false) => findInChildren rest ext
end

/-- Embeds `determineTargetFolder`, with `cfg.FileTypeTree.Root` for `cfg`. -/
def determineTargetFolder (fileNode : FileNode) (cfgRoot : FileTypeNode) : GoString × Bool :=
  findFolderForExtension cfgRoot fileNode.extension

/-! ## Organize engine (`fs.go`) -/

/-- The string type `ConflictResolutionType`. -/
abbrev ConflictResolutionType := GoString

/-- The constant `Overwrite`. -/
def Overwrite : ConflictResolutionType := "overwrite".toList

/-- The constant `Skip`. -/
def Skip : ConflictResolutionType := "skip".toList

/-- The constant `RenameSuffix`. -/
def RenameSuffix : ConflictResolutionType := "rename".toList

/-- The struct `FilePathParams`. -/
structure FilePathParams where
  RemoveAfter : Bool
  NamesOnly : Bool
  ForceSkipIgnore : Bool
  Recursive : Bool
  MaxDepth : Int
  GitEnabled : Bool
  CopyFiles : Bool
  SourceDir : GoString
  TargetDir : GoString
  DryRun : Bool
  ConflictResolution : ConflictResolutionType
  deriving DecidableEq

/-- Embeds `NewFilePathParams`. -/
def NewFilePathParams : FilePathParams :=
  { RemoveAfter := false, NamesOnly := false, ForceSkipIgnore := false, Recursive := true,
    MaxDepth := 0, GitEnabled := false, CopyFiles := false, SourceDir := [], TargetDir := [],
    DryRun := false, ConflictResolution := "rename".toList }

/-- The two errors `Validate` makes. -/
inductive ValidateErr where
  | directoriesNotSpecified
  | negativeMaxDepth
  deriving DecidableEq

/-- Embeds `(*FilePathParams).Validate`. The method has a pointer receiver and runs in a
program that has the filesystem at hand, so the result carries, next to the error
(`none` is nil), the parameters and the filesystem as the call leaves them. -/
def FilePathParams.Validate (p : FilePathParams) (fs : FS) :
    Option ValidateErr × FilePathParams × FS :=
  if p.SourceDir = [] ∨ p.TargetDir = [] then (some .directoriesNotSpecified, p, fs)
  else if p.MaxDepth < 0 then (some .negativeMaxDepth, p, fs)
  else (none, p, fs)

/-- The errors the file operations of `fs.go` return, by the place that makes them. -/
inductive FileErr where
  | openSource (e : OsErr)
  | createDest (e : OsErr)
  | copyData (e : OsErr)
  | removeOriginal (e : OsErr)
  | createDir (e : OsErr)
  | needsRecursive
  | nothingToCopy
  | crossDeviceCopy (e : FileErr)
  | moveFailed (e : OsErr)
  deriving DecidableEq

/-- Embeds `copyFile`. The source is opened, the destination is created (truncated when it
exists), the bytes the open source then holds are written to it, and the source is
removed when `remove` is set. -/
def copyFile (fs : FS) (fileNode : FileNode) (dst : GoString) (remove dryrun : Bool) :
    Option FileErr × FS :=
  if dryrun then (none, fs)
  else
    match fs.lookup fileNode.path with
    | none => (some (.openSource .notExist), fs)
    | some _ =>
      match fs.create dst with
      | .error e => (some (.createDest e), fs)
      | .ok fs1 =>
        match fs1.lookup fileNode.path with
        | some (Entry.file bytes) =>
          let fs2 := fs1.setKey (pathKey dst) (Entry.file bytes)
          if remove then
            match fs2.remove fileNode.path with
            | .error e => (some (.removeOriginal e), fs2)
            | .ok fs3 => (none, fs3)
          else (none, fs2)
        | _ => (some (.copyData .isDir), fs1)

/-- The loop of `Copy` over the files of the directory. -/
def copyFiles (fs : FS) (files : List FileNode) (dst : GoString) (remove dryrun : Bool) :
    Option FileErr × FS :=
  match files with
  | [] => (none, fs)
  | fileNode :: rest =>
    if dryrun then copyFiles fs rest dst remove dryrun
    else
      match copyFile fs fileNode (filepathJoin [dst, fileNode.path]) remove dryrun with
      | (some e, fs1) => (some e, fs1)
      | (none, fs1) => copyFiles fs1 rest dst remove dryrun

mutual
/-- Embeds `Copy`. -/
def Copy (fs : FS) (node : DirectoryNode) (dst : GoString) (recursive remove dryrun : Bool) :
    Option FileErr × FS :=
  match node with
  | .mk path _ children files _ =>
    if children.length > 0 ∨ files.length > 0 then
      if !recursive then (some .needsRecursive, fs)
      else
        match (if !dryrun then fs.mkdirAll dst else .ok fs) with
        | .error e => (some (.createDir e), fs)
        | .ok fs1 =>
          match copyChildren fs1 children dst recursive remove dryrun with
          | (some e, fs2) => (some e, fs2)
          | (none, fs2) =>
            match copyFiles fs2 files dst remove dryrun with
            | (some e, fs3) => (some e, fs3)
            | (none, fs3) =>
              if remove && !dryrun then (none, fs3.removeAll path) else (none, fs3)
    else (some .nothingToCopy, fs)
/-- The loop of `Copy` over the child directories. -/
def copyChildren (fs : FS) (children : List DirectoryNode) (dst : GoString)
    (recursive remove dryrun : Bool) : Option FileErr × FS :=
  match children with
  | [] => (none, fs)
  | childDir :: rest =>
    if dryrun then copyChildren fs rest dst recursive remove dryrun
    else
      match Copy fs childDir (filepathJoin [dst, childDir.path]) recursive remove dryrun with
      | (some e, fs1) => (some e, fs1)
      | (none, fs1) => copyChildren fs1 rest dst recursive remove dryrun
end

/-- Embeds `Move`. `xdev` is the kernel's verdict on `os.Rename` across devices. -/
def Move (xdev : GoString → GoString → Bool) (fs : FS) (node : DirectoryNode) (dst : GoString)
    (recursive dryrun : Bool) : Option FileErr × FS :=
  if dryrun then (none, fs)
  else
    match fs.rename xdev node.path dst with
    | .ok fs1 => (none, fs1)
    | .error OsErr.crossDevice =>
      match Copy fs node dst recursive true dryrun with
      | (some e, fs1) => (some (.crossDeviceCopy e), fs1)
      | (none, fs1) => (none, fs1)
    | .error e => (some (.moveFailed e), fs)

/-- The loop of `generateUniqueFilename`, `fuel` iterations of it from the counter `i`:
the first candidate for which `os.Stat` fails with an error that `os.IsNotExist` accepts
is returned; on success and on every other error the loop goes on. -/
def uniqueLoop (fs : FS) (dir base ext : GoString) : Nat → Nat → Option GoString
  | 0, _ => none
  | fuel + 1, i =>
    let newPath := filepathJoin [dir, base ++ '_' :: strconvItoa i ++ ext]
    if fs.stat newPath = some OsErr.notExist then some newPath
    else uniqueLoop fs dir base ext fuel (i + 1)

/-- Embeds `generateUniqueFilename`, cut off after `fuel` candidates (`none`). -/
def generateUniqueFilename (fs : FS) (fuel : Nat) (path : GoString) : Option GoString :=
  let dir := filepathDir path
  let ext := filepathExt path
  let base := filepathBase (path.take (path.length - ext.length))
  uniqueLoop fs dir base ext fuel 1

/-- Errors pushed to the error channel of a run. -/
inductive OrganizeErr where
  | createTargetDir (destDir : GoString) (e : OsErr)
  | fileOperation (path : GoString) (e : FileErr)
  deriving DecidableEq

/-- What the file tasks of one run share: the filesystem, the buffered error channel
(its content, oldest first) and whether the context is cancelled. -/
structure OrgState where
  fs : FS
  errCh : List OrganizeErr
  cancelled : Bool
  deriving DecidableEq

/-- The non-blocking send `select { case errCh <- err: cancel(); default: }` on a channel
of capacity `cap` on which no receiver waits: the error is buffered while there is room,
and the `default` branch is taken otherwise. -/
def OrgState.trySend (st : OrgState) (cap : Nat) (e : OrganizeErr) : OrgState :=
  if st.errCh.length < cap then { st with errCh := st.errCh ++ [e], cancelled := true } else st

/-- The destination a file task settles on when it has computed `destPath`: `some none`
when the file is skipped, `none` when the search for a free name is cut off. -/
def resolveConflict (fs : FS) (params : FilePathParams) (fuel : Nat) (destPath : GoString) :
    Option (Option GoString) :=
  if fs.exists_ destPath then
    if params.ConflictResolution = Overwrite then some (some destPath)
    else if params.ConflictResolution = Skip then some none
    else if params.ConflictResolution = RenameSuffix then
      (generateUniqueFilename fs fuel destPath).map some
    else some none
  else some (some destPath)

/-- The body of the goroutine `traverseAndOrganize` starts for one file (lines 447-514),
run without interruption. `cap` is the capacity of the error channel, `fuel` bounds the
search of `generateUniqueFilename`; the result is `none` when that search is cut off. -/
def fileTask (xdev : GoString → GoString → Bool) (cfgRoot : FileTypeNode)
    (params : FilePathParams) (cap fuel : Nat) (fileNode : FileNode) (st : OrgState) :
    Option OrgState :=
  if st.cancelled then some st
  else
    match determineTargetFolder fileNode cfgRoot with
    | (_, false) => some st
    | (targetDir, true) =>
      let destDir := filepathJoin [params.TargetDir, targetDir]
      match st.fs.mkdirAll destDir with
      | .error e => some (st.trySend cap (.createTargetDir destDir e))
      | .ok fs1 =>
        match resolveConflict fs1 params fuel
            (filepathJoin [destDir, filepathBase fileNode.path]) with
        | none => none
        | some none => some { st with fs := fs1 }
        | some (some destPath) =>
          let result :=
            if params.CopyFiles then
              copyFile fs1 fileNode destPath params.RemoveAfter params.DryRun
            else
              Move xdev fs1 (.mk fileNode.path 0 [] [] Metadata.zeroValue) destPath false
                params.DryRun
          match result with
          | (some fileErr, fs2) =>
            some (OrgState.trySend { st with fs := fs2 } cap (.fileOperation fileNode.path fileErr))
          | (none, fs2) => some { st with fs := fs2 }

/-- The file tasks of one directory, each run to its end when it is started (one of the
schedules of the goroutines). -/
def runFileTasks (xdev : GoString → GoString → Bool) (cfgRoot : FileTypeNode)
    (params : FilePathParams) (cap fuel : Nat) : List FileNode → OrgState → Option OrgState
  | [], st => some st
  | fileNode :: rest, st =>
    match fileTask xdev cfgRoot params cap fuel fileNode st with
    | none => none
    | some st1 => runFileTasks xdev cfgRoot params cap fuel rest st1

mutual
/-- Embeds `traverseAndOrganize`: the file tasks of the node, then the child directories when
`params.Recursive` holds. -/
def traverseAndOrganize (xdev : GoString → GoString → Bool) (cfgRoot : FileTypeNode)
    (params : FilePathParams) (cap fuel : Nat) (node : DirectoryNode) (st : OrgState) :
    Option OrgState :=
  match node with
  | .mk _ _ children files _ =>
    match runFileTasks xdev cfgRoot params cap fuel files st with
    | none => none
    | some st1 => traverseChildren xdev cfgRoot params cap fuel children st1
/-- The loop of `traverseAndOrganize` over the child directories. -/
def traverseChildren (xdev : GoString → GoString → Bool) (cfgRoot : FileTypeNode)
    (params : FilePathParams) (cap fuel : Nat) (children : List DirectoryNode)
    (st : OrgState) : Option OrgState :=
  match children with
  | [] => some st
  | childDir :: rest =>
    if params.Recursive then
      match traverseAndOrganize xdev cfgRoot params cap fuel childDir st with
      | none => none
      | some st1 => traverseChildren xdev cfgRoot params cap fuel rest st1
    else traverseChildren xdev cfgRoot params cap fuel rest st
end

/-! ## Tree builder (`fs.go`, lines 226-242 and 359-439; `directorytree.go`) -/

/-- How a call ends: it returns (a nil error, or an error), it never returns because it
waits for a mutex that is not released, or the goroutine panics. -/
inductive Outcome (ε : Type) where
  | ok
  | error (e : ε)
  | blocked
  | panic
  | outOfFuel
  deriving DecidableEq

/-- An entry of `os.ReadDir`. -/
structure DirEntry where
  name : GoString
  isDir : Bool
  deriving DecidableEq

/-- Byte-wise order of strings (`<=` of Go). -/
def strLe : GoString → GoString → Bool
  | [], _ => true
  | _ :: _, [] => false
  | a :: as, b :: bs => if a.toNat < b.toNat then true else if b.toNat < a.toNat then false else strLe as bs

/-- Embeds `os.ReadDir(path)`: the entries of the directory, sorted by file name. -/
def FS.readDir (fs : FS) (path : GoString) : Except OsErr (List DirEntry) :=
  match fs.lookup path with
  | none => .error OsErr.notExist
  | some (Entry.file _) => .error OsErr.notDir
  | some Entry.dir =>
    .ok ((fs.entries.filterMap (fun x =>
        if FS.isParentOf (pathKey path) x.1 then
          some (DirEntry.mk (x.1.comps.getLastD []) (decide (x.2 = Entry.dir)))
        else none)).insertionSort (fun a b => strLe a.name b.name = true))

/-- What the build asks of its surroundings besides the directory listing: the
`os.FileInfo` of an entry (`none` when `entry.Info()` fails) and the matcher the
library `go-gitignore` compiles from the bytes of an ignore file. -/
structure BuildEnv where
  info : GoString → Option FileInfo
  matchesPath : List Nat → GoString → Bool

/-- Errors of the tree builder. -/
inductive BuildErr where
  | readDir (e : OsErr)
  | ignoreFile
  deriving DecidableEq

/-- Embeds `GetDesktopCleanerIgnore`: the matcher of the ignore file of the directory, `none`
when there is no such file. -/
def GetDesktopCleanerIgnore (env : BuildEnv) (fs : FS) (dir : GoString) :
    Except BuildErr (Option (GoString → Bool)) :=
  match fs.lookup (filepathJoin [dir, ".file4you-ignore".toList]) with
  | some (Entry.file bytes) => .ok (some (env.matchesPath bytes))
  | some Entry.dir => .error BuildErr.ignoreFile
  | none => .ok none

/-- The statement `node.Children = append(node.Children, childDir)`. -/
def DirectoryNode.appendChild (node : DirectoryNode) (childDir : DirectoryNode) : DirectoryNode :=
  .mk node.path node.type (node.children ++ [childDir]) node.files node.metadata

/-- The loop of `buildTreeNodes` over the entries of one directory; `descend` is the
recursive call on a child directory. The node is returned as the loop leaves it, also
when the loop stops early. -/
def buildEntries (env : BuildEnv) (recursive : Bool)
    (descend : DirectoryNode → DirectoryNode × Outcome BuildErr)
    (ignored : Option (GoString → Bool)) (nodePath : GoString) :
    List DirEntry → DirectoryNode → DirectoryNode × Outcome BuildErr
  | [], node => (node, .ok)
  | entry :: rest, node =>
    let childPath := filepathJoin [nodePath, entry.name]
    if (match ignored with
        | some m => m childPath
        | none => false) then
      buildEntries env recursive descend ignored nodePath rest node
    else if entry.isDir then
      if !recursive then
        buildEntries env recursive descend ignored nodePath rest
          (node.appendChild (NewDirectoryNode childPath))
      else
        match descend (NewDirectoryNode childPath) with
        | (childDir, .ok) =>
          buildEntries env recursive descend ignored nodePath rest (node.appendChild childDir)
        | (childDir, stop) => (node.appendChild childDir, stop)
    else
      match env.info childPath with
      | none => (node, .panic)
      | some entryInfo =>
        buildEntries env recursive descend ignored nodePath rest
          (node.AddFile
            { path := childPath
              name := entry.name
              extension := stringsToLower (filepathExt entry.name)
              metadata := NewMetadata entryInfo })

/-- Embeds `buildTreeNodes`. The recursion is on `fuel`; it descends one level per call and
stops descending once `currentDepth > maxDepth`. -/
def buildTreeNodes (env : BuildEnv) (fs : FS) (recursive : Bool) (maxDepth : Int) :
    Nat → DirectoryNode → Nat → DirectoryNode × Outcome BuildErr
  | 0, node, _ => (node, .outOfFuel)
  | fuel + 1, node, currentDepth =>
    if (currentDepth : Int) > maxDepth then (node, .ok)
    else
      match fs.readDir node.path with
      | .error e => (node, .error (.readDir e))
      | .ok entries =>
        match GetDesktopCleanerIgnore env fs node.path with
        | .error e => (node, .error e)
        | .ok ignored =>
          buildEntries env recursive
            (fun childDir => buildTreeNodes env fs recursive maxDepth fuel childDir (currentDepth + 1))
            ignored node.path entries node

/-- A `kdtree.Point`, a slice of `float64`. A `float64` is taken as the rational number it
denotes; rounding, infinities and NaN are left out. -/
abbrev KDPoint := List ℚ

/-- Modelled from the spec: the struct `DirectoryPoint` (its file is not part of the sources
at hand), as `kdtree.go` builds it: the node and the point made of its metadata. -/
structure DirectoryPoint where
  Node : DirectoryNode
  Metadata : KDPoint

/-- A `kdtree.Tree` of the library gonum, by the collection of points it was built from;
its root is nil exactly when the collection is empty. The order in which `kdtree.New`
leaves the collection is not part of the model. -/
structure KDTree where
  points : List DirectoryPoint

/-- The fields of `TreeMetrics` that are counters. -/
structure TreeMetrics where
  TotalNodes : Int
  TotalSize : Int
  MaxDepth : Int
  deriving DecidableEq

/-- The struct `DirectoryTree`: the root (nil when `none`), the metrics (nil when `none`),
whether the logger is set, the k-d tree (nil when `none`) and the points it was built
from. -/
structure DirectoryTree where
  Root : Option DirectoryNode
  metrics : Option TreeMetrics
  logger : Bool
  KDTree : Option KDTree := none
  KDTreeData : List DirectoryPoint := []

/-- Embeds `NewDirectoryTree(WithRoot(root))`. -/
def NewDirectoryTree (root : GoString) : DirectoryTree :=
  { Root := some (NewDirectoryNode root), metrics := some ⟨0, 0, 0⟩, logger := true }

/-- Embeds `(*DirectoryTree).Cleanup`: `none` when it panics (it calls the logger, which an
earlier `Cleanup` has set to nil). No cleanup function is ever registered. -/
def DirectoryTree.Cleanup (dt : DirectoryTree) : Option DirectoryTree :=
  if dt.logger then some { Root := none, metrics := none, logger := false } else none

/-- Embeds `buildTreeAndCache`, on the field `DirectoryTree` of the instance (`none` is nil):
how the call ends and the field after it. The deferred function runs `Cleanup` on the
way out. -/
def buildTreeAndCache (env : BuildEnv) (fs : FS) (tree : Option DirectoryTree)
    (rootPath : GoString) (recursive : Bool) (maxDepth : Int) :
    Outcome BuildErr × Option DirectoryTree :=
  let dt := tree.getD (NewDirectoryTree rootPath)
  match dt.Root with
  | none => (.panic, some dt)
  | some root =>
    match buildTreeNodes env fs recursive maxDepth (maxDepth.toNat + 2) root 0 with
    | (built, out) =>
      match DirectoryTree.Cleanup { dt with Root := some built } with
      | none => (.panic, some { dt with Root := some built })
      | some cleaned => (out, some cleaned)

/-! ## Tree operations (`directorytree.go`, lines 102-190) -/

/-- Embeds `filepath.SplitList` on Unix, where the list separator is the colon. -/
def filepathSplitList (path : GoString) : List GoString :=
  if path = [] then [] else stringsSplit ':' path

/-- Modelled from the spec: `(*DirectoryNode).AddChildDirectory` (not part of the sources
at hand) makes a directory node for the path segment `dir`, appends it to the children
of the node and returns it. The result is the node after the call and the new child. -/
def DirectoryNode.AddChildDirectory (node : DirectoryNode) (dir : GoString) :
    DirectoryNode × DirectoryNode :=
  (node.appendChild (NewDirectoryNode dir), NewDirectoryNode dir)

/-- The node with its child number `i` replaced: what a change made through the pointer
to that child does to the node that owns it. -/
def DirectoryNode.setChild (node : DirectoryNode) (i : Nat) (child : DirectoryNode) :
    DirectoryNode :=
  .mk node.path node.type (node.children.set i child) node.files node.metadata

/-- The loop of `FindOrCreatePath` from the node `current` over the segments left. The
result is `current` as the loop leaves it and the node the loop ends on, given by its
place: the numbers of the children taken on the way down from `current`. -/
def findOrCreateFrom : DirectoryNode → List GoString → DirectoryNode × List Nat
  | current, [] => (current, [])
  | current, dir :: rest =>
    let i := current.children.findIdx (fun child => child.path = dir)
    match current.children[i]? with
    | some next =>
      let below := findOrCreateFrom next rest
      (current.setChild i below.1, i :: below.2)
    | none =>
      let added := current.AddChildDirectory dir
      let below := findOrCreateFrom added.2 rest
      (added.1.setChild i below.1, i :: below.2)

/-- Embeds `(*DirectoryTree).FindOrCreatePath`: the tree after the call and the place of
the node returned (`none` is the nil pointer); the result is `none` when the call panics,
which it does on a nil root when there is a segment. -/
def DirectoryTree.FindOrCreatePath (tree : DirectoryTree) (path : List GoString) :
    Option (DirectoryTree × Option (List Nat)) :=
  match tree.Root with
  | none => if path = [] then some (tree, none) else none
  | some root =>
    some ({ tree with Root := some (findOrCreateFrom root path).1 },
      some (findOrCreateFrom root path).2)

/-- The node at a place below `node`. -/
def DirectoryNode.nodeAt : DirectoryNode → List Nat → Option DirectoryNode
  | node, [] => some node
  | node, i :: rest =>
    match node.children[i]? with
    | none => none
    | some child => child.nodeAt rest

/-- The node with `f` applied to the node at the given place: what a change made through
the pointer to that node does to the tree. -/
def DirectoryNode.updateAt (f : DirectoryNode → DirectoryNode) :
    DirectoryNode → List Nat → DirectoryNode
  | node, [] => f node
  | node, i :: rest =>
    match node.children[i]? with
    | none => node
    | some child => node.setChild i (DirectoryNode.updateAt f child rest)

/-- Embeds `(*DirectoryTree).AddFile`, which always returns a nil error: the tree after
the call, `none` when the call panics. The size and the time it is given are not used. -/
def DirectoryTree.AddFile (tree : DirectoryTree) (path filePath : GoString) (_size : Int)
    (_modifiedAt : GoTime) : Option DirectoryTree :=
  match tree.FindOrCreatePath (filepathSplitList path) with
  | some (tree1, some targetNode) =>
    some { tree1 with
      Root := tree1.Root.map (fun root =>
        DirectoryNode.updateAt
          (fun node => node.AddFile
            { path := filePath, name := [], extension := filepathExt filePath,
              metadata := Metadata.zeroValue })
          root targetNode) }
  | _ => none

/-- The loop of `AddDirectory` from `node` over the segments left, with the result of
`findOrCreateFrom`. -/
def addDirectoryFrom : DirectoryNode → List GoString → DirectoryNode × List Nat
  | node, [] => (node, [])
  | node, segment :: rest =>
    let i := node.children.findIdx (fun child => child.path = segment && child.type = Directory)
    match node.children[i]? with
    | some child =>
      let below := addDirectoryFrom child rest
      (node.setChild i below.1, i :: below.2)
    | none =>
      let newDir := DirectoryNode.mk segment Directory [] [] Metadata.zeroValue
      let below := addDirectoryFrom newDir rest
      ((node.appendChild newDir).setChild i below.1, i :: below.2)

/-- Embeds `(*DirectoryTree).AddDirectory`, which always returns a nil error: the tree
after the call and the place of the node returned; `none` when the call panics, which it
does on a nil root (`strings.Split` returns at least one segment). -/
def DirectoryTree.AddDirectory (tree : DirectoryTree) (path : GoString) :
    Option (DirectoryTree × List Nat) :=
  match tree.Root with
  | none => none
  | some root =>
    some ({ tree with Root := some (addDirectoryFrom root (stringsSplit Separator path)).1 },
      (addDirectoryFrom root (stringsSplit Separator path)).2)

/-! ## Metadata and tags (`metadata.go`, `tags.go`) -/

/-- Embeds `NodeType.String`. -/
def NodeTypeString (n : Int) : GoString :=
  if n = Directory then "directory".toList
  else if n = File then "file".toList
  else "unknown".toList

/-- The errors of `Metadata.Validate`. -/
inductive MetadataErr where
  | negativeSize
  | zeroModifiedTime
  | invalidNodeType (name : GoString)
  deriving DecidableEq

/-- Embeds `(*Metadata).Validate`: `none` is the nil error. -/
def Metadata.Validate (m : Metadata) : Option MetadataErr :=
  if m.size < 0 then some .negativeSize
  else if m.modifiedAt.IsZero then some .zeroModifiedTime
  else if m.nodeType ≠ File ∧ m.nodeType ≠ Directory then
    some (.invalidNodeType (NodeTypeString m.nodeType))
  else none

/-- The constant `TagSizeSmall`. -/
def TagSizeSmall : GoString := "small".toList

/-- The constant `TagSizeMedium`. -/
def TagSizeMedium : GoString := "medium".toList

/-- The constant `TagSizeLarge`. -/
def TagSizeLarge : GoString := "large".toList

/-- The constant `sizeThresholdSmall`, `1e3`. -/
def sizeThresholdSmall : Int := 1000

/-- The constant `sizeThresholdMedium`, `1e6`. -/
def sizeThresholdMedium : Int := 1000000

/-- The constant `TagTypeFile`. -/
def TagTypeFile : GoString := "file".toList

/-- The constant `TagTypeDirectory`. -/
def TagTypeDirectory : GoString := "folder".toList

/-- The constant `TagPermReadable`. -/
def TagPermReadable : GoString := "readable".toList

/-- The constant `TagPermWritable`. -/
def TagPermWritable : GoString := "writable".toList

/-- Embeds `GenerateTags`: the tags (nil is the empty list) and the error (`none` is nil). -/
def GenerateTags (metadata : Metadata) : List GoString × Option MetadataErr :=
  match metadata.Validate with
  | some err => ([], some err)
  | none =>
    let tags : List GoString := []
    let tags :=
      if NodeTypeString metadata.nodeType = "directory".toList then tags ++ [TagTypeDirectory]
      else if NodeTypeString metadata.nodeType = "file".toList then tags ++ [TagTypeFile]
      else tags
    let tags :=
      if metadata.size > sizeThresholdMedium then tags ++ [TagSizeLarge]
      else if metadata.size > sizeThresholdSmall then tags ++ [TagSizeMedium]
      else tags ++ [TagSizeSmall]
    let tags := if metadata.permissions &&& 0o200 ≠ 0 then tags ++ [TagPermWritable] else tags
    let tags := if metadata.permissions &&& 0o400 ≠ 0 then tags ++ [TagPermReadable] else tags
    (tags, none)

/-- Embeds `(*Metadata).ToKDTreePoint`: size, modification time and creation time in Unix
seconds, and the permission bits (`FileMode.Perm`). -/
def Metadata.ToKDTreePoint (m : Metadata) : Except MetadataErr KDPoint :=
  match m.Validate with
  | some err => .error err
  | none =>
    .ok [(m.size : ℚ), (m.modifiedAt.unix : ℚ), (m.createdAt.unix : ℚ),
      ((m.permissions &&& 0o777 : Nat) : ℚ)]

/-! ## Spatial index (`kdtree.go`) -/

mutual
/-- Embeds `collectDirectoryPoints`, on the collection gathered so far. -/
def collectDirectoryPoints (data : List DirectoryPoint) (node : DirectoryNode) :
    List DirectoryPoint :=
  match node with
  | .mk path type children files metadata =>
    if metadata.Validate.isSome then data
    else if metadata.nodeType ≠ Directory then data
    else
      match metadata.ToKDTreePoint with
      | .error _ => data
      | .ok metadataPoint =>
        collectChildrenPoints
          (data ++ [{ Node := .mk path type children files metadata, Metadata := metadataPoint }])
          children
/-- The loop of `collectDirectoryPoints` over the child directories. -/
def collectChildrenPoints (data : List DirectoryPoint) (children : List DirectoryNode) :
    List DirectoryPoint :=
  match children with
  | [] => data
  | child :: rest => collectChildrenPoints (collectDirectoryPoints data child) rest
end

/-- Embeds `(*DirectoryTree).BuildKDTree`; a nil root contributes nothing. -/
def DirectoryTree.BuildKDTree (tree : DirectoryTree) : DirectoryTree :=
  let data :=
    match tree.Root with
    | none => []
    | some root => collectDirectoryPoints [] root
  { tree with KDTreeData := data, KDTree := some ⟨data⟩ }

/-- Modelled from the spec: the method `Distance` of `DirectoryPoint` (its file is not part
of the sources at hand) is the squared Euclidean distance of the two points. -/
def squaredDistance (a b : KDPoint) : ℚ :=
  ((a.zip b).map (fun x => (x.1 - x.2) * (x.1 - x.2))).sum

/-- A `kdtree.ComparableDist`: a point (nil when `none`) and a distance (`none` is positive
infinity). The keepers of gonum start with a sentinel, an element without point that
carries the greatest distance they accept. -/
structure ComparableDist where
  Comparable : Option DirectoryPoint
  Dist : Option ℚ

/-- The points of the tree with their distances to the query, nearest first. -/
def byDistance (tree : KDTree) (query : KDPoint) : List (DirectoryPoint × ℚ) :=
  (tree.points.map (fun p => (p, squaredDistance p.Metadata query))).insertionSort
    (fun a b => a.2 ≤ b.2)

/-- The heap of `kdtree.NewDistKeeper(d)` after `(*Tree).NearestSet`, by the contract of
gonum. On a tree without root `NearestSet` returns at once, and the heap still holds the
sentinel alone. Otherwise the search keeps the points within distance `d`, and the
sentinel is removed before the call returns. -/
def nearestSetWithin (tree : KDTree) (d : ℚ) (query : KDPoint) : List ComparableDist :=
  if tree.points.isEmpty then [{ Comparable := none, Dist := some d }]
  else
    ((byDistance tree query).filter (fun x => x.2 ≤ d)).map
      (fun x => { Comparable := some x.1, Dist := some x.2 })

/-- The heap of `kdtree.NewNKeeper(n)` (for `n >= 1`) after `(*Tree).NearestSet`, by the
contract of gonum. On a tree without root the heap still holds the sentinel alone.
Otherwise it holds the `n` nearest points, all of them when there are fewer; which of
several points at the same distance is kept is left open by the library, and here the
earlier of the collection is. -/
def nearestSetN (tree : KDTree) (n : Nat) (query : KDPoint) : List ComparableDist :=
  if tree.points.isEmpty then [{ Comparable := none, Dist := none }]
  else
    ((byDistance tree query).take n).map
      (fun x => { Comparable := some x.1, Dist := some x.2 })

/-- The loop `for _, item := range keeper.Heap` of the two searches: the type assertion
`item.Comparable.(DirectoryPoint)` panics (`none`) on an element without point. -/
def heapNodes : List ComparableDist → Option (List DirectoryNode)
  | [] => some []
  | item :: rest =>
    match item.Comparable with
    | none => none
    | some dirPoint =>
      match heapNodes rest with
      | none => none
      | some results => some (dirPoint.Node :: results)

/-- Embeds `(*DirectoryTree).RangeSearchKDTree`: the nodes it returns, `none` when it
panics. -/
def DirectoryTree.RangeSearchKDTree (tree : DirectoryTree) (query : DirectoryPoint)
    (radius : ℚ) : Option (List DirectoryNode) :=
  match tree.KDTree with
  | none => none
  | some kd => heapNodes (nearestSetWithin kd (radius * radius) query.Metadata)

/-- Embeds `(*DirectoryTree).NearestNeighborSearchKDTree`: the nodes it returns, `none` when
it panics (`kdtree.NewNKeeper(k)` panics for `k < 1`). -/
def DirectoryTree.NearestNeighborSearchKDTree (tree : DirectoryTree) (query : DirectoryPoint)
    (k : Int) : Option (List DirectoryNode) :=
  if k < 1 then none
  else
    match tree.KDTree with
    | none => none
    | some kd => heapNodes (nearestSetN kd k.toNat query.Metadata)

/-! ## Walk (`directorytree.go`, lines 63-100) and `CalculateMaxDepth` (`fs.go`) -/

/-- The error of a cancelled context. -/
inductive WalkErr where
  | contextCanceled
  deriving DecidableEq

mutual
/-- Embeds `walkNode` on the metrics of the tree; `cancelled` tells whether the context is
done. -/
def walkNode (cancelled : Bool) (metrics : TreeMetrics) (node : DirectoryNode) (depth : Int) :
    Outcome WalkErr × TreeMetrics :=
  match node with
  | .mk _ _ children _ _ =>
    if cancelled then (.error .contextCanceled, metrics)
    else
      walkChildren cancelled
        { metrics with
          TotalNodes := metrics.TotalNodes + 1
          MaxDepth := max metrics.MaxDepth depth }
        children depth
/-- The loop of `walkNode` over the child directories of a node at depth `depth`. -/
def walkChildren (cancelled : Bool) (metrics : TreeMetrics) (children : List DirectoryNode)
    (depth : Int) : Outcome WalkErr × TreeMetrics :=
  match children with
  | [] => (.ok, metrics)
  | child :: rest =>
    match walkNode cancelled metrics child (depth + 1) with
    | (.ok, metrics1) => walkChildren cancelled metrics1 rest depth
    | (stop, metrics1) => (stop, metrics1)
end

/-- Embeds `(*DirectoryTree).Walk`: how the call ends and the tree after it. The call
panics on a tree without logger, root or metrics. -/
def DirectoryTree.Walk (dt : DirectoryTree) (cancelled : Bool) :
    Outcome WalkErr × DirectoryTree :=
  if !dt.logger then (.panic, dt)
  else
    match dt.Root, dt.metrics with
    | some root, some metrics =>
      match walkNode cancelled metrics root 0 with
      | (out, metrics1) => (out, { dt with metrics := some metrics1 })
    | _, _ => (.panic, dt)

/-- Embeds `strings.Count(s, sep)` for a one-character separator. -/
def stringsCount (s : GoString) (sep : Char) : Nat := s.count sep

/-- The errors of `CalculateMaxDepth`. -/
inductive DepthErr where
  | emptyPath
  | walk (e : OsErr)
  deriving DecidableEq

/-- Embeds `CalculateMaxDepth`. `filepath.WalkDir` hands the function the root and every
entry below it; for an entry below the root `filepath.Rel` returns the elements of its
path that follow those of the root, joined by the separator. -/
def CalculateMaxDepth (fs : FS) (sourceDir : GoString) : Except DepthErr Int :=
  if sourceDir = [] then .error .emptyPath
  else
    match fs.lookup sourceDir with
    | none => .error (.walk OsErr.notExist)
    | some _ =>
      .ok ((fs.entries.filter (fun x => FS.isBelow (pathKey sourceDir) x.1)).foldl
        (fun (maxDepth : Int) x =>
          let relPath := stringsJoin Separator (x.1.comps.drop (pathKey sourceDir).comps.length)
          let depth : Int := stringsCount relPath Separator + 1
          if depth > maxDepth then depth else maxDepth)
        0)

/-! ## Version-control layer (`git.go`) -/

/-- The answer of the external `git` to one invocation: its combined output and
whether it failed. It may depend on the invocations made before. -/
abbrev GitEnv := List (List GoString) → List GoString → GoString × Bool

/-- The state the version-control layer works on: whether `gitMutex` is held, and the
argument vectors of the `git` invocations made so far. -/
structure GitState where
  mutexHeld : Bool
  commands : List (List GoString)
  deriving DecidableEq

/-- Embeds `gitMutex.Lock()`: `none` when the mutex is held, so that the caller waits. -/
def GitState.lock (st : GitState) : Option GitState :=
  if st.mutexHeld then none else some { st with mutexHeld := true }

/-- Embeds `gitMutex.Unlock()`. -/
def GitState.unlock (st : GitState) : GitState := { st with mutexHeld := false }

/-- Embeds `runGitCommand`: runs `git -C repoDir args...`. -/
def runGitCommand (env : GitEnv) (st : GitState) (repoDir : GoString) (args : List GoString) :
    (GoString × Bool) × GitState :=
  (env st.commands ("-C".toList :: repoDir :: args),
    { st with commands := st.commands ++ ["-C".toList :: repoDir :: args] })

/-- Errors of the version-control layer. -/
inductive GitErr where
  | commitHistory (output : GoString)
  | rewindHistory (output : GoString)
  | invalidTarget (target : GoString)
  | rewindCheckout (commit : GoString) (output : GoString)
  | checkoutFile (path : GoString) (output : GoString)
  | resolveConflict (file : GoString) (e : GitErr)
  | popConflict (output : GoString)
  | popFailed (output : GoString)
  | addFiles (repoDir : GoString) (output : GoString)
  | commitFiles (repoDir : GoString) (output : GoString)
  | addInDir (dir : GoString) (e : GitErr)
  | commitInDir (dir : GoString) (e : GitErr)
  deriving DecidableEq

/-- Embeds `isSHA`: the regular expression `^[a-f0-9]{40}$`. -/
def isSHA (input : GoString) : Bool :=
  input.length == 40 &&
    input.all (fun c => ('a'.toNat ≤ c.toNat && c.toNat ≤ 'f'.toNat)
      || ('0'.toNat ≤ c.toNat && c.toNat ≤ '9'.toNat))

/-- Embeds `GetCommitHistory`: the outcome, the commits it returns and the state after it. -/
def GetCommitHistory (env : GitEnv) (st : GitState) (repoDir : GoString) :
    Outcome GitErr × List GoString × GitState :=
  match st.lock with
  | none => (.blocked, [], st)
  | some st1 =>
    match runGitCommand env st1 repoDir ["rev-list".toList, "--all".toList] with
    | ((output, true), st2) => (.error (.commitHistory output), [], st2.unlock)
    | ((output, false), st2) =>
      (.ok, stringsSplit '\n' (stringsTrimSpace output), st2.unlock)

/-- Lines 224-233 of `GitRewind`: the commit the target names, given the history. -/
def rewindTarget (commits : List GoString) (targetSha : GoString) : Except GitErr GoString :=
  if isSHA targetSha then .ok targetSha
  else
    match strconvAtoi targetSha with
    | none => .error (.invalidTarget targetSha)
    | some steps =>
      if steps < 0 ∨ steps ≥ (commits.length : Int) then .error (.invalidTarget targetSha)
      else .ok (commits.getD steps.toNat [])

/-- Lines 224-238 of `GitRewind`: what it does once it has the history. -/
def rewindWith (env : GitEnv) (st : GitState) (repoDir : GoString) (commits : List GoString)
    (targetSha : GoString) : Outcome GitErr × GitState :=
  match rewindTarget commits targetSha with
  | .error e => (.error e, st)
  | .ok targetCommit =>
    match runGitCommand env st repoDir ["checkout".toList, targetCommit] with
    | ((output, true), st1) => (.error (.rewindCheckout targetCommit output), st1)
    | ((_, false), st1) => (.ok, st1)

/-- Embeds `GitRewind`. -/
def GitRewind (env : GitEnv) (st : GitState) (repoDir targetSha : GoString) :
    Outcome GitErr × GitState :=
  match st.lock with
  | none => (.blocked, st)
  | some st1 =>
    match GetCommitHistory env st1 repoDir with
    | (.ok, commits, st2) =>
      match rewindWith env st2 repoDir commits targetSha with
      | (out, st3) => (out, st3.unlock)
    | (.error (.commitHistory output), _, st2) => (.error (.rewindHistory output), st2.unlock)
    | (.error e, _, st2) => (.error e, st2.unlock)
    | (.blocked, _, st2) => (.blocked, st2)
    | (.panic, _, st2) => (.panic, st2)
    | (.outOfFuel, _, st2) => (.outOfFuel, st2)

/-- The constant `PopStashConflictMsg`. -/
def PopStashConflictMsg : GoString := "overwritten by merge".toList

/-- The constant `ConflictMsgFilesEnd`. -/
def ConflictMsgFilesEnd : GoString := "commit your changes".toList

/-- Embeds `strings.Contains(s, substr)`. -/
def stringsContains (s substr : GoString) : Bool :=
  s.tails.any (fun t => substr.isPrefixOf t)

/-- The loop of `parseConflictFiles` over the lines, on the files gathered so far. -/
def parseConflictLines : List GoString → List GoString → List GoString
  | [], conflictFiles => conflictFiles
  | line :: rest, conflictFiles =>
    if stringsContains line PopStashConflictMsg then
      parseConflictLines rest (conflictFiles ++ [stringsTrimSpace line])
    else if stringsContains line ConflictMsgFilesEnd then conflictFiles
    else parseConflictLines rest conflictFiles

/-- Embeds `parseConflictFiles`. -/
def parseConflictFiles (gitOutput : GoString) : List GoString :=
  parseConflictLines (stringsSplit '\n' gitOutput) []

/-- Embeds `GitCheckoutFile`. -/
def GitCheckoutFile (env : GitEnv) (st : GitState) (repoDir path : GoString) :
    Outcome GitErr × GitState :=
  match st.lock with
  | none => (.blocked, st)
  | some st1 =>
    match runGitCommand env st1 repoDir ["checkout".toList, path] with
    | ((output, true), st2) => (.error (.checkoutFile path output), st2.unlock)
    | ((_, false), st2) => (.ok, st2.unlock)

/-- The loop of `GitStashPop` over the conflicting files: each is checked out, and the
first failure ends the loop. -/
def checkoutConflictFiles (env : GitEnv) (repoDir : GoString) :
    List GoString → GitState → Outcome GitErr × GitState
  | [], st => (.ok, st)
  | file :: rest, st =>
    match GitCheckoutFile env st repoDir file with
    | (.ok, st1) => checkoutConflictFiles env repoDir rest st1
    | (.error resetErr, st1) => (.error (.resolveConflict file resetErr), st1)
    | (stop, st1) => (stop, st1)

/-- Embeds `GitStashPop`. A failure of `git stash drop` is logged only. -/
def GitStashPop (env : GitEnv) (st : GitState) (repoDir : GoString) (forceOverwrite : Bool) :
    Outcome GitErr × GitState :=
  match st.lock with
  | none => (.blocked, st)
  | some st1 =>
    match runGitCommand env st1 repoDir ["stash".toList, "pop".toList] with
    | ((output, failed), st2) =>
      if failed && stringsContains output PopStashConflictMsg then
        if forceOverwrite then
          match checkoutConflictFiles env repoDir (parseConflictFiles output) st2 with
          | (.ok, st3) =>
            ((Outcome.ok : Outcome GitErr),
              (runGitCommand env st3 repoDir ["stash".toList, "drop".toList]).2.unlock)
          | (.error e, st3) => (.error e, st3.unlock)
          | (stop, st3) => (stop, st3)
        else (.error (.popConflict output), st2.unlock)
      else if failed then (.error (.popFailed output), st2.unlock)
      else (.ok, st2.unlock)

/-- Embeds `GitAdd`. -/
def GitAdd (env : GitEnv) (st : GitState) (repoDir path : GoString) :
    Outcome GitErr × GitState :=
  match st.lock with
  | none => (.blocked, st)
  | some st1 =>
    match runGitCommand env st1 repoDir ["add".toList, path] with
    | ((output, true), st2) => (.error (.addFiles repoDir output), st2.unlock)
    | ((_, false), st2) => (.ok, st2.unlock)

/-- Embeds `GitCommit`. -/
def GitCommit (env : GitEnv) (st : GitState) (repoDir commitMsg : GoString) :
    Outcome GitErr × GitState :=
  match st.lock with
  | none => (.blocked, st)
  | some st1 =>
    match runGitCommand env st1 repoDir
        ["commit".toList, "-m".toList, commitMsg, "--allow-empty".toList] with
    | ((output, true), st2) => (.error (.commitFiles repoDir output), st2.unlock)
    | ((_, false), st2) => (.ok, st2.unlock)

/-- Embeds `GitAddAndCommit`. -/
def GitAddAndCommit (env : GitEnv) (st : GitState) (dir message : GoString) :
    Outcome GitErr × GitState :=
  match st.lock with
  | none => (.blocked, st)
  | some st1 =>
    match GitAdd env st1 dir ".".toList with
    | (.ok, st2) =>
      match GitCommit env st2 dir message with
      | (.ok, st3) => (.ok, st3.unlock)
      | (.error e, st3) => (.error (.commitInDir dir e), st3.unlock)
      | (stop, st3) => (stop, st3)
    | (.error e, st2) => (.error (.addInDir dir e), st2.unlock)
    | (stop, st2) => (stop, st2)

/-! ## The error channel of a run (`fs.go`, line 171) -/

/-- The capacity `EnhancedOrganize` gives the error channel:
`len(dfs.WorkspaceManager.centralDB.DirectoryTree.Root.Files)`, for the root the tree
has. -/
def errChCapacity (root : DirectoryNode) : Nat := root.files.length

/-! ## Conversation memory (`llm/memory.go`) -/

/-- The struct `BufferMemory`: its messages and its limit. The observers and the mutex,
which no statement on `messages` reads, are left out. -/
structure BufferMemory where
  messages : List GoString
  maxTokenLimit : Int
  deriving DecidableEq

/-- Embeds `NewBufferMemory`: `none` when `make` panics on a negative capacity. -/
def NewBufferMemory (maxTokenLimit : Int) : Option BufferMemory :=
  if maxTokenLimit < 0 then none else some { messages := [], maxTokenLimit := maxTokenLimit }

/-- Embeds `strings.Join` for a separator of any length. -/
def stringsJoinSep (sep : GoString) : List GoString → GoString
  | [] => []
  | [a] => a
  | a :: b :: rest => a ++ sep ++ stringsJoinSep sep (b :: rest)

/-- Embeds `summarizeMessages`. -/
def summarizeMessages (messages : List GoString) : GoString :=
  "Summary: ".toList ++ stringsJoinSep " | ".toList messages

/-- The slice expression `s[lo:hi]`, its bounds checked against the length of `s`:
`none` when they are out of range (a panic). -/
def sliceOf (s : List GoString) (lo hi : Int) : Option (List GoString) :=
  if 0 ≤ lo ∧ lo ≤ hi ∧ hi ≤ (s.length : Int) then
    some ((s.take hi.toNat).drop lo.toNat)
  else none

/-- Embeds `(*BufferMemory).AddMessage`: the memory after the call, `none` when a slice
expression panics. -/
def BufferMemory.AddMessage (bm : BufferMemory) (message : GoString) : Option BufferMemory :=
  let messages := bm.messages ++ [message]
  if (messages.length : Int) < bm.maxTokenLimit then some { bm with messages := messages }
  else
    match sliceOf messages 0 ((messages.length : Int) - bm.maxTokenLimit) with
    | none => none
    | some old =>
      let summary := summarizeMessages old
      match sliceOf messages ((messages.length : Int) - bm.maxTokenLimit + 1)
          (messages.length : Int) with
      | none => none
      | some kept => some { bm with messages := summary :: kept }

/-- A sequence of `AddMessage` calls, one after the other. -/
def addMessages : BufferMemory → List GoString → Option BufferMemory
  | bm, [] => some bm
  | bm, message :: rest =>
    match bm.AddMessage message with
    | none => none
    | some bm1 => addMessages bm1 rest

/-! ## Notions used to state the properties -/

/-- A plain file or folder name: not empty, without a separator, and neither `.` nor `..`. -/
def PlainName (c : GoString) : Prop :=
  c ≠ [] ∧ Separator ∉ c ∧ c ≠ ['.'] ∧ c ≠ ['.', '.']

instance (c : GoString) : Decidable (PlainName c) := by
  unfold PlainName; infer_instance

/-- Every entry of the filesystem lies in a directory: each proper ancestor of an
existing path is a directory. -/
def FS.WellFormed (fs : FS) : Prop :=
  ∀ x ∈ fs.entries, ∀ p ∈ x.1.comps.inits, p ≠ x.1.comps →
    fs.lookupKey ⟨x.1.rooted, p⟩ = some Entry.dir

instance (fs : FS) : Decidable fs.WellFormed := by
  unfold FS.WellFormed; infer_instance

mutual
/-- The nodes of a category-mapping tree in depth-first, left-to-right pre-order. -/
def preorder : FileTypeNode → List FileTypeNode
  | .mk n e cs p r => .mk n e cs p r :: preorderList cs
/-- Pre-order of a list of sibling subtrees. -/
def preorderList : List FileTypeNode → List FileTypeNode
  | [] => []
  | c :: cs => preorder c ++ preorderList cs
end

/-- The stacks `filepath.Clean` builds: no empty element, no `.`, no separator inside an
element, and `..` only at the bottom of the stack of a relative path. -/
def NormStack (rooted : Bool) : List GoString → Prop
  | [] => True
  | c :: rest =>
    c ≠ [] ∧ c ≠ ['.'] ∧ Separator ∉ c ∧
      (c = ['.', '.'] → rooted = false ∧ ∀ x ∈ rest, x = ['.', '.']) ∧ NormStack rooted rest

/-- The text of a cleaned path up to its last element: the separator of a rooted path,
then every element but the last, each followed by a separator. -/
def pathPrefix (rooted : Bool) (cs : List GoString) : GoString :=
  (if rooted then [Separator] else []) ++ (cs.map (fun c => c ++ [Separator])).flatten

/-- The destination path a file task computes for a file, given the folder the mapping
has for its extension (`fs.go`, lines 465 and 476). -/
def destinationPath (params : FilePathParams) (targetDir : GoString) (fileNode : FileNode) :
    GoString :=
  filepathJoin [filepathJoin [params.TargetDir, targetDir], filepathBase fileNode.path]

/-- The path `dir/stem_n.ext` in the directory of the path `dest`. -/
def suffixedPath (dest stem e : GoString) (n : Nat) : GoString :=
  filepathJoin [filepathDir dest, stem ++ '_' :: strconvItoa n ++ '.' :: e]

mutual
/-- The number of directory nodes of a tree model, the root included. -/
def countDirectoryNodes : DirectoryNode → Nat
  | .mk _ _ children _ _ => 1 + countDirectoryList children
/-- The number of directory nodes of a list of subtrees. -/
def countDirectoryList : List DirectoryNode → Nat
  | [] => 0
  | child :: rest => countDirectoryNodes child + countDirectoryList rest
end

mutual
/-- The greatest depth of a directory node of a tree model below its root (0 for a root
without child directories). -/
def directoryDepth : DirectoryNode → Nat
  | .mk _ _ children _ _ => childrenDepth children
/-- The greatest depth, below the parent, of a directory node of a list of subtrees. -/
def childrenDepth : List DirectoryNode → Nat
  | [] => 0
  | child :: rest => max (directoryDepth child + 1) (childrenDepth rest)
end

/-- Whether a tag is one of the three size classes. -/
def isSizeTag (t : GoString) : Bool :=
  decide (t = TagSizeSmall ∨ t = TagSizeMedium ∨ t = TagSizeLarge)

/-- The number of entries (files and directories) of a filesystem below a directory. -/
def FS.entriesBelow (fs : FS) (root : GoString) : Nat :=
  (fs.entries.filter (fun x => FS.isBelow (pathKey root) x.1)).length

/-- A freshly created `DirectoryTree` that holds the given tree model. -/
def freshTreeOf (root : DirectoryNode) : DirectoryTree :=
  { NewDirectoryTree root.path with Root := some root }

mutual
/-- The number of file nodes of a tree model, those of every directory. -/
def countFileNodes : DirectoryNode → Nat
  | .mk _ _ children files _ => files.length + countFileList children
/-- The number of file nodes of the trees of a list. -/
def countFileList : List DirectoryNode → Nat
  | [] => 0
  | child :: rest => countFileNodes child + countFileList rest
end

mutual
/-- Sibling uniqueness: in the tree, the children of every node have pairwise distinct
path segments. -/
def siblingsUnique : DirectoryNode → Bool
  | .mk _ _ children _ _ =>
    decide ((children.map DirectoryNode.path).Nodup) && siblingsUniqueList children
/-- Sibling uniqueness in every tree of a list. -/
def siblingsUniqueList : List DirectoryNode → Bool
  | [] => true
  | child :: rest => siblingsUnique child && siblingsUniqueList rest
end

mutual
/-- Every node below the given one has the type `Directory`. -/
def childrenAreDirectories : DirectoryNode → Bool
  | .mk _ _ children _ _ => childrenAreDirectoriesList children
/-- Every node of the list, and every node below it, has the type `Directory`. -/
def childrenAreDirectoriesList : List DirectoryNode → Bool
  | [] => true
  | child :: rest =>
    decide (child.type = Directory) && childrenAreDirectories child
      && childrenAreDirectoriesList rest
end

/-- What the memory holds when the messages `added` have been added to an empty memory
of limit `n + 1`: all of them while they are fewer than the limit, and from then on a
summary followed by the last `n` of them. -/
def HoldsLast (n : Nat) (bm : BufferMemory) (added : List GoString) : Prop :=
  bm.maxTokenLimit = ((n + 1 : Nat) : Int) ∧
  (added.length < n + 1 → bm.messages = added) ∧
  (n + 1 ≤ added.length → ∃ summary, bm.messages = summary :: added.drop (added.length - n))

/-! ## Concrete inputs -/

namespace Sample

/-- A mapping with the single category `Notes` for `.txt`, under the root. -/
def mapping : FileTypeNode :=
  .mk "root".toList [] [.mk "Notes".toList [".txt".toList] [] [⟨"root".toList, true⟩] false] [] true

/-- The file node of `src/a.txt`. -/
def srcFile : FileNode :=
  { path := "src/a.txt".toList, name := "a.txt".toList, extension := ".txt".toList,
    metadata := Metadata.zeroValue }

/-- The tree of the directory `src` holding the one file `a.txt`. -/
def srcTree : DirectoryNode := .mk "src".toList 0 [] [srcFile] Metadata.zeroValue

/-- The filesystem with `src/a.txt` (two bytes) and nothing else. -/
def srcFS : FS :=
  ⟨[(⟨false, ["src".toList]⟩, Entry.dir),
    (⟨false, ["src".toList, "a.txt".toList]⟩, Entry.file [104, 105])]⟩

/-- The filesystem with `src/a.txt` and a file `out/Notes/a.txt` of other content. -/
def occupiedFS : FS :=
  ⟨[(⟨false, ["src".toList]⟩, Entry.dir),
    (⟨false, ["src".toList, "a.txt".toList]⟩, Entry.file [104, 105]),
    (⟨false, ["out".toList]⟩, Entry.dir),
    (⟨false, ["out".toList, "Notes".toList]⟩, Entry.dir),
    (⟨false, ["out".toList, "Notes".toList, "a.txt".toList]⟩, Entry.file [111])]⟩

/-- No rename crosses a device. -/
def oneDevice : GoString → GoString → Bool := fun _ _ => false

/-- Every rename crosses a device. -/
def twoDevices : GoString → GoString → Bool := fun _ _ => true

/-- Default parameters (move mode, policy `rename`) from `src` to `out`. -/
def toOut : FilePathParams :=
  { NewFilePathParams with SourceDir := "src".toList, TargetDir := "out".toList }

/-- The file node of `t/Notes/a.txt`, a file that an earlier run put in its category. -/
def placedFile : FileNode :=
  { path := "t/Notes/a.txt".toList, name := "a.txt".toList, extension := ".txt".toList,
    metadata := Metadata.zeroValue }

/-- The tree of the directory `t`, whose folder `Notes` holds `a.txt`. -/
def placedTree : DirectoryNode :=
  .mk "t".toList 0 [.mk "t/Notes".toList 0 [] [placedFile] Metadata.zeroValue] []
    Metadata.zeroValue

/-- The filesystem with `t/Notes/a.txt` (two bytes). -/
def placedFS : FS :=
  ⟨[(⟨false, ["t".toList]⟩, Entry.dir),
    (⟨false, ["t".toList, "Notes".toList]⟩, Entry.dir),
    (⟨false, ["t".toList, "Notes".toList, "a.txt".toList]⟩, Entry.file [104, 105])]⟩

/-- Default parameters organizing `t` in place. -/
def inPlace : FilePathParams :=
  { NewFilePathParams with SourceDir := "t".toList, TargetDir := "t".toList }

/-- The build surroundings in which every `entry.Info()` succeeds and nothing is ignored. -/
def plainEnv : BuildEnv :=
  { info := fun _ => some ⟨2, 420, ⟨1700000000, 0⟩, false⟩, matchesPath := fun _ _ => false }

/-- A `git` whose repository has no commit: `rev-list --all` prints nothing, and every
invocation succeeds. -/
def emptyRepo : GitEnv := fun _ _ => ([], false)

/-- The filesystem with the directory `d` holding the two files `a.txt` and `b.txt`. -/
def pairFS : FS :=
  ⟨[(⟨false, ["d".toList]⟩, Entry.dir),
    (⟨false, ["d".toList, "a.txt".toList]⟩, Entry.file [1]),
    (⟨false, ["d".toList, "b.txt".toList]⟩, Entry.file [2])]⟩

/-- The build surroundings in which `entry.Info()` fails for `d/a.txt` and for no other
entry, and nothing is ignored. -/
def brokenInfoEnv : BuildEnv :=
  { info := fun path =>
      if path = "d/a.txt".toList then none else some ⟨1, 420, ⟨1700000000, 0⟩, false⟩
    matchesPath := fun _ _ => false }

/-- Metadata of a directory that passes `Validate`. -/
def dirMetadata : Metadata :=
  { size := 4096, modifiedAt := ⟨1700000000, 0⟩, createdAt := GoTime.zero, nodeType := Directory,
    permissions := 0o755, owner := "unknown".toList, tags := [] }

/-- A tree whose root carries the zero metadata (which fails `Validate`) and whose child
directory `t/Notes` carries valid directory metadata. -/
def unstampedRoot : DirectoryNode :=
  .mk "t".toList Directory [.mk "t/Notes".toList Directory [] [] dirMetadata] []
    Metadata.zeroValue

/-- A query point. -/
def origin : DirectoryPoint := { Node := NewDirectoryNode [], Metadata := [0, 0, 0, 0] }

/-- The output of `git stash pop` when local changes are in the way. -/
def conflictOutput : GoString :=
  ("error: Your local changes to the following files would be overwritten by merge:\n" ++
    "\tnotes.txt\n\tsrc/main.go\n" ++
    "Please commit your changes or stash them before you merge.\nAborting\n").toList

/-- A `git` whose `stash pop` fails with the conflict output and whose other commands
succeed. -/
def conflictingPop : GitEnv := fun _ args =>
  if args.drop 2 = ["stash".toList, "pop".toList] then (conflictOutput, true) else ([], false)

/-- The file node of `src/sub/a.txt`. -/
def nestedFile : FileNode :=
  { path := "src/sub/a.txt".toList, name := "a.txt".toList, extension := ".txt".toList,
    metadata := Metadata.zeroValue }

/-- The tree of the directory `src`, which holds no file itself and whose folder `sub`
holds `a.txt`. -/
def nestedTree : DirectoryNode :=
  .mk "src".toList Directory [.mk "src/sub".toList Directory [] [nestedFile] Metadata.zeroValue]
    [] Metadata.zeroValue

/-- The filesystem with the directories `src` and `src/sub`, from which the file
`src/sub/a.txt` has been removed since the tree was built. -/
def nestedFS : FS :=
  ⟨[(⟨false, ["src".toList]⟩, Entry.dir), (⟨false, ["src".toList, "sub".toList]⟩, Entry.dir)]⟩

/-- A mapping whose root lists `.txt` itself, above the category `Docs` for `.pdf`. -/
def rootedMapping : FileTypeNode :=
  .mk "root".toList [".txt".toList]
    [.mk "Docs".toList [".pdf".toList] [] [⟨"root".toList, true⟩] false] [] true

/-- A tree whose root has the one child `a`, a node of type `File`. -/
def fileChildRoot : DirectoryNode :=
  .mk "/".toList Directory [.mk "a".toList File [] [] Metadata.zeroValue] [] Metadata.zeroValue

/-- The filesystem with the file `t/Notes/.txt`. -/
def dotFS : FS :=
  ⟨[(⟨false, ["t".toList]⟩, Entry.dir),
    (⟨false, ["t".toList, "Notes".toList]⟩, Entry.dir),
    (⟨false, ["t".toList, "Notes".toList, ".txt".toList]⟩, Entry.file [104, 105])]⟩

/-- A file name of 255 bytes, the longest the kernel takes: 251 times `a`, then `.txt`. -/
def longName : GoString := List.replicate 251 'a' ++ ".txt".toList

/-- The file node of the file of that name in `src`. -/
def longFile : FileNode :=
  { path := "src/".toList ++ longName, name := longName, extension := ".txt".toList,
    metadata := Metadata.zeroValue }

/-- The filesystem with a file of that name in `src` and another one in `out/Notes`. -/
def longFS : FS :=
  ⟨[(⟨false, ["src".toList]⟩, Entry.dir),
    (⟨false, ["src".toList, longName]⟩, Entry.file [104, 105]),
    (⟨false, ["out".toList]⟩, Entry.dir),
    (⟨false, ["out".toList, "Notes".toList]⟩, Entry.dir),
    (⟨false, ["out".toList, "Notes".toList, longName]⟩, Entry.file [111])]⟩

/-- The id of the latest commit of the sample repository. -/
def headCommit : GoString := "0123456789abcdef0123456789abcdef01234567".toList

/-- The id of its first commit. -/
def firstCommit : GoString := "89abcdef0123456789abcdef0123456789abcdef".toList

/-- A `git` whose repository has these two commits, and whose commands all succeed. -/
def twoCommits : GitEnv := fun _ args =>
  if args.drop 2 = ["rev-list".toList, "--all".toList] then
    (headCommit ++ '\n' :: firstCommit ++ ['\n'], false)
  else ([], false)

end Sample

/-! # Properties -/

set_option maxRecDepth 100000

/-! ## Strings and paths -/

theorem stringsSplit_ne_nil (sep : Char) (s : GoString) : stringsSplit sep s ≠ [] := by
  induction s with
  | nil => simp [stringsSplit]
  | cons c cs ih =>
    rw [stringsSplit]
    split
    · simp
    · cases h : stringsSplit sep cs with
      | nil => simp
      | cons a t => simp

theorem stringsSplit_of_not_mem (sep : Char) (s : GoString) (h : sep ∉ s) :
    stringsSplit sep s = [s] := by
  induction s with
  | nil => simp [stringsSplit]
  | cons c cs ih =>
    have hc : c ≠ sep := fun e => h (by simp [e])
    have hcs : sep ∉ cs := fun e => h (by simp [e])
    rw [stringsSplit, if_neg hc, ih hcs]

theorem stringsSplit_append (sep : Char) (a b : GoString) :
    stringsSplit sep (a ++ sep :: b) = stringsSplit sep a ++ stringsSplit sep b := by
  induction a with
  | nil => simp [stringsSplit]
  | cons c cs ih =>
    by_cases hc : c = sep
    · simp [stringsSplit, hc, ih]
    · rw [List.cons_append, stringsSplit, if_neg hc, ih, stringsSplit, if_neg hc]
      cases h : stringsSplit sep cs with
      | nil => exact absurd h (stringsSplit_ne_nil sep cs)
      | cons x t => simp

theorem stringsSplit_mem_not_sep (sep : Char) (s : GoString) :
    ∀ x ∈ stringsSplit sep s, sep ∉ x := by
  induction s with
  | nil => simp [stringsSplit]
  | cons c cs ih =>
    rw [stringsSplit]
    split
    · intro x hx
      rcases List.mem_cons.mp hx with rfl | hx
      · simp
      · exact ih x hx
    · rename_i hc
      cases h : stringsSplit sep cs with
      | nil => exact absurd h (stringsSplit_ne_nil sep cs)
      | cons y t =>
        rw [h] at ih
        intro x hx
        rcases List.mem_cons.mp hx with rfl | hx
        · intro hmem
          rcases List.mem_cons.mp hmem with e | hmem
          · exact hc e.symm
          · exact ih y (by simp) hmem
        · exact ih x (by simp [hx])

theorem stringsSplit_join (sep : Char) : ∀ cs : List GoString, cs ≠ [] →
    (∀ c ∈ cs, sep ∉ c) → stringsSplit sep (stringsJoin sep cs) = cs
  | [], h, _ => absurd rfl h
  | [a], _, hs => by
    rw [stringsJoin]; exact stringsSplit_of_not_mem sep a (hs a (by simp))
  | a :: b :: rest, _, hs => by
    rw [stringsJoin, stringsSplit_append, stringsSplit_of_not_mem sep a (hs a (by simp)),
      stringsSplit_join sep (b :: rest) (by simp) (fun c hc => hs c (by simp [hc]))]
    rfl

theorem NormStack_cleanStep (rooted : Bool) (stack : List GoString) (c : GoString)
    (hs : NormStack rooted stack) (hc : Separator ∉ c) :
    NormStack rooted (cleanStep rooted stack c) := by
  unfold cleanStep
  split
  · exact hs
  · rename_i h1
    push_neg at h1
    split
    · rename_i h2
      subst h2
      cases stack with
      | nil =>
        cases rooted with
        | true => simp [NormStack]
        | false => simp [NormStack, Separator]
      | cons top rest =>
        simp only
        split
        · rename_i h3
          subst h3
          obtain ⟨hr, hall⟩ := hs.2.2.2.1 rfl
          refine ⟨by simp, by simp, hc, fun _ => ⟨hr, ?_⟩, hs⟩
          intro x hx
          rcases List.mem_cons.mp hx with rfl | hx
          · rfl
          · exact hall x hx
        · exact hs.2.2.2.2
    · rename_i h2
      exact ⟨h1.1, h1.2, hc, fun e => absurd e h2, hs⟩

theorem NormStack_foldl (rooted : Bool) : ∀ (cs : List GoString) (stack : List GoString),
    NormStack rooted stack → (∀ c ∈ cs, Separator ∉ c) →
    NormStack rooted (cs.foldl (cleanStep rooted) stack)
  | [], stack, hs, _ => hs
  | c :: cs, stack, hs, hc => by
    rw [List.foldl_cons]
    exact NormStack_foldl rooted cs _ (NormStack_cleanStep rooted stack c hs (hc c (by simp)))
      (fun x hx => hc x (by simp [hx]))

theorem NormStack_of_append (rooted : Bool) : ∀ (a b : List GoString),
    NormStack rooted (a ++ b) → NormStack rooted b
  | [], _, h => h
  | _ :: a, b, h => NormStack_of_append rooted a b h.2.2.2.2

theorem cleanStep_push (rooted : Bool) (stack : List GoString) (c : GoString)
    (h : NormStack rooted (c :: stack)) : cleanStep rooted stack c = c :: stack := by
  obtain ⟨h1, h2, -, h4, -⟩ := h
  unfold cleanStep
  rw [if_neg (by simp [h1, h2])]
  split
  · rename_i h5
    obtain ⟨hr, hall⟩ := h4 h5
    cases stack with
    | nil => simp [hr, h5]
    | cons top rest => simp [hall top (by simp), h5]
  · rfl

theorem foldl_cleanStep_normal (rooted : Bool) : ∀ (cs stack : List GoString),
    NormStack rooted (cs.reverse ++ stack) →
    cs.foldl (cleanStep rooted) stack = cs.reverse ++ stack
  | [], _, _ => by simp
  | c :: cs, stack, h => by
    have h' : NormStack rooted (cs.reverse ++ (c :: stack)) := by simpa using h
    rw [List.foldl_cons, cleanStep_push rooted stack c (NormStack_of_append rooted _ _ h'),
      foldl_cleanStep_normal rooted cs (c :: stack) h']
    simp

theorem NormStack_mem (rooted : Bool) : ∀ (stack : List GoString), NormStack rooted stack →
    ∀ c ∈ stack, c ≠ [] ∧ Separator ∉ c
  | [], _, c, hc => by simp at hc
  | d :: rest, h, c, hc => by
    rcases List.mem_cons.mp hc with rfl | hc
    · exact ⟨h.1, h.2.2.1⟩
    · exact NormStack_mem rooted rest h.2.2.2.2 c hc

theorem cleanComps_normal (s : GoString) :
    NormStack (isRooted s) (cleanComps s).reverse := by
  unfold cleanComps
  rw [List.reverse_reverse]
  exact NormStack_foldl _ _ _ trivial (stringsSplit_mem_not_sep Separator s)

theorem cleanComps_mem (s : GoString) : ∀ c ∈ cleanComps s, c ≠ [] ∧ Separator ∉ c := by
  intro c hc
  exact NormStack_mem _ _ (cleanComps_normal s) c (by simpa using hc)

theorem isRooted_stringsJoin : ∀ (cs : List GoString), cs ≠ [] →
    (∀ c ∈ cs, c ≠ [] ∧ Separator ∉ c) → isRooted (stringsJoin Separator cs) = false
  | [], h, _ => absurd rfl h
  | [a], _, hs => by
    obtain ⟨h1, h2⟩ := hs a (by simp)
    cases a with
    | nil => exact absurd rfl h1
    | cons x xs =>
      simp only [stringsJoin, isRooted, decide_eq_false_iff_not]
      intro e; exact h2 (by simp [e])
  | a :: b :: rest, _, hs => by
    obtain ⟨h1, h2⟩ := hs a (by simp)
    cases a with
    | nil => exact absurd rfl h1
    | cons x xs =>
      simp only [stringsJoin, List.cons_append, isRooted, decide_eq_false_iff_not]
      intro e; exact h2 (by simp [e])

theorem isRooted_filepathClean (s : GoString) : isRooted (filepathClean s) = isRooted s := by
  unfold filepathClean
  by_cases hr : isRooted s = true
  · rw [if_pos hr, hr]
    simp [isRooted]
  · rw [if_neg hr]
    have hr' : isRooted s = false := by simpa using hr
    split
    · rw [hr']; rfl
    · rename_i hne
      rw [isRooted_stringsJoin _ hne (cleanComps_mem s), hr']

theorem cleanComps_filepathClean (s : GoString) :
    cleanComps (filepathClean s) = cleanComps s := by
  have hn := cleanComps_normal s
  have hm := cleanComps_mem s
  have hroot := isRooted_filepathClean s
  rw [cleanComps, hroot]
  unfold filepathClean
  by_cases hr : isRooted s = true
  · rw [if_pos hr]
    by_cases he : cleanComps s = []
    · simp [he, stringsJoin, stringsSplit, cleanStep, Separator]
    · have : stringsSplit Separator (Separator :: stringsJoin Separator (cleanComps s))
          = [] :: cleanComps s := by
        rw [stringsSplit, if_pos rfl, stringsSplit_join _ _ he (fun c hc => (hm c hc).2)]
      rw [this, List.foldl_cons]
      have h0 : cleanStep (isRooted s) [] [] = [] := by simp [cleanStep]
      rw [h0, foldl_cleanStep_normal _ _ _ (by simpa using hn)]
      simp
  · rw [if_neg hr]
    by_cases he : cleanComps s = []
    · rw [if_pos he, he]
      have hr' : isRooted s = false := by simpa using hr
      simp [stringsSplit, cleanStep, Separator, hr']
    · rw [if_neg he, stringsSplit_join _ _ he (fun c hc => (hm c hc).2),
        foldl_cleanStep_normal _ _ _ (by simpa using hn)]
      simp

theorem pathKey_filepathClean (s : GoString) : pathKey (filepathClean s) = pathKey s := by
  simp [pathKey, isRooted_filepathClean, cleanComps_filepathClean]

theorem isRooted_append (d rest : GoString) (hd : d ≠ []) :
    isRooted (d ++ rest) = isRooted d := by
  cases d with
  | nil => exact absurd rfl hd
  | cons x xs => rfl

theorem cleanComps_append_name (d b : GoString) (hd : d ≠ []) (hb : PlainName b) :
    cleanComps (d ++ Separator :: b) = cleanComps d ++ [b] := by
  obtain ⟨h1, h2, h3, h4⟩ := hb
  unfold cleanComps
  rw [isRooted_append d _ hd, stringsSplit_append, stringsSplit_of_not_mem _ b h2,
    List.foldl_append]
  simp only [List.foldl_cons, List.foldl_nil]
  have : ∀ st, cleanStep (isRooted d) st b = b :: st := by
    intro st; simp [cleanStep, h1, h3, h4]
  rw [this]; simp

theorem pathKey_append_name (d b : GoString) (hd : d ≠ []) (hb : PlainName b) :
    pathKey (d ++ Separator :: b) = ⟨(pathKey d).rooted, (pathKey d).comps ++ [b]⟩ := by
  simp [pathKey, isRooted_append d _ hd, cleanComps_append_name d b hd hb]

theorem filepathClean_ne_nil (s : GoString) : filepathClean s ≠ [] := by
  unfold filepathClean
  split
  · simp
  · split
    · simp
    · rename_i hr hne
      intro h
      have := isRooted_stringsJoin _ hne (cleanComps_mem s)
      cases hc : cleanComps s with
      | nil => exact hne hc
      | cons a t =>
        have ha := (cleanComps_mem s a (by simp [hc])).1
        rw [hc] at h
        cases t with
        | nil => exact ha (by simpa [stringsJoin] using h)
        | cons b t' => simp [stringsJoin] at h

/-! ## Category mapping -/

mutual
theorem findFolder_eq_find (ext : GoString) : ∀ node : FileTypeNode,
    findFolderForExtension node ext =
      match (preorder node).find? (fun n => n.AllowsExtension ext) with
      | some n => (buildPathFromNode n, true)
      | none => ([], false)
  | .mk n e cs p r => by
    rw [findFolderForExtension, preorder]
    by_cases h : (FileTypeNode.mk n e cs p r).AllowsExtension ext = true
    · simp [h, List.find?]
    · simp only [h, Bool.false_eq_true, if_false]
      rw [List.find?_cons_of_neg _ (by simpa using h)]
      exact findChildren_eq_find ext cs
theorem findChildren_eq_find (ext : GoString) : ∀ cs : List FileTypeNode,
    findInChildren cs ext =
      match (preorderList cs).find? (fun n => n.AllowsExtension ext) with
      | some n => (buildPathFromNode n, true)
      | none => ([], false)
  | [] => by simp [findInChildren, preorderList]
  | c :: cs => by
    rw [findInChildren, preorderList, findFolder_eq_find ext c, List.find?_append]
    cases h : (preorder c).find? (fun n => n.AllowsExtension ext) with
    | some n => simp
    | none => simpa using findChildren_eq_find ext cs
end


theorem NormStack_of_plain (rooted : Bool) : ∀ (l : List GoString),
    (∀ c ∈ l, PlainName c) → NormStack rooted l
  | [], _ => trivial
  | c :: rest, h => by
    obtain ⟨h1, h2, h3, h4⟩ := h c (by simp)
    exact ⟨h1, h3, h2, fun e => absurd e h4,
      NormStack_of_plain rooted rest (fun x hx => h x (by simp [hx]))⟩

theorem cleanComps_join_plain (cs : List GoString) (hne : cs ≠ [])
    (hp : ∀ c ∈ cs, PlainName c) : cleanComps (stringsJoin Separator cs) = cs := by
  unfold cleanComps
  rw [stringsSplit_join _ _ hne (fun c hc => (hp c hc).2.1),
    foldl_cleanStep_normal _ _ _
      (NormStack_of_plain _ _ (by simpa using hp))]
  simp

theorem filepathClean_join_plain (cs : List GoString) (hne : cs ≠ [])
    (hp : ∀ c ∈ cs, PlainName c) :
    filepathClean (stringsJoin Separator cs) = stringsJoin Separator cs := by
  unfold filepathClean
  rw [isRooted_stringsJoin _ hne (fun c hc => ⟨(hp c hc).1, (hp c hc).2.1⟩),
    cleanComps_join_plain cs hne hp]
  simp [hne]

theorem filepathJoin_plain (cs : List GoString) (hne : cs ≠ [])
    (hp : ∀ c ∈ cs, PlainName c) : filepathJoin cs = stringsJoin Separator cs := by
  unfold filepathJoin
  have hf : cs.filter (fun e => decide (e ≠ [])) = cs := by
    rw [List.filter_eq_self]
    intro c hc
    simpa using (hp c hc).1
  rw [hf]
  cases cs with
  | nil => exact absurd rfl hne
  | cons e es => exact filepathClean_join_plain (e :: es) hne hp

theorem collectSegments_below (rootAnc : Ancestor) (above : List Ancestor)
    (hroot : rootAnc.isRoot = true) : ∀ (below : List Ancestor) (segs : List GoString),
    (∀ a ∈ below, a.isRoot = false) →
    collectSegments (below ++ rootAnc :: above) segs
      = (below.reverse.map (fun a => a.name)) ++ segs
  | [], segs, _ => by simp [collectSegments, hroot]
  | a :: rest, segs, h => by
    have ha : a.isRoot = false := h a (by simp)
    rw [List.cons_append, collectSegments, ha]
    simp only [Bool.false_eq_true, if_false]
    rw [collectSegments_below rootAnc above hroot rest (a.name :: segs)
      (fun x hx => h x (by simp [hx]))]
    simp

/-- C9. For a node that is not the root, whose `Parent` chain leads through the
ancestors `below` (nearest first, none of them the root) to the root, all names being
plain, `buildPathFromNode` returns the names of the ancestors below the root in
root-to-node order, then the name of the node, joined with the separator; the name of
the root and of what lies above it is not used. With the root as only ancestor the path
is the name of the node. -/
theorem buildPathFromNode_below_root (name : GoString) (exts : List GoString)
    (children : List FileTypeNode) (below : List Ancestor) (rootAnc : Ancestor)
    (above : List Ancestor) (hroot : rootAnc.isRoot = true)
    (hbelow : ∀ a ∈ below, a.isRoot = false) (hname : PlainName name)
    (hnames : ∀ a ∈ below, PlainName a.name) :
    buildPathFromNode (.mk name exts children (below ++ rootAnc :: above) false)
        = stringsJoin Separator (below.reverse.map (fun a => a.name) ++ [name]) ∧
      (below = [] →
        buildPathFromNode (.mk name exts children (below ++ rootAnc :: above) false) = name) := by
  have key : buildPathFromNode (.mk name exts children (below ++ rootAnc :: above) false)
      = stringsJoin Separator (below.reverse.map (fun a => a.name) ++ [name]) := by
    simp only [buildPathFromNode, FileTypeNode.IsRoot, FileTypeNode.parent, FileTypeNode.name]
    rw [collectSegments_below rootAnc above hroot below [name] hbelow]
    apply filepathJoin_plain
    · simp
    · intro c hc
      rcases List.mem_append.mp hc with hc | hc
      · obtain ⟨a, ha, rfl⟩ := List.mem_map.mp hc
        exact hnames a (by simpa using ha)
      · rw [List.mem_singleton.mp hc]; exact hname
  refine ⟨key, ?_⟩
  intro hb
  rw [key, hb]
  simp [stringsJoin]

/-- Witness of C9: the node `Old` under `Notes` under the root gets `Notes/Old`. -/
theorem buildPathFromNode_below_root_witness :
    PlainName "Old".toList ∧ PlainName "Notes".toList ∧
      buildPathFromNode
          (.mk "Old".toList [] [] [⟨"Notes".toList, false⟩, ⟨"root".toList, true⟩] false)
        = "Notes/Old".toList :=
  ⟨by decide, by decide,
    (buildPathFromNode_below_root "Old".toList [] [] [⟨"Notes".toList, false⟩]
      ⟨"root".toList, true⟩ [] rfl (by decide) (by decide) (by decide)).1⟩


/-! ## Version-control layer -/

theorem isSHA_iff (t : GoString) :
    isSHA t = true ↔
      t.length = 40 ∧ ∀ c ∈ t, ('0' ≤ c ∧ c ≤ '9') ∨ ('a' ≤ c ∧ c ≤ 'f') := by
  unfold isSHA
  simp only [Bool.and_eq_true, beq_iff_eq, List.all_eq_true, Bool.or_eq_true,
    decide_eq_true_eq]
  constructor
  · rintro ⟨h1, h2⟩
    refine ⟨h1, fun c hc => ?_⟩
    rcases h2 c hc with h | h
    · right; exact h
    · left; exact h
  · rintro ⟨h1, h2⟩
    refine ⟨h1, fun c hc => ?_⟩
    rcases h2 c hc with h | h
    · right; exact h
    · left; exact h

/-- The steps of `GitRewind` that follow the retrieval of the history (lines 224-238),
for every history and every target. A target of exactly 40 characters, each in `0-9` or
`a-f`, is used unchanged as the commit; any other target that `strconv.Atoi` parses as a
`k` with `0 <= k < len(commits)` names `commits[k]`; the commit so named is the one
`git checkout` is invoked on; and for every other target the steps return the error
`invalid target commit` and invoke nothing. -/
theorem rewind_target_rule (env : GitEnv) (st : GitState) (repoDir : GoString)
    (commits : List GoString) (target : GoString) :
    (isSHA target = true ↔
      target.length = 40 ∧ ∀ c ∈ target, ('0' ≤ c ∧ c ≤ '9') ∨ ('a' ≤ c ∧ c ≤ 'f')) ∧
    (isSHA target = true → rewindTarget commits target = .ok target) ∧
    (isSHA target = false → ∀ k : Int, strconvAtoi target = some k → 0 ≤ k →
      k < commits.length →
      ∃ c, commits[k.toNat]? = some c ∧ rewindTarget commits target = .ok c) ∧
    (∀ c, rewindTarget commits target = .ok c →
      (rewindWith env st repoDir commits target).2.commands
        = st.commands ++ [["-C".toList, repoDir, "checkout".toList, c]]) ∧
    (isSHA target = false →
      (∀ k : Int, strconvAtoi target = some k → k < 0 ∨ (commits.length : Int) ≤ k) →
      rewindWith env st repoDir commits target = (.error (.invalidTarget target), st)) := by
  refine ⟨isSHA_iff target, ?_, ?_, ?_, ?_⟩
  · intro h
    simp [rewindTarget, h]
  · intro h k hk h0 hlt
    have hlt' : k.toNat < commits.length := by omega
    refine ⟨commits[k.toNat], by simp [hlt'], ?_⟩
    simp only [rewindTarget, h, Bool.false_eq_true, if_false, hk]
    rw [if_neg (by omega)]
    simp [List.getD, hlt']
  · intro c hc
    simp only [rewindWith, hc, runGitCommand]
    split <;> rename_i heq <;> simp at heq <;> rw [← heq.2] <;> rfl
  · intro h hall
    have ht : rewindTarget commits target = .error (.invalidTarget target) := by
      simp only [rewindTarget, h, Bool.false_eq_true, if_false]
      cases hk : strconvAtoi target with
      | none => rfl
      | some k =>
        have := hall k hk
        simp only
        rw [if_pos (by omega)]
    simp [rewindWith, ht]

/-- C6 fails on the code. (1) Whatever the repository and the target, `GitRewind` never
returns: it holds `gitMutex` when it calls `GetCommitHistory`, which locks the same mutex;
no `git` command is issued. (2) In a repository without commits (`M = 0`),
`GetCommitHistory` returns a history of length one, the empty string, so that for the
target `strconv.Itoa(0)` the steps after the history do not return an error: they invoke
`git checkout` on the empty commit id. -/
theorem rewind_bounds_violated :
    (∀ (env : GitEnv) (commands : List (List GoString)) (repoDir target : GoString),
      GitRewind env ⟨false, commands⟩ repoDir target = (.blocked, ⟨true, commands⟩)) ∧
    (GetCommitHistory Sample.emptyRepo ⟨false, []⟩ "repo".toList).2.1 = [[]] ∧
    rewindWith Sample.emptyRepo ⟨false, []⟩ "repo".toList [[]] (strconvItoa 0)
      = (.ok, ⟨false, [["-C".toList, "repo".toList, "checkout".toList, []]]⟩) := by
  refine ⟨?_, by decide, by decide⟩
  intro env commands repoDir target
  simp [GitRewind, GitState.lock, GetCommitHistory]


/-- C7 fails on the code. `GitRewind` locks `gitMutex` and then calls `GetCommitHistory`,
which locks the same mutex, so that from a free mutex the call waits for ever, whatever
git answers and whatever the target: it resolves no target, issues no `git checkout` and
returns no error, be the target a commit id of 40 characters, a step count within the
history, or neither. The steps after the retrieval of the history, which the call does
not reach, do follow the rule of the claim: a 40-character target of `0-9`, `a-f` names
itself, an integer `k` within the history names its `k`-th entry, the commit named is
checked out, and every other target gives the error `invalid target commit` without a
command. -/
theorem rewind_blocks_before_target_rule :
    (∀ (env : GitEnv) (commands : List (List GoString)) (repoDir target : GoString),
      GitRewind env ⟨false, commands⟩ repoDir target = (.blocked, ⟨true, commands⟩)) ∧
    (isSHA Sample.headCommit = true ∧
      GitRewind Sample.twoCommits ⟨false, []⟩ "repo".toList Sample.headCommit
        = (.blocked, ⟨true, []⟩) ∧
      rewindWith Sample.twoCommits ⟨true, []⟩ "repo".toList
          [Sample.headCommit, Sample.firstCommit] Sample.headCommit
        = (.ok, ⟨true, [["-C".toList, "repo".toList, "checkout".toList, Sample.headCommit]]⟩)) ∧
    (GitRewind Sample.twoCommits ⟨false, []⟩ "repo".toList "1".toList
        = (.blocked, ⟨true, []⟩) ∧
      rewindWith Sample.twoCommits ⟨true, []⟩ "repo".toList
          [Sample.headCommit, Sample.firstCommit] "1".toList
        = (.ok, ⟨true, [["-C".toList, "repo".toList, "checkout".toList, Sample.firstCommit]]⟩)) ∧
    (GitRewind Sample.twoCommits ⟨false, []⟩ "repo".toList "2".toList
        = (.blocked, ⟨true, []⟩) ∧
      rewindWith Sample.twoCommits ⟨true, []⟩ "repo".toList
          [Sample.headCommit, Sample.firstCommit] "2".toList
        = (.error (.invalidTarget "2".toList), ⟨true, []⟩)) ∧
    (∀ (env : GitEnv) (st : GitState) (repoDir : GoString) (commits : List GoString)
        (target : GoString),
      (isSHA target = true → rewindTarget commits target = .ok target) ∧
      (isSHA target = false → ∀ k : Int, strconvAtoi target = some k → 0 ≤ k →
        k < commits.length →
        ∃ c, commits[k.toNat]? = some c ∧ rewindTarget commits target = .ok c) ∧
      (∀ c, rewindTarget commits target = .ok c →
        (rewindWith env st repoDir commits target).2.commands
          = st.commands ++ [["-C".toList, repoDir, "checkout".toList, c]]) ∧
      (isSHA target = false →
        (∀ k : Int, strconvAtoi target = some k → k < 0 ∨ (commits.length : Int) ≤ k) →
        rewindWith env st repoDir commits target = (.error (.invalidTarget target), st))) := by
  refine ⟨fun _ _ _ _ => rfl, ⟨by decide, by decide, by decide⟩, ⟨by decide, by decide⟩,
    ⟨by decide, by decide⟩, ?_⟩
  intro env st repoDir commits target
  exact (rewind_target_rule env st repoDir commits target).2

/-! ## Organize engine -/

theorem filepathJoin_ne_nil (a b : GoString) (ha : a ≠ []) : filepathJoin [a, b] ≠ [] := by
  unfold filepathJoin
  by_cases hb : b = []
  · simp [List.filter, ha, hb, filepathClean_ne_nil]
  · simp [List.filter, ha, hb, filepathClean_ne_nil]

theorem pathKey_filepathJoin_name (d b : GoString) (hd : d ≠ []) (hb : PlainName b) :
    pathKey (filepathJoin [d, b]) = ⟨(pathKey d).rooted, (pathKey d).comps ++ [b]⟩ := by
  have hb' : b ≠ [] := hb.1
  have : filepathJoin [d, b] = filepathClean (d ++ Separator :: b) := by
    simp [filepathJoin, List.filter, hd, hb', stringsJoin]
  rw [this, pathKey_filepathClean, pathKey_append_name d b hd hb]

theorem mkdirChain_of_dirs (fs : FS) (rooted : Bool) : ∀ (ps : List (List GoString)),
    (∀ p ∈ ps, fs.lookupKey ⟨rooted, p⟩ = some Entry.dir) →
    fs.mkdirChain rooted ps = .ok fs
  | [], _ => rfl
  | p :: ps, h => by
    rw [FS.mkdirChain, h p (by simp)]
    exact mkdirChain_of_dirs fs rooted ps (fun q hq => h q (by simp [hq]))

theorem mkdirAll_of_child_exists (fs : FS) (d b : GoString) (hd : d ≠ [])
    (hb : PlainName b) (hwf : fs.WellFormed)
    (hex : fs.exists_ (filepathJoin [d, b]) = true) : fs.mkdirAll d = .ok fs := by
  have hkey := pathKey_filepathJoin_name d b hd hb
  have hne := filepathJoin_ne_nil d b hd
  simp only [FS.exists_, FS.lookup, if_neg hne, hkey, FS.lookupKey] at hex
  rw [if_neg (by simp)] at hex
  cases hf : fs.entries.find?
      (fun e => decide (e.1 = (⟨(pathKey d).rooted, (pathKey d).comps ++ [b]⟩ : PathKey))) with
  | none => rw [hf] at hex; simp at hex
  | some x =>
    have hx := List.mem_of_find?_eq_some hf
    have hx1 : x.1 = ⟨(pathKey d).rooted, (pathKey d).comps ++ [b]⟩ := by
      simpa using List.find?_some hf
    have hw := hwf x hx
    rw [hx1] at hw
    simp only at hw
    unfold FS.mkdirAll
    rw [if_neg hd]
    apply mkdirChain_of_dirs
    intro p hp
    have hp' : p ∈ (pathKey d).comps.inits := List.mem_of_mem_tail hp
    rw [List.mem_inits] at hp'
    apply hw p
    · rw [List.mem_inits]
      exact hp'.trans (List.prefix_append _ _)
    · intro e
      have := hp'.length_le
      rw [e] at this
      simp at this

/-- C4. For a file task that computes a destination path (the mapping has a folder for the
extension) which exists before the call, with the conflict policy `skip`, the state the
tasks share is the same after the task as before it: the filesystem is unchanged (nothing
is copied, moved or created, so the source file and the destination file keep their
bytes) and nothing is pushed to the error channel. The filesystem is well formed (each
entry lies in a directory), the target directory of the parameters is not empty and the
file node carries a plain file name. -/
theorem skip_leaves_everything_untouched (xdev : GoString → GoString → Bool)
    (cfgRoot : FileTypeNode) (params : FilePathParams) (cap fuel : Nat) (fileNode : FileNode)
    (st : OrgState) (targetDir : GoString)
    (hskip : params.ConflictResolution = Skip)
    (htarget : params.TargetDir ≠ [])
    (hname : PlainName (filepathBase fileNode.path))
    (hwf : st.fs.WellFormed)
    (hfound : determineTargetFolder fileNode cfgRoot = (targetDir, true))
    (hexists : st.fs.exists_
      (filepathJoin [filepathJoin [params.TargetDir, targetDir], filepathBase fileNode.path])
        = true) :
    fileTask xdev cfgRoot params cap fuel fileNode st = some st := by
  have hd := filepathJoin_ne_nil params.TargetDir targetDir htarget
  have hmk := mkdirAll_of_child_exists st.fs _ _ hd hname hwf hexists
  have hne : Skip ≠ Overwrite := by decide
  unfold fileTask
  by_cases hc : st.cancelled = true
  · rw [if_pos hc]
  · rw [if_neg hc, hfound]
    simp only [hmk, resolveConflict, hexists, if_true, hskip, if_neg hne]

/-- Witness of C4: `src/a.txt` is organized into `out`, where `out/Notes/a.txt` exists. -/
theorem skip_leaves_everything_untouched_witness :
    Sample.occupiedFS.WellFormed ∧
      Sample.occupiedFS.exists_ "out/Notes/a.txt".toList = true ∧
      fileTask Sample.oneDevice Sample.mapping { Sample.toOut with ConflictResolution := Skip } 1 8
          Sample.srcFile ⟨Sample.occupiedFS, [], false⟩
        = some ⟨Sample.occupiedFS, [], false⟩ :=
  ⟨by decide, by decide,
    skip_leaves_everything_untouched Sample.oneDevice Sample.mapping
      { Sample.toOut with ConflictResolution := Skip } 1 8 Sample.srcFile
      ⟨Sample.occupiedFS, [], false⟩ "Notes".toList rfl (by decide) (by decide) (by decide)
      (by decide) (by decide)⟩


/-- C1 fails on the code. With `DryRun = true`, organizing the tree of `src` (one file,
`a.txt`) into `out` leaves the file where it is but creates the directories `out` and
`out/Notes`: `traverseAndOrganize` calls `os.MkdirAll` on the destination directory
before it looks at `params.DryRun`. -/
theorem dryRun_creates_destination_directory :
    Sample.srcFS.exists_ "out/Notes".toList = false ∧
    traverseAndOrganize Sample.oneDevice Sample.mapping { Sample.toOut with DryRun := true } 1 8
        Sample.srcTree ⟨Sample.srcFS, [], false⟩
      = some ⟨⟨Sample.srcFS.entries ++
            [(⟨false, ["out".toList]⟩, Entry.dir),
             (⟨false, ["out".toList, "Notes".toList]⟩, Entry.dir)]⟩, [], false⟩ := by
  decide

/-- C2 fails on the code. `Move` answers a cross-device failure of `os.Rename` by calling
`Copy` on the node it was given; the node a file task passes has neither children nor
files, and `Copy` refuses such a node. So for every file and destination the fallback
returns an error and copies nothing; in the run below the error is pushed to the error
channel, the context is cancelled, the source keeps its bytes and no destination file
exists. -/
theorem crossDevice_fallback_returns_error :
    (∀ (xdev : GoString → GoString → Bool) (fs : FS) (path dst : GoString) (recursive : Bool),
      fs.rename xdev path dst = .error OsErr.crossDevice →
      Move xdev fs (.mk path 0 [] [] Metadata.zeroValue) dst recursive false
        = (some (.crossDeviceCopy .nothingToCopy), fs)) ∧
    traverseAndOrganize Sample.twoDevices Sample.mapping Sample.toOut 1 8
        Sample.srcTree ⟨Sample.srcFS, [], false⟩
      = some ⟨⟨Sample.srcFS.entries ++
            [(⟨false, ["out".toList]⟩, Entry.dir),
             (⟨false, ["out".toList, "Notes".toList]⟩, Entry.dir)]⟩,
          [.fileOperation "src/a.txt".toList (.crossDeviceCopy .nothingToCopy)], true⟩ := by
  refine ⟨?_, by decide⟩
  intro xdev fs path dst recursive h
  simp [Move, h, Copy, DirectoryNode.path]

/-- C5 fails on the code. The file `t/Notes/a.txt` is organized in place (source and
target directory are `t`) in copy mode with the policy `overwrite`: its destination path
is its own path. `copyFile` opens the source, truncates the destination, which is the same
file, and copies the empty content. The operation reports no error, and the destination
holds no byte of what the source held before the call. -/
theorem overwrite_in_place_loses_content :
    Sample.placedFS.content "t/Notes/a.txt".toList = some [104, 105] ∧
    traverseAndOrganize Sample.oneDevice Sample.mapping
        { Sample.inPlace with CopyFiles := true, ConflictResolution := Overwrite } 1 8
        Sample.placedTree ⟨Sample.placedFS, [], false⟩
      = some ⟨⟨[(⟨false, ["t".toList]⟩, Entry.dir),
                (⟨false, ["t".toList, "Notes".toList]⟩, Entry.dir),
                (⟨false, ["t".toList, "Notes".toList, "a.txt".toList]⟩, Entry.file [])]⟩,
          [], false⟩ := by
  decide

/-- C10 fails on the code. Whenever `buildTreeAndCache` returns (with or without an error),
the `DirectoryTree` of the instance has a nil root, no metrics and no logger: the deferred
function of `buildTreeAndCache` runs `Cleanup` on the tree that was just built. For the
directory `t` with the folder `Notes` and the file `a.txt` in it, `buildTreeNodes` does
build the two directory nodes and the file node, and `buildTreeAndCache` returns no error
and leaves a tree without root. -/
theorem buildTreeAndCache_leaves_nil_root :
    (∀ (env : BuildEnv) (fs : FS) (tree : Option DirectoryTree) (rootPath : GoString)
        (recursive : Bool) (maxDepth : Int),
      (buildTreeAndCache env fs tree rootPath recursive maxDepth).1 = .panic ∨
      ∃ dt, (buildTreeAndCache env fs tree rootPath recursive maxDepth).2 = some dt ∧
        dt.Root = none ∧ dt.metrics = none ∧ dt.logger = false) ∧
    (buildTreeNodes Sample.plainEnv Sample.placedFS true 2 4 (NewDirectoryNode "t".toList) 0
      = (.mk "t".toList 0
          [.mk "t/Notes".toList 0 []
            [{ path := "t/Notes/a.txt".toList, name := "a.txt".toList,
               extension := ".txt".toList,
               metadata := NewMetadata ⟨2, 420, ⟨1700000000, 0⟩, false⟩ }]
            Metadata.zeroValue]
          [] Metadata.zeroValue, .ok)) ∧
    (buildTreeAndCache Sample.plainEnv Sample.placedFS none "t".toList true 2).1 = .ok ∧
    ((buildTreeAndCache Sample.plainEnv Sample.placedFS none "t".toList true 2).2.map
      (fun dt => dt.Root.isNone)) = some true := by
  refine ⟨?_, by rfl, by decide, by decide⟩
  intro env fs tree rootPath recursive maxDepth
  unfold buildTreeAndCache
  simp only
  cases hroot : (tree.getD (NewDirectoryTree rootPath)).Root with
  | none => left; rfl
  | some root =>
    simp only
    cases hlog : (tree.getD (NewDirectoryTree rootPath)).logger with
    | false => left; simp [DirectoryTree.Cleanup, hlog]
    | true => right; simp [DirectoryTree.Cleanup, hlog]


/-! ## The free name of the policy `rename` -/

theorem stringsJoin_snoc (cs : List GoString) (b : GoString) :
    stringsJoin Separator (cs ++ [b])
      = (cs.map (fun c => c ++ [Separator])).flatten ++ b := by
  induction cs with
  | nil => simp [stringsJoin]
  | cons c rest ih =>
    cases rest with
    | nil => simp [stringsJoin]
    | cons d rest' =>
      have : c :: d :: rest' ++ [b] = c :: d :: (rest' ++ [b]) := by simp
      rw [this, stringsJoin]
      have ih' : stringsJoin Separator (d :: (rest' ++ [b]))
          = ((d :: rest').map (fun c => c ++ [Separator])).flatten ++ b := by
        simpa using ih
      rw [ih']
      simp

theorem filepathClean_append_name (d b : GoString) (hd : d ≠ []) (hb : PlainName b) :
    filepathClean (d ++ Separator :: b) = pathPrefix (isRooted d) (cleanComps d) ++ b := by
  unfold filepathClean pathPrefix
  rw [isRooted_append d _ hd, cleanComps_append_name d b hd hb, stringsJoin_snoc]
  cases isRooted d with
  | true => simp
  | false => simp

theorem filepathJoin_name (d b : GoString) (hd : d ≠ []) (hb : PlainName b) :
    filepathJoin [d, b] = pathPrefix (isRooted d) (cleanComps d) ++ b := by
  have hb' : b ≠ [] := hb.1
  have : filepathJoin [d, b] = filepathClean (d ++ Separator :: b) := by
    simp [filepathJoin, List.filter, hd, hb', stringsJoin]
  rw [this, filepathClean_append_name d b hd hb]

theorem pathPrefix_end (rooted : Bool) (cs : List GoString) :
    pathPrefix rooted cs = [] ∨ ∃ q, pathPrefix rooted cs = q ++ [Separator] := by
  unfold pathPrefix
  rcases List.eq_nil_or_concat cs with h | ⟨l, c, h⟩
  · subst h
    cases rooted with
    | true => right; exact ⟨[], by simp⟩
    | false => left; simp
  · right
    subst h
    refine ⟨(if rooted then [Separator] else []) ++ (l.map (fun c => c ++ [Separator])).flatten ++ c, ?_⟩
    simp

theorem stringsSplit_flatten (tail : GoString) : ∀ (cs : List GoString),
    (∀ c ∈ cs, Separator ∉ c) →
    stringsSplit Separator ((cs.map (fun c => c ++ [Separator])).flatten ++ tail)
      = cs ++ stringsSplit Separator tail
  | [], _ => by simp
  | c :: rest, h => by
    have : ((c :: rest).map (fun c => c ++ [Separator])).flatten ++ tail
        = c ++ Separator :: ((rest.map (fun c => c ++ [Separator])).flatten ++ tail) := by simp
    rw [this, stringsSplit_append, stringsSplit_of_not_mem _ c (h c (by simp)),
      stringsSplit_flatten tail rest (fun x hx => h x (by simp [hx]))]
    simp

theorem pathKey_pathPrefix (rooted : Bool) (cs : List GoString)
    (hn : NormStack rooted cs.reverse) : pathKey (pathPrefix rooted cs) = ⟨rooted, cs⟩ := by
  have hm : ∀ c ∈ cs, c ≠ [] ∧ Separator ∉ c := fun c hc =>
    NormStack_mem rooted _ hn c (by simpa using hc)
  have hsplit := stringsSplit_flatten [] cs (fun c hc => (hm c hc).2)
  simp only [List.append_nil] at hsplit
  have hroot : isRooted (pathPrefix rooted cs) = rooted := by
    unfold pathPrefix
    cases rooted with
    | true => simp [isRooted]
    | false =>
      cases cs with
      | nil => simp [isRooted]
      | cons c rest =>
        obtain ⟨h1, h2⟩ := hm c (by simp)
        cases c with
        | nil => exact absurd rfl h1
        | cons x xs =>
          simp only [isRooted, Bool.false_eq_true, if_false, List.nil_append, List.map_cons,
            List.flatten_cons, List.cons_append, decide_eq_false_iff_not]
          intro e; exact h2 (by simp [e])
  have hcomps : cleanComps (pathPrefix rooted cs) = cs := by
    unfold cleanComps
    rw [hroot]
    unfold pathPrefix
    cases rooted with
    | true =>
      simp only [if_true, List.singleton_append]
      rw [stringsSplit, if_pos rfl, hsplit]
      simp only [stringsSplit, List.foldl_cons, List.foldl_append, List.foldl_nil]
      have h0 : ∀ st, cleanStep true st [] = st := by intro st; simp [cleanStep]
      rw [h0, h0, foldl_cleanStep_normal _ _ _ (by simpa using hn)]
      simp
    | false =>
      simp only [Bool.false_eq_true, if_false, List.nil_append]
      rw [hsplit]
      simp only [stringsSplit, List.foldl_cons, List.foldl_append, List.foldl_nil]
      have h0 : ∀ st, cleanStep false st [] = st := by intro st; simp [cleanStep]
      rw [h0, foldl_cleanStep_normal _ _ _ (by simpa using hn)]
      simp
  simp [pathKey, hroot, hcomps]

theorem extLoop_to_dot : ∀ (l acc rest : List Char),
    (∀ c ∈ l, c ≠ Separator ∧ c ≠ '.') →
    extLoop (l ++ '.' :: rest) acc = '.' :: (l.reverse ++ acc)
  | [], acc, rest, _ => by simp [extLoop, Separator]
  | c :: l, acc, rest, h => by
    obtain ⟨h1, h2⟩ := h c (by simp)
    rw [List.cons_append, extLoop, if_neg h1, if_neg h2,
      extLoop_to_dot l (c :: acc) rest (fun x hx => h x (by simp [hx]))]
    simp

theorem filepathExt_stem_ext (pre stem e : GoString) (he : ∀ c ∈ e, c ≠ Separator ∧ c ≠ '.') :
    filepathExt (pre ++ (stem ++ '.' :: e)) = '.' :: e := by
  unfold filepathExt
  have : (pre ++ (stem ++ '.' :: e)).reverse = e.reverse ++ '.' :: (stem.reverse ++ pre.reverse) := by
    simp
  rw [this, extLoop_to_dot _ _ _ (fun c hc => he c (by simpa using hc))]
  simp

theorem dropWhile_append_stop {α : Type} (p : α → Bool) : ∀ (a b : List α),
    (∀ x ∈ a, p x = true) → (b = [] ∨ ∃ y t, b = y :: t ∧ p y = false) →
    (a ++ b).dropWhile p = b
  | [], b, _, hb => by
    rcases hb with rfl | ⟨y, t, rfl, hy⟩
    · rfl
    · simp [List.dropWhile, hy]
  | x :: a, b, ha, hb => by
    rw [List.cons_append, List.dropWhile_cons_of_pos (ha x (by simp))]
    exact dropWhile_append_stop p a b (fun z hz => ha z (by simp [hz])) hb

theorem takeWhile_append_stop {α : Type} (p : α → Bool) : ∀ (a b : List α),
    (∀ x ∈ a, p x = true) → (b = [] ∨ ∃ y t, b = y :: t ∧ p y = false) →
    (a ++ b).takeWhile p = a
  | [], b, _, hb => by
    rcases hb with rfl | ⟨y, t, rfl, hy⟩
    · rfl
    · simp [List.takeWhile, hy]
  | x :: a, b, ha, hb => by
    rw [List.cons_append, List.takeWhile_cons_of_pos (ha x (by simp))]
    rw [takeWhile_append_stop p a b (fun z hz => ha z (by simp [hz])) hb]

theorem reverse_prefix_stop (pre : GoString)
    (hpre : pre = [] ∨ ∃ q, pre = q ++ [Separator]) :
    pre.reverse = [] ∨ ∃ y t, pre.reverse = y :: t ∧ y = Separator := by
  rcases hpre with rfl | ⟨q, rfl⟩
  · left; rfl
  · right; exact ⟨Separator, q.reverse, by simp, rfl⟩

theorem filepathDir_prefix_name (pre b : GoString) (hb : Separator ∉ b)
    (hpre : pre = [] ∨ ∃ q, pre = q ++ [Separator]) :
    filepathDir (pre ++ b) = filepathClean pre := by
  unfold filepathDir
  rw [List.reverse_append, dropWhile_append_stop _ b.reverse pre.reverse
    (fun x hx => by
      have : x ≠ Separator := fun e => hb (by rw [← e]; simpa using hx)
      simpa using this)
    (by
      rcases reverse_prefix_stop pre hpre with h | ⟨y, t, h, hy⟩
      · left; exact h
      · right; exact ⟨y, t, h, by simp [hy]⟩)]
  simp

theorem filepathBase_prefix_name (pre b : GoString) (hb : Separator ∉ b) (hne : b ≠ [])
    (hpre : pre = [] ∨ ∃ q, pre = q ++ [Separator]) :
    filepathBase (pre ++ b) = b := by
  unfold filepathBase
  rw [if_neg (by simp [hne])]
  have hrev : (pre ++ b).reverse = b.reverse ++ pre.reverse := by simp
  simp only [hrev]
  have hbr : ∀ x ∈ b.reverse, x ≠ Separator := fun x hx e => hb (by rw [← e]; simpa using hx)
  have hdrop : (b.reverse ++ pre.reverse).dropWhile (fun c => decide (c = Separator))
      = b.reverse ++ pre.reverse := by
    cases hbrev : b.reverse with
    | nil => exact absurd (by simpa using hbrev) hne
    | cons x xs =>
      have hx : x ≠ Separator := hbr x (by simp [hbrev])
      simp [List.dropWhile, hx]
  rw [hdrop, takeWhile_append_stop _ b.reverse pre.reverse
    (fun x hx => by simpa using hbr x hx)
    (by
      rcases reverse_prefix_stop pre hpre with h | ⟨y, t, h, hy⟩
      · left; exact h
      · right; exact ⟨y, t, h, by simp [hy]⟩)]
  simp [hne]


theorem digitVal_digitChar (d : Nat) (h : d < 10) : digitVal (Nat.digitChar d) = some d := by
  interval_cases d <;> rfl

theorem toDigitsCore_digits : ∀ (f n : Nat) (ds : List Char),
    (∀ c ∈ ds, (digitVal c).isSome = true) →
    ∀ c ∈ Nat.toDigitsCore 10 f n ds, (digitVal c).isSome = true
  | 0, _, ds, h => by simpa [Nat.toDigitsCore] using h
  | f + 1, n, ds, h => by
    have hd : (digitVal (Nat.digitChar (n % 10))).isSome = true := by
      rw [digitVal_digitChar _ (Nat.mod_lt _ (by decide))]; rfl
    have h' : ∀ c ∈ Nat.digitChar (n % 10) :: ds, (digitVal c).isSome = true := by
      intro c hc
      rcases List.mem_cons.mp hc with rfl | hc
      · exact hd
      · exact h c hc
    rw [Nat.toDigitsCore]
    split
    · exact h'
    · exact toDigitsCore_digits f (n / 10) _ h'

theorem strconvItoa_digits (n : Nat) : ∀ c ∈ strconvItoa n, (digitVal c).isSome = true := by
  unfold strconvItoa Nat.toDigits
  exact toDigitsCore_digits _ _ [] (by simp)

theorem parseDigits_toDigitsCore : ∀ (f n : Nat) (ds : List Char), n < f →
    parseDigits (Nat.toDigitsCore 10 f n ds) 0 = parseDigits ds n
  | 0, _, _, h => by omega
  | f + 1, n, ds, h => by
    rw [Nat.toDigitsCore]
    split
    · rename_i h0
      rw [parseDigits, digitVal_digitChar _ (Nat.mod_lt _ (by decide))]
      simp only
      have : 0 * 10 + n % 10 = n := by omega
      rw [this]
    · rename_i h0
      rw [parseDigits_toDigitsCore f (n / 10) _ (by omega), parseDigits,
        digitVal_digitChar _ (Nat.mod_lt _ (by decide))]
      simp only
      have : n / 10 * 10 + n % 10 = n := by omega
      rw [this]

theorem parseDigits_strconvItoa (n : Nat) : parseDigits (strconvItoa n) 0 = some n := by
  unfold strconvItoa Nat.toDigits
  rw [parseDigits_toDigitsCore _ _ _ (by omega)]
  rfl

theorem strconvItoa_injective (n m : Nat) (h : strconvItoa n = strconvItoa m) : n = m := by
  have := parseDigits_strconvItoa n
  rw [h, parseDigits_strconvItoa m] at this
  exact (Option.some.inj this).symm

theorem digit_not_special (c : Char) (h : (digitVal c).isSome = true) :
    c ≠ Separator ∧ c ≠ '.' ∧ c ≠ '_' := by
  refine ⟨?_, ?_, ?_⟩ <;> (intro e; subst e; revert h; decide)

/-- The file name `stem_n.ext`. -/
theorem suffixedName_plain (stem e : GoString) (n : Nat) (hstem : Separator ∉ stem)
    (he : ∀ c ∈ e, c ≠ Separator ∧ c ≠ '.') :
    PlainName (stem ++ '_' :: strconvItoa n ++ '.' :: e) := by
  have hmem : '_' ∈ stem ++ '_' :: strconvItoa n ++ '.' :: e := by simp
  refine ⟨by simp, ?_, ?_, ?_⟩
  · intro h
    simp only [List.mem_append, List.mem_cons] at h
    rcases h with (h | h | h) | h | h
    · exact hstem h
    · revert h; decide
    · exact (digit_not_special _ (strconvItoa_digits n _ h)).1 rfl
    · revert h; decide
    · exact (he _ h).1 rfl
  · intro h; rw [h] at hmem; revert hmem; decide
  · intro h; rw [h] at hmem; revert hmem; decide

theorem suffixedName_injective (stem e : GoString) (n m : Nat)
    (h : stem ++ '_' :: strconvItoa n ++ '.' :: e = stem ++ '_' :: strconvItoa m ++ '.' :: e) :
    n = m := by
  have h1 : '_' :: strconvItoa n ++ '.' :: e = '_' :: strconvItoa m ++ '.' :: e := by
    have : stem ++ ('_' :: strconvItoa n ++ '.' :: e) = stem ++ ('_' :: strconvItoa m ++ '.' :: e) := by
      simpa using h
    exact List.append_cancel_left this
  have h2 : strconvItoa n ++ '.' :: e = strconvItoa m ++ '.' :: e := by simpa using h1
  exact strconvItoa_injective n m (List.append_cancel_right h2)

theorem uniqueLoop_least (fs : FS) (dir base ext : GoString) (n : Nat)
    (hfree : fs.stat (filepathJoin [dir, base ++ '_' :: strconvItoa n ++ ext])
      = some OsErr.notExist) :
    ∀ (fuel i : Nat), i ≤ n → n < i + fuel →
      (∀ m, i ≤ m → m < n →
        fs.stat (filepathJoin [dir, base ++ '_' :: strconvItoa m ++ ext])
          ≠ some OsErr.notExist) →
      uniqueLoop fs dir base ext fuel i
        = some (filepathJoin [dir, base ++ '_' :: strconvItoa n ++ ext])
  | 0, i, h1, h2, _ => by omega
  | fuel + 1, i, h1, h2, h3 => by
    rw [uniqueLoop]
    by_cases hin : i = n
    · subst hin
      simp only [hfree, if_true]
    · simp only [if_neg (h3 i (le_refl _) (by omega))]
      exact uniqueLoop_least fs dir base ext n hfree fuel (i + 1) (by omega) (by omega)
        (fun m hm1 hm2 => h3 m (by omega) hm2)


/-! ## Filesystem operations -/

theorem find_replace (k k' : PathKey) (e : Entry) : ∀ (l : List (PathKey × Entry)),
    (l.map (fun x => if x.1 = k then (k, e) else x)).find? (fun x => decide (x.1 = k'))
      = if k' = k then (if (l.find? (fun x => decide (x.1 = k))).isSome then some (k, e) else none)
        else l.find? (fun x => decide (x.1 = k'))
  | [] => by simp
  | x :: l => by
    have ih := find_replace k k' e l
    by_cases hx : x.1 = k
    · by_cases hk : k' = k
      · simp [List.find?, hx, hk]
      · have hk2 : ¬ k = k' := fun h => hk h.symm
        have hk3 : ¬ x.1 = k' := by rw [hx]; exact hk2
        simp only [List.map_cons, hx, if_true, List.find?, hk2, decide_False, hk, if_false,
          hk3]
        simpa [hk] using ih
    · by_cases hk : k' = k
      · subst hk
        simp only [List.map_cons, hx, if_false, List.find?, decide_False, if_true]
        simpa using ih
      · by_cases hxk : x.1 = k'
        · simp [List.find?, hx, hk, hxk]
        · simp only [List.map_cons, hx, if_false, List.find?, hxk, decide_False, hk]
          simpa [hk] using ih

theorem lookupKey_setKey (fs : FS) (k k' : PathKey) (e : Entry) (hk : k.comps ≠ []) :
    (fs.setKey k e).lookupKey k' = if k' = k then some e else fs.lookupKey k' := by
  by_cases hkk : k' = k
  · subst hkk
    simp only [FS.lookupKey, if_neg hk, if_true, FS.setKey]
    by_cases hp : (fs.entries.find? (fun x => decide (x.1 = k'))).isSome = true
    · simp only [hp, if_true, find_replace]
      simp
    · simp only [hp, Bool.false_eq_true, if_false, List.find?_append]
      have : fs.entries.find? (fun x => decide (x.1 = k')) = none := by
        cases hf : fs.entries.find? (fun x => decide (x.1 = k')) with
        | none => rfl
        | some y => rw [hf] at hp; exact absurd rfl hp
      simp [this, List.find?]
  · simp only [if_neg hkk, FS.lookupKey, FS.setKey]
    by_cases hc : k'.comps = []
    · simp [hc]
    · simp only [if_neg hc]
      by_cases hp : (fs.entries.find? (fun x => decide (x.1 = k))).isSome = true
      · simp only [hp, if_true, find_replace, if_neg hkk]
      · have hkk' : ¬ k = k' := fun h => hkk h.symm
        simp only [hp, Bool.false_eq_true, if_false, List.find?_append]
        simp [List.find?, hkk']

theorem lookupKey_eraseKey_ne (fs : FS) (k k' : PathKey) (hkk : k' ≠ k) :
    (fs.eraseKey k).lookupKey k' = fs.lookupKey k' := by
  simp only [FS.lookupKey, FS.eraseKey]
  by_cases hc : k'.comps = []
  · simp [hc]
  · simp only [if_neg hc, List.find?_filter]
    congr 2
    funext x
    by_cases hx : x.1 = k'
    · simp [hx, hkk]
    · simp [hx]

theorem lookupKey_eraseKey_self (fs : FS) (k : PathKey) (hk : k.comps ≠ []) :
    (fs.eraseKey k).lookupKey k = none := by
  simp only [FS.lookupKey, FS.eraseKey, if_neg hk, List.find?_filter]
  simp

theorem lookup_eq_lookupKey (fs : FS) (p : GoString) (hp : p ≠ []) :
    fs.lookup p = fs.lookupKey (pathKey p) := by
  simp [FS.lookup, hp]

theorem comps_ne_nil_of_file (fs : FS) (k : PathKey) (c : List Nat)
    (h : fs.lookupKey k = some (Entry.file c)) : k.comps ≠ [] := by
  intro hc
  simp [FS.lookupKey, hc] at h

theorem ne_nil_of_lookup (fs : FS) (p : GoString) (e : Entry) (h : fs.lookup p = some e) :
    p ≠ [] := by
  intro hp
  simp [FS.lookup, hp] at h


theorem lookupKey_parent_of_exists (fs : FS) (rooted : Bool) (cs : List GoString)
    (b : GoString) (hwf : fs.WellFormed)
    (hex : (fs.lookupKey ⟨rooted, cs ++ [b]⟩).isSome = true) :
    fs.lookupKey ⟨rooted, cs⟩ = some Entry.dir := by
  simp only [FS.lookupKey] at hex
  rw [if_neg (by simp)] at hex
  cases hf : fs.entries.find? (fun e => decide (e.1 = (⟨rooted, cs ++ [b]⟩ : PathKey))) with
  | none => rw [hf] at hex; simp at hex
  | some x =>
    have hx := List.mem_of_find?_eq_some hf
    have hx1 : x.1 = ⟨rooted, cs ++ [b]⟩ := by simpa using List.find?_some hf
    have hw := hwf x hx
    rw [hx1] at hw
    exact hw cs (by simp [List.mem_inits]) (by simp)

theorem move_file_to_free (xdev : GoString → GoString → Bool) (fs : FS) (src dst : GoString)
    (bytes : List Nat) (hsrc : fs.lookup src = some (Entry.file bytes)) (hdst : dst ≠ [])
    (hdk : (pathKey dst).comps ≠ [])
    (hparent : fs.lookupKey (FS.parentKey (pathKey dst)) = some Entry.dir)
    (hfree : fs.lookupKey (pathKey dst) = none) (hx : xdev src dst = false) :
    Move xdev fs (.mk src 0 [] [] Metadata.zeroValue) dst false false
      = (none, (fs.eraseKey (pathKey src)).setKey (pathKey dst) (Entry.file bytes)) := by
  have hsne := ne_nil_of_lookup fs src _ hsrc
  have hsk : fs.lookupKey (pathKey src) = some (Entry.file bytes) := by
    rw [← lookup_eq_lookupKey fs src hsne]; exact hsrc
  have hsc := comps_ne_nil_of_file fs _ _ hsk
  have hne : pathKey src ≠ pathKey dst := by
    intro h; rw [h, hfree] at hsk; exact absurd hsk (by simp)
  simp only [Move, Bool.false_eq_true, if_false, DirectoryNode.path, FS.rename, hsrc, hdst,
    hsc, hdk, or_self, hparent, hx, hne, hfree]

theorem copyFile_to_free (fs : FS) (fileNode : FileNode) (dst : GoString) (remove : Bool)
    (bytes : List Nat) (hsrc : fs.lookup fileNode.path = some (Entry.file bytes))
    (hdst : dst ≠ []) (hdk : (pathKey dst).comps ≠ [])
    (hparent : fs.lookupKey (FS.parentKey (pathKey dst)) = some Entry.dir)
    (hfree : fs.lookupKey (pathKey dst) = none) :
    copyFile fs fileNode dst remove false
      = (none,
          if remove then
            (((fs.setKey (pathKey dst) (Entry.file [])).setKey (pathKey dst)
              (Entry.file bytes)).eraseKey (pathKey fileNode.path))
          else (fs.setKey (pathKey dst) (Entry.file [])).setKey (pathKey dst)
              (Entry.file bytes)) := by
  have hsne := ne_nil_of_lookup fs _ _ hsrc
  have hsk : fs.lookupKey (pathKey fileNode.path) = some (Entry.file bytes) := by
    rw [← lookup_eq_lookupKey fs _ hsne]; exact hsrc
  have hne : pathKey fileNode.path ≠ pathKey dst := by
    intro h; rw [h, hfree] at hsk; exact absurd hsk (by simp)
  have h1 : (fs.setKey (pathKey dst) (Entry.file [])).lookup fileNode.path
      = some (Entry.file bytes) := by
    rw [lookup_eq_lookupKey _ _ hsne, lookupKey_setKey _ _ _ _ hdk, if_neg hne, hsk]
  have h2 : ((fs.setKey (pathKey dst) (Entry.file [])).setKey (pathKey dst)
      (Entry.file bytes)).lookup fileNode.path = some (Entry.file bytes) := by
    rw [lookup_eq_lookupKey _ _ hsne, lookupKey_setKey _ _ _ _ hdk, if_neg hne,
      lookupKey_setKey _ _ _ _ hdk, if_neg hne, hsk]
  simp only [copyFile, Bool.false_eq_true, if_false, hsrc, FS.create, hdst, hfree, hparent, h1]
  cases remove with
  | false => simp
  | true => simp [FS.remove, h2]

theorem task_operation (xdev : GoString → GoString → Bool) (fs : FS) (fileNode : FileNode)
    (dst : GoString) (copyFiles removeAfter : Bool) (bytes : List Nat)
    (hsrc : fs.lookup fileNode.path = some (Entry.file bytes))
    (hdst : dst ≠ []) (hdk : (pathKey dst).comps ≠ [])
    (hparent : fs.lookupKey (FS.parentKey (pathKey dst)) = some Entry.dir)
    (hfree : fs.lookupKey (pathKey dst) = none)
    (hx : copyFiles = false → xdev fileNode.path dst = false) :
    ∃ fs',
      (if copyFiles then copyFile fs fileNode dst removeAfter false
        else Move xdev fs (.mk fileNode.path 0 [] [] Metadata.zeroValue) dst false false)
        = (none, fs') ∧
      fs'.lookupKey (pathKey dst) = some (Entry.file bytes) ∧
      ∀ k, k ≠ pathKey dst →
        ((copyFiles = false ∨ removeAfter = true) → k ≠ pathKey fileNode.path) →
        fs'.lookupKey k = fs.lookupKey k := by
  have hsne := ne_nil_of_lookup fs _ _ hsrc
  have hsk : fs.lookupKey (pathKey fileNode.path) = some (Entry.file bytes) := by
    rw [← lookup_eq_lookupKey fs _ hsne]; exact hsrc
  have hne : pathKey dst ≠ pathKey fileNode.path := by
    intro h; rw [← h, hfree] at hsk; exact absurd hsk (by simp)
  cases copyFiles with
  | false =>
    refine ⟨_, by
      simp only [Bool.false_eq_true, if_false]
      exact move_file_to_free xdev fs _ dst bytes hsrc hdst hdk hparent hfree (hx rfl), ?_, ?_⟩
    · rw [lookupKey_setKey _ _ _ _ hdk, if_pos rfl]
    · intro k hk1 hk2
      rw [lookupKey_setKey _ _ _ _ hdk, if_neg hk1,
        lookupKey_eraseKey_ne _ _ _ (hk2 (Or.inl rfl))]
  | true =>
    refine ⟨_, by
      simp only [if_true]
      exact copyFile_to_free fs fileNode dst removeAfter bytes hsrc hdst hdk hparent hfree,
      ?_, ?_⟩
    · cases removeAfter with
      | false => simp only [Bool.false_eq_true, if_false]; rw [lookupKey_setKey _ _ _ _ hdk, if_pos rfl]
      | true =>
        simp only [if_true]
        rw [lookupKey_eraseKey_ne _ _ _ hne, lookupKey_setKey _ _ _ _ hdk, if_pos rfl]
    · intro k hk1 hk2
      cases removeAfter with
      | false =>
        simp only [Bool.false_eq_true, if_false]
        rw [lookupKey_setKey _ _ _ _ hdk, if_neg hk1, lookupKey_setKey _ _ _ _ hdk, if_neg hk1]
      | true =>
        simp only [if_true]
        rw [lookupKey_eraseKey_ne _ _ _ (hk2 (Or.inr rfl)), lookupKey_setKey _ _ _ _ hdk,
          if_neg hk1, lookupKey_setKey _ _ _ _ hdk, if_neg hk1]


theorem destination_facts (d stem e : GoString) (hd : d ≠ [])
    (hplain : PlainName (stem ++ '.' :: e)) (hstem : stem ≠ [])
    (he : ∀ c ∈ e, c ≠ Separator ∧ c ≠ '.') :
    filepathJoin [d, stem ++ '.' :: e] ≠ [] ∧
    pathKey (filepathJoin [d, stem ++ '.' :: e])
      = ⟨isRooted d, cleanComps d ++ [stem ++ '.' :: e]⟩ ∧
    filepathExt (filepathJoin [d, stem ++ '.' :: e]) = '.' :: e ∧
    filepathBase ((filepathJoin [d, stem ++ '.' :: e]).take
      ((filepathJoin [d, stem ++ '.' :: e]).length - ('.' :: e).length)) = stem ∧
    ∀ m, suffixedPath (filepathJoin [d, stem ++ '.' :: e]) stem e m ≠ [] ∧
      pathKey (suffixedPath (filepathJoin [d, stem ++ '.' :: e]) stem e m)
        = ⟨isRooted d, cleanComps d ++ [stem ++ '_' :: strconvItoa m ++ '.' :: e]⟩ := by
  have hsep : Separator ∉ stem := fun h => hplain.2.1 (by simp [h])
  have hform := filepathJoin_name d _ hd hplain
  have hpre := pathPrefix_end (isRooted d) (cleanComps d)
  have hnorm : NormStack (isRooted d) (cleanComps d).reverse := cleanComps_normal d
  refine ⟨filepathJoin_ne_nil d _ hd, ?_, ?_, ?_, ?_⟩
  · have := pathKey_filepathJoin_name d _ hd hplain
    simpa [pathKey] using this
  · rw [hform]; exact filepathExt_stem_ext _ stem e he
  · rw [hform]
    have hlen : (pathPrefix (isRooted d) (cleanComps d) ++ (stem ++ '.' :: e)).length
        - ('.' :: e).length = (pathPrefix (isRooted d) (cleanComps d) ++ stem).length := by
      simp only [List.length_append, List.length_cons]; omega
    have happ : pathPrefix (isRooted d) (cleanComps d) ++ (stem ++ '.' :: e)
        = (pathPrefix (isRooted d) (cleanComps d) ++ stem) ++ '.' :: e := by simp
    rw [hlen, happ, List.take_left']
    · exact filepathBase_prefix_name _ stem hsep hstem hpre
    · rfl
  · intro m
    have hname := suffixedName_plain stem e m hsep he
    have hdir : filepathDir (filepathJoin [d, stem ++ '.' :: e])
        = filepathClean (pathPrefix (isRooted d) (cleanComps d)) := by
      rw [hform]; exact filepathDir_prefix_name _ _ hplain.2.1 hpre
    unfold suffixedPath
    rw [hdir]
    refine ⟨filepathJoin_ne_nil _ _ (filepathClean_ne_nil _), ?_⟩
    rw [pathKey_filepathJoin_name _ _ (filepathClean_ne_nil _) hname, pathKey_filepathClean,
      pathKey_pathPrefix _ _ hnorm]

theorem exists_iff_lookupKey (fs : FS) (p : GoString) (hp : p ≠ []) :
    fs.exists_ p = (fs.lookupKey (pathKey p)).isSome := by
  simp [FS.exists_, FS.lookup, hp]

theorem content_of_lookupKey (fs fs' : FS) (p : GoString)
    (h : fs'.lookupKey (pathKey p) = fs.lookupKey (pathKey p)) : fs'.content p = fs.content p := by
  unfold FS.content FS.lookup
  by_cases hp : p = []
  · simp [hp]
  · simp [hp, h]

theorem stat_of_exists (fs : FS) (p : GoString) (h : fs.exists_ p = true) :
    fs.stat p = none := by
  simp only [FS.stat, h, if_true]

theorem lookupKey_prefix_of_exists (fs : FS) (rooted : Bool) (cs : List GoString)
    (b : GoString) (hwf : fs.WellFormed)
    (hex : (fs.lookupKey ⟨rooted, cs ++ [b]⟩).isSome = true) (p : List GoString)
    (hp : p <+: cs) : fs.lookupKey ⟨rooted, p⟩ = some Entry.dir := by
  simp only [FS.lookupKey] at hex
  rw [if_neg (by simp)] at hex
  cases hf : fs.entries.find? (fun e => decide (e.1 = (⟨rooted, cs ++ [b]⟩ : PathKey))) with
  | none => rw [hf] at hex; simp at hex
  | some x =>
    have hx := List.mem_of_find?_eq_some hf
    have hx1 : x.1 = ⟨rooted, cs ++ [b]⟩ := by simpa using List.find?_some hf
    have hw := hwf x hx
    rw [hx1] at hw
    refine hw p ((List.mem_inits p _).mpr (hp.trans (List.prefix_append cs [b]))) ?_
    intro heq
    have h1 := hp.length_le
    rw [heq] at h1
    simp at h1

theorem statError_below_dirs (fs : FS) (rooted : Bool) :
    ∀ (todo done : List GoString) (b : GoString),
      (∀ c ∈ todo, byteLength c ≤ NameMax) → byteLength b ≤ NameMax →
      (∀ p, p <+: todo → p ≠ [] → fs.lookupKey ⟨rooted, done ++ p⟩ = some Entry.dir) →
      fs.lookupKey ⟨rooted, done ++ todo ++ [b]⟩ = none →
      fs.statError rooted done (todo ++ [b]) = OsErr.notExist
  | [], done, b, _, hb, _, hnone => by
    rw [List.append_nil] at hnone
    simp only [List.nil_append, FS.statError, if_neg (Nat.not_lt.mpr hb), hnone]
  | c :: rest, done, b, hfit, hb, hdirs, hnone => by
    have hc : ¬ NameMax < byteLength c := Nat.not_lt.mpr (hfit c (by simp))
    have hdir := hdirs [c] (by simp) (by simp)
    simp only [List.cons_append, FS.statError, if_neg hc, hdir]
    apply statError_below_dirs fs rooted rest (done ++ [c]) b
      (fun x hx => hfit x (by simp [hx])) hb
    · intro p hp hpne
      have := hdirs (c :: p) (by simpa using hp) (by simp)
      simpa using this
    · simpa using hnone

/-- A free path in an existing directory, within the limits of the kernel: `os.Stat`
fails with the error that `os.IsNotExist` accepts. -/
theorem stat_of_free (fs : FS) (path : GoString) (rooted : Bool) (cs : List GoString)
    (b sibling : GoString) (hwf : fs.WellFormed) (hne : path ≠ [])
    (hkey : pathKey path = ⟨rooted, cs ++ [b]⟩)
    (hsib : (fs.lookupKey ⟨rooted, cs ++ [sibling]⟩).isSome = true)
    (hfree : fs.exists_ path = false) (hfit : FitsLimits path) :
    fs.stat path = some OsErr.notExist := by
  have hcomps : cleanComps path = cs ++ [b] := by
    have := congrArg PathKey.comps hkey
    simpa [pathKey] using this
  have hnone : fs.lookupKey ⟨rooted, cs ++ [b]⟩ = none := by
    have := hfree
    simp only [FS.exists_, FS.lookup, if_neg hne, hkey] at this
    simpa using this
  simp only [FS.stat, hfree, Bool.false_eq_true, if_false, if_neg hne,
    if_neg (Nat.not_le.mpr hfit.1), hkey]
  congr 1
  apply statError_below_dirs fs rooted cs [] b
  · intro c hc; exact hfit.2 c (by rw [hcomps]; simp [hc])
  · exact hfit.2 b (by rw [hcomps]; simp)
  · intro p hp _
    simpa using lookupKey_prefix_of_exists fs rooted cs sibling hwf hsib p hp
  · simpa using hnone

/-- The file task under the policy `rename`, once the least free suffix `n` is known and
the path with that suffix is within the limits of the kernel. -/
theorem fileTask_rename_at (xdev : GoString → GoString → Bool) (cfgRoot : FileTypeNode)
    (params : FilePathParams) (cap fuel : Nat) (fileNode : FileNode) (st : OrgState)
    (targetDir stem e : GoString) (bytes : List Nat) (n : Nat)
    (hpol : params.ConflictResolution = RenameSuffix)
    (hlive : st.cancelled = false) (htarget : params.TargetDir ≠ [])
    (hwf : st.fs.WellFormed)
    (hfound : determineTargetFolder fileNode cfgRoot = (targetDir, true))
    (hbase : filepathBase fileNode.path = stem ++ '.' :: e)
    (hplain : PlainName (stem ++ '.' :: e)) (hstem : stem ≠ [])
    (he : ∀ c ∈ e, c ≠ Separator ∧ c ≠ '.')
    (hsrc : st.fs.lookup fileNode.path = some (Entry.file bytes))
    (hexists : st.fs.exists_ (destinationPath params targetDir fileNode) = true)
    (halias : (params.CopyFiles = false ∨ params.RemoveAfter = true) →
      pathKey fileNode.path ≠ pathKey (destinationPath params targetDir fileNode))
    (hdev : params.CopyFiles = false → ∀ dst, xdev fileNode.path dst = false)
    (hn : 1 ≤ n) (hfuel : n ≤ fuel)
    (hfree : st.fs.exists_
      (suffixedPath (destinationPath params targetDir fileNode) stem e n) = false)
    (hleast : ∀ m, 1 ≤ m → m < n → st.fs.exists_
      (suffixedPath (destinationPath params targetDir fileNode) stem e m) = true)
    (hfit : FitsLimits (suffixedPath (destinationPath params targetDir fileNode) stem e n)) :
    (params.DryRun = false →
      ∃ st', fileTask xdev cfgRoot params cap fuel fileNode st = some st' ∧
        st'.errCh = st.errCh ∧ st'.cancelled = false ∧
        st'.fs.content (suffixedPath (destinationPath params targetDir fileNode) stem e n)
          = some bytes ∧
        st'.fs.content (destinationPath params targetDir fileNode)
          = st.fs.content (destinationPath params targetDir fileNode)) ∧
    (params.DryRun = true → fileTask xdev cfgRoot params cap fuel fileNode st = some st) := by
  have hd := filepathJoin_ne_nil params.TargetDir targetDir htarget
  unfold destinationPath at hexists halias hfree hleast hfit ⊢
  rw [hbase] at hexists halias hfree hleast hfit ⊢
  obtain ⟨hdne, hdkey, hext, hbs, hsuf⟩ :=
    destination_facts (filepathJoin [params.TargetDir, targetDir]) stem e hd hplain hstem he
  obtain ⟨hnne, hnkey⟩ := hsuf n
  generalize hdest : filepathJoin [filepathJoin [params.TargetDir, targetDir], stem ++ '.' :: e]
    = dest at *
  generalize hnew : suffixedPath dest stem e n = newPath at *
  have hmk : st.fs.mkdirAll (filepathJoin [params.TargetDir, targetDir]) = .ok st.fs := by
    apply mkdirAll_of_child_exists st.fs _ (stem ++ '.' :: e) hd hplain hwf
    rw [hdest]; exact hexists
  have hdsome : (st.fs.lookupKey (pathKey dest)).isSome = true := by
    rw [← exists_iff_lookupKey _ _ hdne]; exact hexists
  have hparent : st.fs.lookupKey (FS.parentKey (pathKey newPath)) = some Entry.dir := by
    rw [hnkey]
    simp only [FS.parentKey, List.dropLast_concat]
    apply lookupKey_parent_of_exists st.fs _ _ (stem ++ '.' :: e) hwf
    rw [← hdkey]; exact hdsome
  have hnfree : st.fs.lookupKey (pathKey newPath) = none := by
    have := hfree
    rw [exists_iff_lookupKey _ _ hnne] at this
    simpa using this
  have hndk : (pathKey newPath).comps ≠ [] := by rw [hnkey]; simp
  have hstat : st.fs.stat newPath = some OsErr.notExist :=
    stat_of_free st.fs newPath _ _ _ (stem ++ '.' :: e) hwf hnne hnkey
      (by rw [← hdkey]; exact hdsome) hfree hfit
  have hgen : generateUniqueFilename st.fs fuel dest = some newPath := by
    unfold generateUniqueFilename
    simp only [hext, hbs]
    have hcand : ∀ m, filepathJoin [filepathDir dest, stem ++ '_' :: strconvItoa m ++ '.' :: e]
        = suffixedPath dest stem e m := fun _ => rfl
    have := uniqueLoop_least st.fs (filepathDir dest) stem ('.' :: e) n
      (by rw [hcand, hnew]; exact hstat) fuel 1 hn (by omega)
      (fun m hm1 hm2 => by
        rw [hcand, stat_of_exists _ _ (hleast m hm1 hm2)]; simp)
    rw [this, hcand, hnew]
  have hres : resolveConflict st.fs params fuel dest = some (some newPath) := by
    have h1 : RenameSuffix ≠ Overwrite := by decide
    have h2 : RenameSuffix ≠ Skip := by decide
    simp only [resolveConflict, hexists, if_true, hpol, if_neg h1, if_neg h2, hgen, Option.map]
  refine ⟨?_, ?_⟩
  · intro hdry
    obtain ⟨fs', hop, hwritten, hframe⟩ := task_operation xdev st.fs fileNode newPath
      params.CopyFiles params.RemoveAfter bytes hsrc hnne hndk hparent hnfree
      (fun h => hdev h newPath)
    have hne : pathKey dest ≠ pathKey newPath := by
      intro h; rw [h, hnfree] at hdsome; simp at hdsome
    refine ⟨{ st with fs := fs' }, ?_, rfl, hlive, ?_, ?_⟩
    · unfold fileTask
      rw [hlive, hfound]
      simp only [Bool.false_eq_true, if_false, hmk, hbase, hdest, hres, hdry]
      rw [hop]
    · simp only [FS.content, lookup_eq_lookupKey _ _ hnne, hwritten]
    · apply content_of_lookupKey
      exact hframe _ hne (fun h => (halias h).symm)
  · intro hdry
    unfold fileTask
    rw [hlive, hfound]
    simp only [Bool.false_eq_true, if_false, hmk, hbase, hdest, hres, hdry]
    cases hcf : params.CopyFiles <;> simp [copyFile, Move] <;> (cases st; simp_all)


theorem mem_keys_of_lookupKey (fs : FS) (k : PathKey) (hk : k.comps ≠ [])
    (h : (fs.lookupKey k).isSome = true) : k ∈ fs.entries.map Prod.fst := by
  simp only [FS.lookupKey, if_neg hk] at h
  cases hf : fs.entries.find? (fun e => decide (e.1 = k)) with
  | none => rw [hf] at h; simp at h
  | some x =>
    have hx := List.mem_of_find?_eq_some hf
    have hx1 : x.1 = k := by simpa using List.find?_some hf
    exact List.mem_map.mpr ⟨x, hx, hx1⟩

/-- In a filesystem there is a least `n >= 1` whose name `stem_n.ext` is free in a given
directory: the names are pairwise distinct and the filesystem is finite. -/
theorem exists_least_free (fs : FS) (rooted : Bool) (cs : List GoString) (stem e : GoString)
    (path : Nat → GoString)
    (hpath : ∀ m, path m ≠ [] ∧
      pathKey (path m) = ⟨rooted, cs ++ [stem ++ '_' :: strconvItoa m ++ '.' :: e]⟩) :
    ∃ n, 1 ≤ n ∧ fs.exists_ (path n) = false ∧
      ∀ m, 1 ≤ m → m < n → fs.exists_ (path m) = true := by
  have hex : ∃ n, 1 ≤ n ∧ fs.exists_ (path n) = false := by
    by_contra hcon
    push_neg at hcon
    have hall : ∀ n, 1 ≤ n → pathKey (path n) ∈ fs.entries.map Prod.fst := by
      intro n hn
      have h1 : fs.exists_ (path n) = true := by simpa using hcon n hn
      rw [exists_iff_lookupKey _ _ (hpath n).1] at h1
      exact mem_keys_of_lookupKey fs _ (by rw [(hpath n).2]; simp) h1
    have hinj : Function.Injective (fun i : Nat => pathKey (path (i + 1))) := by
      intro i j hij
      simp only [(hpath _).2, PathKey.mk.injEq, true_and] at hij
      have := List.append_cancel_left hij
      have := suffixedName_injective stem e _ _ (by simpa using this)
      omega
    have hnodup : ((List.range (fs.entries.length + 1)).map
        (fun i : Nat => pathKey (path (i + 1)))).Nodup :=
      (List.nodup_range _).map hinj
    have hsub : (List.range (fs.entries.length + 1)).map
        (fun i : Nat => pathKey (path (i + 1))) ⊆ fs.entries.map Prod.fst := by
      intro k hk
      obtain ⟨i, -, rfl⟩ := List.mem_map.mp hk
      exact hall (i + 1) (by omega)
    have hlen := (hnodup.subperm hsub).length_le
    simp at hlen
  classical
  refine ⟨Nat.find hex, (Nat.find_spec hex).1, (Nat.find_spec hex).2, ?_⟩
  intro m hm1 hm2
  have := Nat.find_min hex hm2
  simp only [not_and, Bool.not_eq_false] at this
  exact this hm1


theorem uniqueLoop_no_return (fs : FS) (dir base ext : GoString)
    (h : ∀ m, fs.stat (filepathJoin [dir, base ++ '_' :: strconvItoa m ++ ext])
      ≠ some OsErr.notExist) :
    ∀ (fuel i : Nat), uniqueLoop fs dir base ext fuel i = none
  | 0, _ => rfl
  | fuel + 1, i => by
    rw [uniqueLoop]
    simp only [if_neg (h i)]
    exact uniqueLoop_no_return fs dir base ext h fuel (i + 1)

theorem statError_long_name (fs : FS) (rooted : Bool) :
    ∀ (todo done : List GoString) (b : GoString),
      (∀ c ∈ todo, byteLength c ≤ NameMax) → NameMax < byteLength b →
      (∀ p, p <+: todo → p ≠ [] → fs.lookupKey ⟨rooted, done ++ p⟩ = some Entry.dir) →
      fs.statError rooted done (todo ++ [b]) = OsErr.nameTooLong
  | [], done, b, _, hb, _ => by
    simp only [List.nil_append, FS.statError, if_pos hb]
  | c :: rest, done, b, hfit, hb, hdirs => by
    have hc : ¬ NameMax < byteLength c := Nat.not_lt.mpr (hfit c (by simp))
    have hdir := hdirs [c] (by simp) (by simp)
    simp only [List.cons_append, FS.statError, if_neg hc, hdir]
    apply statError_long_name fs rooted rest (done ++ [c]) b
      (fun x hx => hfit x (by simp [hx])) hb
    intro p hp hpne
    have := hdirs (c :: p) (by simpa using hp) (by simp)
    simpa using this

theorem byteLength_append (a b : GoString) :
    byteLength (a ++ b) = byteLength a + byteLength b := by
  simp [byteLength]

theorem byteLength_pos (s : GoString) (h : s ≠ []) : 0 < byteLength s := by
  cases s with
  | nil => exact absurd rfl h
  | cons c rest =>
    have := c.utf8Size_pos
    simp only [byteLength, List.map_cons, List.sum_cons]
    omega

theorem toDigitsCore_length_le : ∀ (f n : Nat) (ds : List Char),
    ds.length ≤ (Nat.toDigitsCore 10 f n ds).length
  | 0, _, ds => by simp [Nat.toDigitsCore]
  | f + 1, n, ds => by
    rw [Nat.toDigitsCore]
    split
    · simp
    · exact le_trans (by simp) (toDigitsCore_length_le f (n / 10) _)

theorem strconvItoa_ne_nil (n : Nat) : strconvItoa n ≠ [] := by
  intro h
  have h1 : strconvItoa n = Nat.toDigitsCore 10 (n + 1) n [] := rfl
  rw [h1, Nat.toDigitsCore] at h
  split at h
  · simp at h
  · have := toDigitsCore_length_le n (n / 10) [Nat.digitChar (n % 10)]
    rw [h] at this
    simp at this

/-- The search for a free name of the file `out/Notes/aa...a.txt`, whose name has 255
bytes, ends for no cut-off: every candidate is longer than a name may be. -/
theorem generateUniqueFilename_long_name (fuel : Nat) :
    generateUniqueFilename Sample.longFS fuel ("out/Notes/".toList ++ Sample.longName)
      = none := by
  have hplain : PlainName (List.replicate 251 'a' ++ '.' :: "txt".toList) := by decide
  have he : ∀ c ∈ "txt".toList, c ≠ Separator ∧ c ≠ '.' := by decide
  obtain ⟨_, _, hext, hbs, hsuf⟩ :=
    destination_facts "out/Notes".toList (List.replicate 251 'a') "txt".toList (by decide)
      hplain (by decide) he
  have hdest : filepathJoin ["out/Notes".toList, List.replicate 251 'a' ++ '.' :: "txt".toList]
      = "out/Notes/".toList ++ Sample.longName := by decide
  rw [hdest] at hext hbs hsuf
  unfold generateUniqueFilename
  simp only [hext, hbs]
  apply uniqueLoop_no_return
  intro m
  have hcand : filepathJoin [filepathDir ("out/Notes/".toList ++ Sample.longName),
      List.replicate 251 'a' ++ '_' :: strconvItoa m ++ '.' :: "txt".toList]
      = suffixedPath ("out/Notes/".toList ++ Sample.longName) (List.replicate 251 'a')
          "txt".toList m := rfl
  rw [hcand]
  obtain ⟨hne, hkey⟩ := hsuf m
  unfold FS.stat
  by_cases hex : Sample.longFS.exists_ (suffixedPath ("out/Notes/".toList ++ Sample.longName)
      (List.replicate 251 'a') "txt".toList m) = true
  · rw [if_pos hex]; simp
  · rw [if_neg hex, if_neg hne]
    by_cases hl : PathMax ≤ byteLength (suffixedPath ("out/Notes/".toList ++ Sample.longName)
        (List.replicate 251 'a') "txt".toList m)
    · rw [if_pos hl]; simp
    · rw [if_neg hl, hkey]
      have hr : isRooted "out/Notes".toList = false := by decide
      have hc : cleanComps "out/Notes".toList = ["out".toList, "Notes".toList] := by decide
      rw [hr, hc, statError_long_name Sample.longFS false ["out".toList, "Notes".toList] []
        _ (by decide) ?_ ?_]
      · simp
      · have h1 := byteLength_pos _ (strconvItoa_ne_nil m)
        have h2 : byteLength (List.replicate 251 'a') = 251 := by decide
        have h3 : byteLength ('.' :: "txt".toList) = 4 := by decide
        have h4 : byteLength ['_'] = 1 := by decide
        have : List.replicate 251 'a' ++ '_' :: strconvItoa m ++ '.' :: "txt".toList
            = List.replicate 251 'a' ++ (['_'] ++ (strconvItoa m ++ '.' :: "txt".toList)) := by
          simp
        rw [this, byteLength_append, byteLength_append, byteLength_append, h2, h3, h4]
        simp only [NameMax]
        omega
      · intro p hp hpne
        have hall : ∀ q ∈ ["out".toList, "Notes".toList].inits, q ≠ [] →
            Sample.longFS.lookupKey ⟨false, [] ++ q⟩ = some Entry.dir := by decide
        exact hall p ((List.mem_inits p _).mpr hp) hpne

/-- C14. `Metadata.Validate` returns an error if and only if the size is negative, or the
modification time is the zero time, or the node kind is neither `File` nor `Directory`;
the creation time has no part in it, so a zero creation time never makes it fail. -/
theorem validate_error_iff (m : Metadata) :
    (m.Validate ≠ none ↔
      m.size < 0 ∨ m.modifiedAt = GoTime.zero ∨ (m.nodeType ≠ File ∧ m.nodeType ≠ Directory)) ∧
    (∀ t : GoTime, ({ m with createdAt := t } : Metadata).Validate = m.Validate) := by
  refine ⟨?_, fun t => rfl⟩
  unfold Metadata.Validate GoTime.IsZero
  by_cases h1 : m.size < 0
  · simp [h1]
  · by_cases h2 : m.modifiedAt = GoTime.zero
    · simp [h1, h2]
    · by_cases h3 : m.nodeType ≠ File ∧ m.nodeType ≠ Directory
      · simp [h1, h2, h3]
      · simp only [h1, h2, if_false, decide_False, Bool.false_eq_true, h3, false_or]
        simp

theorem generateTags_of_valid (m : Metadata) (h : m.Validate = none) :
    (GenerateTags m).2 = none ∧
    (GenerateTags m).1.filter isSizeTag =
      [if m.size ≤ 1000 then TagSizeSmall
        else if m.size ≤ 1000000 then TagSizeMedium else TagSizeLarge] := by
  have hd : [TagTypeDirectory].filter isSizeTag = [] := by decide
  have hf : [TagTypeFile].filter isSizeTag = [] := by decide
  have hw : [TagPermWritable].filter isSizeTag = [] := by decide
  have hr : [TagPermReadable].filter isSizeTag = [] := by decide
  have hs : [TagSizeSmall].filter isSizeTag = [TagSizeSmall] := by decide
  have hm : [TagSizeMedium].filter isSizeTag = [TagSizeMedium] := by decide
  have hl : [TagSizeLarge].filter isSizeTag = [TagSizeLarge] := by decide
  have hn : ([] : List GoString).filter isSizeTag = [] := rfl
  refine ⟨by simp [GenerateTags, h], ?_⟩
  unfold GenerateTags
  rw [h]
  simp only [sizeThresholdMedium, sizeThresholdSmall]
  split_ifs <;>
    simp only [List.filter_append, hd, hf, hw, hr, hs, hm, hl, hn, List.append_nil,
      List.nil_append] <;> omega

/-- C15. For metadata that passes `Validate`, `GenerateTags` returns no error and exactly
one size-class tag: `small` when the size is at most 1,000, `medium` when it is above
1,000 and at most 1,000,000, `large` when it is above 1,000,000. For metadata that fails
`Validate` it returns the error and no tags. -/
theorem generateTags_size_class (m : Metadata) :
    (m.Validate = none →
      (GenerateTags m).2 = none ∧
      (GenerateTags m).1.filter isSizeTag =
        [if m.size ≤ 1000 then TagSizeSmall
          else if m.size ≤ 1000000 then TagSizeMedium else TagSizeLarge]) ∧
    (∀ err, m.Validate = some err → GenerateTags m = ([], some err)) := by
  refine ⟨generateTags_of_valid m, ?_⟩
  intro err h
  simp [GenerateTags, h]


/-! ## Walk -/

mutual
theorem walkNode_metrics (metrics : TreeMetrics) : ∀ (node : DirectoryNode) (depth : Int),
    walkNode false metrics node depth =
      (.ok, { metrics with
        TotalNodes := metrics.TotalNodes + countDirectoryNodes node
        MaxDepth := max metrics.MaxDepth (depth + directoryDepth node) })
  | .mk p t children fs md, depth => by
    rw [walkNode]
    simp only [Bool.false_eq_true, if_false]
    rw [walkChildren_metrics _ children depth (le_max_right _ _)]
    simp only [countDirectoryNodes, directoryDepth]
    congr 1
    have h0 : (0 : Int) ≤ (childrenDepth children : Int) := Int.natCast_nonneg _
    congr 1
    · push_cast; ring
    · rw [max_assoc]
      congr 1
      exact max_eq_right (by omega)
theorem walkChildren_metrics (metrics : TreeMetrics) :
    ∀ (children : List DirectoryNode) (depth : Int), depth ≤ metrics.MaxDepth →
    walkChildren false metrics children depth =
      (.ok, { metrics with
        TotalNodes := metrics.TotalNodes + countDirectoryList children
        MaxDepth := max metrics.MaxDepth (depth + childrenDepth children) })
  | [], depth, h => by
    simp only [walkChildren, countDirectoryList, childrenDepth, Nat.cast_zero, add_zero,
      max_eq_left h]
  | child :: rest, depth, h => by
    rw [walkChildren, walkNode_metrics metrics child (depth + 1)]
    simp only
    rw [walkChildren_metrics _ rest depth (le_trans h (le_max_left _ _))]
    simp only [countDirectoryList, childrenDepth]
    congr 1
    congr 1
    · push_cast; ring
    · rw [max_assoc]
      congr 1
      push_cast
      rw [← max_add_add_left]
      congr 1
      ring
end

/-- C11 as stated fails on the code. The directory `d` holds two entries, the files
`a.txt` and `b.txt`; `buildTreeNodes` builds the root node with its two file nodes, and
one `Walk` on a freshly created tree that holds this model ends with `TotalNodes = 1`:
`walkNode` counts directory nodes, the root among them, and never looks at the files.
`Walk` does not read the directory either: on the tree `NewDirectoryTree` returns for
`d`, it ends with `TotalNodes = 1` as well. -/
theorem walk_totalNodes_counterexample :
    Sample.pairFS.entriesBelow "d".toList = 2 ∧
    (buildTreeNodes Sample.plainEnv Sample.pairFS true 1 3 (NewDirectoryNode "d".toList) 0).2
      = .ok ∧
    (((freshTreeOf
        (buildTreeNodes Sample.plainEnv Sample.pairFS true 1 3
          (NewDirectoryNode "d".toList) 0).1).Walk false).2.metrics.map
      (fun m => m.TotalNodes)) = some 1 ∧
    (((NewDirectoryTree "d".toList).Walk false).2.metrics.map (fun m => m.TotalNodes))
      = some 1 := by
  decide

/-- C11, amended. For every tree model, one `Walk` with a context that is not cancelled,
on a freshly created `DirectoryTree` that holds the model, returns no error and leaves
`TotalNodes` equal to the number of directory nodes of the model, the root included;
file nodes are not counted. -/
theorem walk_totalNodes_counts_directories (root : DirectoryNode) :
    ((freshTreeOf root).Walk false).1 = .ok ∧
    ((freshTreeOf root).Walk false).2.metrics.map (fun m => m.TotalNodes)
      = some (countDirectoryNodes root : Int) := by
  simp [freshTreeOf, NewDirectoryTree, DirectoryTree.Walk, walkNode_metrics]

/-- C12 as stated fails on the code. In the snapshot of `t` the deepest entry is the file
`t/Notes/a.txt`, two segments below the root, which is what `CalculateMaxDepth` returns;
one `Walk` on a freshly created tree that holds the model of the snapshot ends with
`MaxDepth = 1`, the depth of the directory `t/Notes`, and on the tree `NewDirectoryTree`
returns for `t` it ends with `MaxDepth = 0`. -/
theorem walk_maxDepth_counterexample :
    CalculateMaxDepth Sample.placedFS "t".toList = .ok 2 ∧
    (buildTreeNodes Sample.plainEnv Sample.placedFS true 2 4 (NewDirectoryNode "t".toList) 0).2
      = .ok ∧
    (((freshTreeOf
        (buildTreeNodes Sample.plainEnv Sample.placedFS true 2 4
          (NewDirectoryNode "t".toList) 0).1).Walk false).2.metrics.map
      (fun m => m.MaxDepth)) = some 1 ∧
    (((NewDirectoryTree "t".toList).Walk false).2.metrics.map (fun m => m.MaxDepth))
      = some 0 := by
  decide

/-- C12, amended. For every tree model, one `Walk` with a context that is not cancelled,
on a freshly created `DirectoryTree` that holds the model, returns no error and leaves
`MaxDepth` equal to the greatest depth of a directory node of the model, the root being
at depth 0: the greatest number of path segments below the root of a directory of the
model. Files are not counted. -/
theorem walk_maxDepth_is_directory_depth (root : DirectoryNode) :
    ((freshTreeOf root).Walk false).1 = .ok ∧
    ((freshTreeOf root).Walk false).2.metrics.map (fun m => m.MaxDepth)
      = some (directoryDepth root : Int) := by
  simp [freshTreeOf, NewDirectoryTree, DirectoryTree.Walk, walkNode_metrics]


/-! ## Tree builder -/

/-- C13 fails on the code. When `entry.Info()` fails for an entry that is not a directory
and is not ignored, the loop of `buildTreeNodes` logs a warning and then hands the nil
`os.FileInfo` to `NewMetadata`, which calls `fileinfo.Mode()`: the goroutine panics at
that entry, whatever follows it in the listing. In the directory `d` with the files
`a.txt` and `b.txt`, where the info of `a.txt` cannot be read, `buildTreeNodes` panics and
the model holds no file node, neither for `a.txt` nor for `b.txt`. -/
theorem buildTreeNodes_panics_on_failed_info :
    (∀ (env : BuildEnv) (recursive : Bool)
        (descend : DirectoryNode → DirectoryNode × Outcome BuildErr)
        (nodePath : GoString) (entry : DirEntry) (rest : List DirEntry) (node : DirectoryNode),
      entry.isDir = false → env.info (filepathJoin [nodePath, entry.name]) = none →
      buildEntries env recursive descend none nodePath (entry :: rest) node = (node, .panic)) ∧
    (buildTreeNodes Sample.brokenInfoEnv Sample.pairFS true 1 3 (NewDirectoryNode "d".toList) 0).2
      = .panic ∧
    (buildTreeNodes Sample.brokenInfoEnv Sample.pairFS true 1 3
      (NewDirectoryNode "d".toList) 0).1.files = [] := by
  refine ⟨?_, by decide, by decide⟩
  intro env recursive descend nodePath entry rest node hdir hinfo
  simp [buildEntries, hdir, hinfo]

/-! ## Spatial index -/

/-- C16 fails on the code. `collectDirectoryPoints` returns as soon as the metadata of a
node fails `Validate`, before it reaches the loop over the children: a node whose
metadata is invalid hides every directory below it. The root of the tree below carries
the zero metadata, its child `t/Notes` is a directory whose metadata passes `Validate`
and makes a point, and after `BuildKDTree` the index data is empty. -/
theorem buildKDTree_skips_below_invalid_node :
    (∀ (path : GoString) (type : Int) (children : List DirectoryNode) (files : List FileNode)
        (metadata : Metadata) (tree : DirectoryTree),
      metadata.Validate ≠ none →
      ({ tree with Root := some (.mk path type children files metadata) }
        : DirectoryTree).BuildKDTree.KDTreeData = []) ∧
    Sample.dirMetadata.Validate = none ∧ Sample.dirMetadata.nodeType = Directory ∧
    (Sample.dirMetadata.ToKDTreePoint = .ok [4096, 1700000000, -62135596800, 493]) ∧
    (freshTreeOf Sample.unstampedRoot).BuildKDTree.KDTreeData.length = 0 := by
  refine ⟨?_, by decide, by decide, by rfl, by decide⟩
  intro path type children files metadata tree h
  have : metadata.Validate.isSome = true := by
    cases hv : metadata.Validate with
    | none => exact absurd hv h
    | some e => rfl
  simp [DirectoryTree.BuildKDTree, collectDirectoryPoints, this]

/-- C17 fails on the code. On an index built from no point (a tree without a directory
whose metadata is valid), `NearestSet` of gonum returns without touching the keeper, the
heap of the `DistKeeper` still holds its sentinel, which has no point, and the type
assertion in the loop of `RangeSearchKDTree` panics: for every query and every radius
the call returns nothing. -/
theorem rangeSearch_panics_on_empty_index :
    (∀ (tree : DirectoryTree) (query : DirectoryPoint) (radius : ℚ),
      tree.KDTree = some ⟨[]⟩ → tree.RangeSearchKDTree query radius = none) ∧
    ((freshTreeOf Sample.unstampedRoot).BuildKDTree.KDTree.map (fun kd => kd.points.length))
      = some 0 ∧
    ((freshTreeOf Sample.unstampedRoot).BuildKDTree.RangeSearchKDTree Sample.origin 10).isNone
      = true := by
  refine ⟨?_, by decide, by decide⟩
  intro tree query radius h
  simp [DirectoryTree.RangeSearchKDTree, h, nearestSetWithin, heapNodes]

/-- C18 fails on the code. On an index that holds no point (`n = 0`), `NearestSet` of gonum
returns without touching the keeper, the heap of the `NKeeper` still holds its sentinel,
which has no point, and the type assertion in the loop of `NearestNeighborSearchKDTree`
panics: for every query and every `k >= 1` the call returns nothing, where `min(k, 0) = 0`
nodes are due. -/
theorem nearestNeighbor_panics_on_empty_index :
    (∀ (tree : DirectoryTree) (query : DirectoryPoint) (k : Int),
      tree.KDTree = some ⟨[]⟩ → tree.NearestNeighborSearchKDTree query k = none) ∧
    ((freshTreeOf Sample.unstampedRoot).BuildKDTree.NearestNeighborSearchKDTree
      Sample.origin 3).isNone = true := by
  refine ⟨?_, by decide⟩
  intro tree query k h
  unfold DirectoryTree.NearestNeighborSearchKDTree
  split
  · rfl
  · simp [h, nearestSetN, heapNodes]

/-! ## Stash pop -/

/-- C19. When the mutex is free, `git stash pop` fails and its output contains
`overwritten by merge`, `GitStashPop` without `forceOverwrite` returns the conflict error
that carries the output, releases the mutex, and has invoked `git stash pop` and nothing
else: no checkout and no `stash drop`. -/
theorem stashPop_conflict_not_forced (env : GitEnv) (st : GitState) (repoDir output : GoString)
    (hfree : st.mutexHeld = false)
    (hpop : env st.commands ["-C".toList, repoDir, "stash".toList, "pop".toList]
      = (output, true))
    (hsig : stringsContains output PopStashConflictMsg = true) :
    GitStashPop env st repoDir false
      = (.error (.popConflict output),
          ⟨false, st.commands ++ [["-C".toList, repoDir, "stash".toList, "pop".toList]]⟩) := by
  simp only [GitStashPop, GitState.lock, hfree, runGitCommand, Bool.false_eq_true, if_false]
  rw [hpop]
  simp [hsig, GitState.unlock]

/-- Witness of C19: the conflict output of `git stash pop`, not forced. -/
theorem stashPop_conflict_not_forced_witness :
    stringsContains Sample.conflictOutput PopStashConflictMsg = true ∧
    GitStashPop Sample.conflictingPop ⟨false, []⟩ "repo".toList false
      = (.error (.popConflict Sample.conflictOutput),
          ⟨false, [["-C".toList, "repo".toList, "stash".toList, "pop".toList]]⟩) :=
  ⟨by decide,
    stashPop_conflict_not_forced Sample.conflictingPop ⟨false, []⟩ "repo".toList
      Sample.conflictOutput rfl (by decide) (by decide)⟩

theorem parseConflictLines_signature : ∀ (lines acc : List GoString),
    (∀ f ∈ acc, ∃ line, stringsContains line PopStashConflictMsg = true ∧
      f = stringsTrimSpace line) →
    ∀ f ∈ parseConflictLines lines acc,
      ∃ line, stringsContains line PopStashConflictMsg = true ∧ f = stringsTrimSpace line
  | [], acc, h => by simpa [parseConflictLines] using h
  | line :: rest, acc, h => by
    rw [parseConflictLines]
    split
    · rename_i hl
      apply parseConflictLines_signature rest
      intro f hf
      rcases List.mem_append.mp hf with hf | hf
      · exact h f hf
      · exact ⟨line, hl, by simpa using hf⟩
    · split
      · exact h
      · exact parseConflictLines_signature rest acc h

/-- C20 fails on the code. (1) `parseConflictFiles` keeps the lines that contain
`overwritten by merge` and skips the others: every element it returns is such a line,
trimmed, and on the conflict output of git it returns the header line and neither of the
two file paths. (2) With `forceOverwrite`, `GitStashPop` calls `GitCheckoutFile` on that
element while it holds `gitMutex`, which `GitCheckoutFile` locks again: the call blocks
after `git stash pop`, and neither a checkout nor `git stash drop` is invoked. -/
theorem stashPop_forced_checks_out_no_file :
    (∀ (output f : GoString), f ∈ parseConflictFiles output →
      ∃ line, stringsContains line PopStashConflictMsg = true ∧ f = stringsTrimSpace line) ∧
    parseConflictFiles Sample.conflictOutput
      = ["error: Your local changes to the following files would be overwritten by merge:".toList] ∧
    GitStashPop Sample.conflictingPop ⟨false, []⟩ "repo".toList true
      = (.blocked, ⟨true, [["-C".toList, "repo".toList, "stash".toList, "pop".toList]]⟩) := by
  refine ⟨?_, by decide, by decide⟩
  intro output f hf
  exact parseConflictLines_signature _ [] (by simp) f hf


/-! ## Searches on an index that holds points -/

theorem heapNodes_of_points : ∀ (l : List (DirectoryPoint × ℚ)),
    heapNodes (l.map (fun x => { Comparable := some x.1, Dist := some x.2 }))
      = some (l.map (fun x => x.1.Node))
  | [] => rfl
  | x :: rest => by
    simp [heapNodes, heapNodes_of_points rest]

theorem mem_byDistance (kd : KDTree) (query : KDPoint) (x : DirectoryPoint × ℚ) :
    x ∈ byDistance kd query ↔ x.1 ∈ kd.points ∧ x.2 = squaredDistance x.1.Metadata query := by
  unfold byDistance
  rw [(List.perm_insertionSort _ _).mem_iff, List.mem_map]
  constructor
  · rintro ⟨p, hp, rfl⟩
    exact ⟨hp, rfl⟩
  · rintro ⟨hp, hx⟩
    exact ⟨x.1, hp, by rw [← hx]⟩

/-- On an index that holds at least one point, `RangeSearchKDTree` returns the nodes of
the indexed points whose squared distance to the query is at most the square of the
radius. -/
theorem rangeSearch_on_nonempty_index (tree : DirectoryTree) (kd : KDTree)
    (query : DirectoryPoint) (radius : ℚ) (h : tree.KDTree = some kd)
    (hne : kd.points ≠ []) :
    ∃ nodes, tree.RangeSearchKDTree query radius = some nodes ∧
      ∀ node, node ∈ nodes ↔
        ∃ p ∈ kd.points, p.Node = node ∧
          squaredDistance p.Metadata query.Metadata ≤ radius * radius := by
  refine ⟨_, by
    simp only [DirectoryTree.RangeSearchKDTree, h, nearestSetWithin]
    rw [if_neg (by simpa using hne), heapNodes_of_points], ?_⟩
  intro node
  simp only [List.mem_map, List.mem_filter, mem_byDistance, decide_eq_true_eq]
  constructor
  · rintro ⟨x, ⟨⟨hp, hx⟩, hd⟩, rfl⟩
    exact ⟨x.1, hp, rfl, by rw [← hx]; exact hd⟩
  · rintro ⟨p, hp, rfl, hd⟩
    exact ⟨(p, squaredDistance p.Metadata query.Metadata), ⟨⟨hp, rfl⟩, hd⟩, rfl⟩

/-- On an index that holds `n >= 1` points, `NearestNeighborSearchKDTree` with `k >= 1`
returns `min(k, n)` nodes. -/
theorem nearestNeighbor_on_nonempty_index (tree : DirectoryTree) (kd : KDTree)
    (query : DirectoryPoint) (k : Int) (h : tree.KDTree = some kd) (hne : kd.points ≠ [])
    (hk : 1 ≤ k) :
    ∃ nodes, tree.NearestNeighborSearchKDTree query k = some nodes ∧
      nodes.length = min k.toNat kd.points.length := by
  refine ⟨_, by
    simp only [DirectoryTree.NearestNeighborSearchKDTree, h, nearestSetN]
    rw [if_neg (by omega), if_neg (by simpa using hne), heapNodes_of_points], ?_⟩
  simp [byDistance, List.length_insertionSort]


/-! ## Parameters, cancellation -/

/-- C21. `Validate` returns an error exactly when `SourceDir` is empty, or `TargetDir` is
empty, or `MaxDepth` is negative; whatever it returns, the parameters and the filesystem
are after the call what they were before it; and the parameters `NewFilePathParams`
makes, with empty source and target, are rejected. -/
theorem validate_params_error_iff (p : FilePathParams) (fs : FS) :
    ((p.Validate fs).1 ≠ none ↔ p.SourceDir = [] ∨ p.TargetDir = [] ∨ p.MaxDepth < 0) ∧
    (p.Validate fs).2 = (p, fs) ∧
    (NewFilePathParams.Validate fs).1 = some .directoriesNotSpecified := by
  refine ⟨?_, ?_, by simp [FilePathParams.Validate, NewFilePathParams]⟩
  · unfold FilePathParams.Validate
    by_cases h1 : p.SourceDir = [] ∨ p.TargetDir = []
    · rw [if_pos h1]
      simp only [ne_eq, reduceCtorEq, not_false_eq_true, true_iff]
      rcases h1 with h | h
      · exact Or.inl h
      · exact Or.inr (Or.inl h)
    · rw [if_neg h1]
      by_cases h2 : p.MaxDepth < 0
      · rw [if_pos h2]
        simp only [ne_eq, reduceCtorEq, not_false_eq_true, true_iff]
        exact Or.inr (Or.inr h2)
      · rw [if_neg h2]
        simp only [ne_eq, not_true_eq_false, false_iff]
        rintro (h | h | h)
        · exact h1 (Or.inl h)
        · exact h1 (Or.inr h)
        · exact h2 h
  · unfold FilePathParams.Validate
    split
    · rfl
    · split <;> rfl

theorem runFileTasks_cancelled (xdev : GoString → GoString → Bool) (cfgRoot : FileTypeNode)
    (params : FilePathParams) (cap fuel : Nat) (st : OrgState) (h : st.cancelled = true) :
    ∀ files : List FileNode, runFileTasks xdev cfgRoot params cap fuel files st = some st
  | [] => rfl
  | fileNode :: rest => by
    have h1 : fileTask xdev cfgRoot params cap fuel fileNode st = some st := by
      simp [fileTask, h]
    rw [runFileTasks, h1]
    exact runFileTasks_cancelled xdev cfgRoot params cap fuel st h rest

/-- C23. A file task that starts when the shared context is cancelled returns at its
entry check: it ends, and the filesystem, the content of the error channel and the
cancellation state are what they were when it started, whatever the file, the mapping
and the parameters. The same holds of any number of such tasks started one after the
other. -/
theorem cancelled_task_changes_nothing (xdev : GoString → GoString → Bool)
    (cfgRoot : FileTypeNode) (params : FilePathParams) (cap fuel : Nat) (fileNode : FileNode)
    (st : OrgState) (h : st.cancelled = true) :
    fileTask xdev cfgRoot params cap fuel fileNode st = some st ∧
    ∀ files : List FileNode, runFileTasks xdev cfgRoot params cap fuel files st = some st := by
  refine ⟨by simp [fileTask, h], runFileTasks_cancelled xdev cfgRoot params cap fuel st h⟩

/-- The task of C23 on the file `src/a.txt`, which the same task moves to `out/Notes`
when the context is not cancelled. -/
theorem cancelled_task_changes_nothing_witness :
    (fileTask Sample.oneDevice Sample.mapping Sample.toOut 1 10 Sample.srcFile
        ⟨Sample.srcFS, [], false⟩ ≠ some ⟨Sample.srcFS, [], false⟩) ∧
    (fileTask Sample.oneDevice Sample.mapping Sample.toOut 1 10 Sample.srcFile
        ⟨Sample.srcFS, [], true⟩ = some ⟨Sample.srcFS, [], true⟩ ∧
      ∀ files : List FileNode,
        runFileTasks Sample.oneDevice Sample.mapping Sample.toOut 1 10 files
          ⟨Sample.srcFS, [], true⟩ = some ⟨Sample.srcFS, [], true⟩) :=
  ⟨by decide,
    cancelled_task_changes_nothing Sample.oneDevice Sample.mapping Sample.toOut 1 10
      Sample.srcFile ⟨Sample.srcFS, [], true⟩ rfl⟩


/-! ## The git mutex -/

/-- C30 fails on the code. `gitMutex` is a `sync.Mutex`, which is not reentrant, and
three operations lock it again in their own call chain. From a state where the mutex is
free, whatever git answers: `GitAddAndCommit` locks and calls `GitAdd`, which waits for
the mutex, so that no command is issued; `GitRewind` locks and calls `GetCommitHistory`,
with the same end; and a forced `GitStashPop` whose `git stash pop` fails with a
conflict calls `GitCheckoutFile` on the first conflict file it parsed and waits there,
after the one command `git stash pop`. The operations `GitAdd`, `GitCommit` and
`GitCheckoutFile` called on their own do return and release the mutex. -/
theorem git_operations_wait_for_own_mutex :
    (∀ (env : GitEnv) (commands : List (List GoString)) (dir message : GoString),
      GitAddAndCommit env ⟨false, commands⟩ dir message = (.blocked, ⟨true, commands⟩)) ∧
    (∀ (env : GitEnv) (commands : List (List GoString)) (repoDir targetSha : GoString),
      GitRewind env ⟨false, commands⟩ repoDir targetSha = (.blocked, ⟨true, commands⟩)) ∧
    (∀ (env : GitEnv) (commands : List (List GoString)) (repoDir output : GoString),
      env commands ["-C".toList, repoDir, "stash".toList, "pop".toList] = (output, true) →
      stringsContains output PopStashConflictMsg = true →
      parseConflictFiles output ≠ [] →
      GitStashPop env ⟨false, commands⟩ repoDir true
        = (.blocked,
            ⟨true, commands ++ [["-C".toList, repoDir, "stash".toList, "pop".toList]]⟩)) ∧
    (GitStashPop Sample.conflictingPop ⟨false, []⟩ "repo".toList true).1 = .blocked ∧
    (∀ (env : GitEnv) (commands : List (List GoString)) (repoDir path : GoString),
      (GitAdd env ⟨false, commands⟩ repoDir path).1 ≠ .blocked ∧
      (GitAdd env ⟨false, commands⟩ repoDir path).2.mutexHeld = false ∧
      (GitCommit env ⟨false, commands⟩ repoDir path).1 ≠ .blocked ∧
      (GitCommit env ⟨false, commands⟩ repoDir path).2.mutexHeld = false ∧
      (GitCheckoutFile env ⟨false, commands⟩ repoDir path).1 ≠ .blocked ∧
      (GitCheckoutFile env ⟨false, commands⟩ repoDir path).2.mutexHeld = false) := by
  refine ⟨fun _ _ _ _ => rfl, fun _ _ _ _ => rfl, ?_, by decide, ?_⟩
  · intro env commands repoDir output hpop hsig hfiles
    simp only [GitStashPop, GitState.lock, runGitCommand, Bool.false_eq_true, if_false]
    rw [hpop]
    simp only [hsig, Bool.and_self, if_true]
    cases hp : parseConflictFiles output with
    | nil => exact absurd hp hfiles
    | cons file rest =>
      simp [checkoutConflictFiles, GitCheckoutFile, GitState.lock]
  · intro env commands repoDir path
    simp only [GitAdd, GitCommit, GitCheckoutFile, GitState.lock, runGitCommand,
      Bool.false_eq_true, if_false]
    refine ⟨?_, ?_, ?_, ?_, ?_, ?_⟩ <;> split <;> simp [GitState.unlock]

/-! ## Tree operations -/

theorem findIdx_set_same {α : Type} (p : α → Bool) :
    ∀ (l : List α) (i : Nat) (c x : α), l[i]? = some x → p c = p x →
      (l.set i c).findIdx p = l.findIdx p
  | [], _, _, _, h, _ => by simp at h
  | y :: ys, 0, c, x, h, hp => by
    simp only [List.getElem?_cons_zero, Option.some.injEq] at h
    subst h
    simp [List.findIdx_cons, hp]
  | y :: ys, i + 1, c, x, h, hp => by
    simp only [List.getElem?_cons_succ] at h
    simp [List.findIdx_cons, findIdx_set_same p ys i c x h hp]

theorem findIdx_of_getElem?_none {α : Type} (p : α → Bool) (l : List α)
    (h : l[l.findIdx p]? = none) : l.findIdx p = l.length ∧ ∀ x ∈ l, p x = false := by
  have hle : l.findIdx p ≤ l.length := List.findIdx_le_length p
  have hge : l.length ≤ l.findIdx p := by simpa using h
  have heq : l.findIdx p = l.length := Nat.le_antisymm hle hge
  exact ⟨heq, List.findIdx_eq_length.mp heq⟩

theorem findIdx_snoc_new {α : Type} (p : α → Bool) (l : List α) (c : α)
    (h : ∀ x ∈ l, p x = false) (hc : p c = true) : (l ++ [c]).findIdx p = l.length := by
  rw [List.findIdx_append, List.findIdx_eq_length_of_false h]
  simp [List.findIdx_cons, hc]

theorem set_length_snoc {α : Type} (l : List α) (a c : α) :
    (l ++ [a]).set l.length c = l ++ [c] := by
  induction l with
  | nil => rfl
  | cons x xs ih => simp [ih]

theorem findOrCreateFrom_path : ∀ (path : List GoString) (current : DirectoryNode),
    (findOrCreateFrom current path).1.path = current.path
  | [], _ => rfl
  | dir :: rest, current => by
    rw [findOrCreateFrom]
    simp only
    split <;> rfl


theorem findOrCreateFrom_found (p : GoString) (t : Int) (cs : List DirectoryNode)
    (fs : List FileNode) (m : Metadata) (dir : GoString) (rest : List GoString)
    (next : DirectoryNode)
    (h : cs[cs.findIdx (fun child => decide (child.path = dir))]? = some next) :
    findOrCreateFrom (.mk p t cs fs m) (dir :: rest)
      = (.mk p t (cs.set (cs.findIdx (fun child => decide (child.path = dir)))
            (findOrCreateFrom next rest).1) fs m,
          cs.findIdx (fun child => decide (child.path = dir))
            :: (findOrCreateFrom next rest).2) := by
  have hc : (DirectoryNode.mk p t cs fs m).children = cs := rfl
  rw [findOrCreateFrom]
  simp only [hc, h]
  rfl

theorem findOrCreateFrom_created (p : GoString) (t : Int) (cs : List DirectoryNode)
    (fs : List FileNode) (m : Metadata) (dir : GoString) (rest : List GoString)
    (h : cs[cs.findIdx (fun child => decide (child.path = dir))]? = none) :
    findOrCreateFrom (.mk p t cs fs m) (dir :: rest)
      = (.mk p t (cs ++ [(findOrCreateFrom (NewDirectoryNode dir) rest).1]) fs m,
          cs.length :: (findOrCreateFrom (NewDirectoryNode dir) rest).2) := by
  have hlen := (findIdx_of_getElem?_none _ cs h).1
  have hc : (DirectoryNode.mk p t cs fs m).children = cs := rfl
  rw [hlen] at h
  rw [findOrCreateFrom]
  simp only [hc, hlen, h]
  show (DirectoryNode.mk p t ((cs ++ [NewDirectoryNode dir]).set cs.length _) fs m, _) = _
  rw [set_length_snoc]
  rfl

theorem findOrCreateFrom_idem : ∀ (path : List GoString) (current : DirectoryNode),
    findOrCreateFrom (findOrCreateFrom current path).1 path = findOrCreateFrom current path
  | [], _ => rfl
  | dir :: rest, .mk p t cs fs m => by
    cases h : cs[cs.findIdx (fun child => decide (child.path = dir))]? with
    | some next =>
      rw [findOrCreateFrom_found p t cs fs m dir rest next h]
      have hlt : cs.findIdx (fun child => decide (child.path = dir)) < cs.length := by
        rcases List.getElem?_eq_some.mp h with ⟨hlt, _⟩
        exact hlt
      have hidx : (cs.set (cs.findIdx (fun child => decide (child.path = dir)))
            (findOrCreateFrom next rest).1).findIdx (fun child => decide (child.path = dir))
          = cs.findIdx (fun child => decide (child.path = dir)) :=
        findIdx_set_same _ cs _ _ next h (by rw [findOrCreateFrom_path])
      have hget : (cs.set (cs.findIdx (fun child => decide (child.path = dir)))
            (findOrCreateFrom next rest).1)[(cs.set
              (cs.findIdx (fun child => decide (child.path = dir)))
              (findOrCreateFrom next rest).1).findIdx
                (fun child => decide (child.path = dir))]?
          = some (findOrCreateFrom next rest).1 := by
        rw [hidx, List.getElem?_set_self hlt]
      rw [findOrCreateFrom_found p t _ fs m dir rest _ hget, hidx,
        findOrCreateFrom_idem rest next, List.set_set]
    | none =>
      rw [findOrCreateFrom_created p t cs fs m dir rest h]
      have hnone := (findIdx_of_getElem?_none _ cs h).2
      have hnew : (fun child : DirectoryNode => decide (child.path = dir))
          (findOrCreateFrom (NewDirectoryNode dir) rest).1 = true := by
        exact decide_eq_true (by rw [findOrCreateFrom_path]; rfl)
      have hidx := findIdx_snoc_new _ cs _ hnone hnew
      have hget : (cs ++ [(findOrCreateFrom (NewDirectoryNode dir) rest).1])[(cs ++
            [(findOrCreateFrom (NewDirectoryNode dir) rest).1]).findIdx
              (fun child => decide (child.path = dir))]?
          = some (findOrCreateFrom (NewDirectoryNode dir) rest).1 := by
        rw [hidx]; simp
      rw [findOrCreateFrom_found p t _ fs m dir rest _ hget, hidx,
        findOrCreateFrom_idem rest (NewDirectoryNode dir), set_length_snoc]


theorem findOrCreateFrom_nodeAt : ∀ (path : List GoString) (current : DirectoryNode),
    ∃ node, (findOrCreateFrom current path).1.nodeAt (findOrCreateFrom current path).2
        = some node ∧
      node.path = (path.getLast?).getD current.path
  | [], current => ⟨current, rfl, rfl⟩
  | dir :: rest, .mk p t cs fs m => by
    have hlast : ∀ (d : GoString), ((dir :: rest).getLast?).getD d = (rest.getLast?).getD dir := by
      intro d
      cases rest with
      | nil => rfl
      | cons a r =>
        rw [List.getLast?_cons_cons]
        cases hr : (a :: r).getLast? with
        | none => simp at hr
        | some x => rfl
    cases h : cs[cs.findIdx (fun child => decide (child.path = dir))]? with
    | some next =>
      have hlt : cs.findIdx (fun child => decide (child.path = dir)) < cs.length :=
        (List.getElem?_eq_some.mp h).1
      have hp : next.path = dir := by
        simpa using List.findIdx_of_getElem?_eq_some h
      obtain ⟨node, hnode, hpath⟩ := findOrCreateFrom_nodeAt rest next
      refine ⟨node, ?_, ?_⟩
      · rw [findOrCreateFrom_found p t cs fs m dir rest next h]
        simp only [DirectoryNode.nodeAt, DirectoryNode.children]
        rw [List.getElem?_set_self hlt]
        exact hnode
      · rw [hpath, hlast, hp]
    | none =>
      obtain ⟨node, hnode, hpath⟩ := findOrCreateFrom_nodeAt rest (NewDirectoryNode dir)
      refine ⟨node, ?_, ?_⟩
      · rw [findOrCreateFrom_created p t cs fs m dir rest h]
        simp only [DirectoryNode.nodeAt, DirectoryNode.children]
        rw [List.getElem?_append_right (Nat.le_refl _)]
        simpa using hnode
      · rw [hpath, hlast]; rfl

/-- C22. On a tree that has a root, `FindOrCreatePath` returns for every list of
segments, and a second call with the same segments on the tree the first call left
returns the node at the same place and leaves that tree as it is: the second call
creates no node. The node returned is in the tree and bears the last segment (it is the
root when there is no segment). -/
theorem findOrCreatePath_twice_same_node (tree : DirectoryTree) (root : DirectoryNode)
    (path : List GoString) (h : tree.Root = some root) :
    ∃ (tree1 : DirectoryTree) (place : List Nat) (root1 node : DirectoryNode),
      tree.FindOrCreatePath path = some (tree1, some place) ∧
      tree1.FindOrCreatePath path = some (tree1, some place) ∧
      tree1.Root = some root1 ∧ root1.nodeAt place = some node ∧
      node.path = (path.getLast?).getD root.path := by
  obtain ⟨node, hnode, hpath⟩ := findOrCreateFrom_nodeAt path root
  refine ⟨{ tree with Root := some (findOrCreateFrom root path).1 },
    (findOrCreateFrom root path).2, (findOrCreateFrom root path).1, node, ?_, ?_, rfl,
    hnode, hpath⟩
  · simp only [DirectoryTree.FindOrCreatePath, h]
  · simp only [DirectoryTree.FindOrCreatePath, findOrCreateFrom_idem]

/-- The resolver of C22 called twice with the segments `a`, `b` on a fresh tree: both
calls return the node at the place 0, 0, and the second one leaves the tree as it is. -/
theorem findOrCreatePath_twice_same_node_witness :
    ∃ (tree1 : DirectoryTree) (place : List Nat) (root1 node : DirectoryNode),
      (NewDirectoryTree "/".toList).FindOrCreatePath ["a".toList, "b".toList]
        = some (tree1, some place) ∧
      tree1.FindOrCreatePath ["a".toList, "b".toList] = some (tree1, some place) ∧
      tree1.Root = some root1 ∧ root1.nodeAt place = some node ∧
      node.path = (["a".toList, "b".toList].getLast?).getD (NewDirectoryNode "/".toList).path :=
  findOrCreatePath_twice_same_node (NewDirectoryTree "/".toList) (NewDirectoryNode "/".toList)
    ["a".toList, "b".toList] rfl


/-- C24 fails on the code. `AddFile` splits its path with `filepath.SplitList`, which
splits a list of paths at the colon, not a path at the separator: every non-empty path
without a colon comes back whole, as one segment. On a fresh tree, `AddFile` for the
directory part `a/b/c` makes under the root the one directory node `a/b/c` and adds the
file node to it; no node `a`, `b` or `c` is made. `AddDirectory` on the same path makes
`a`, `b` under `a`, and `c` under `b`. -/
theorem addFile_keeps_nested_path_whole :
    (∀ path : GoString, path ≠ [] → ':' ∉ path → filepathSplitList path = [path]) ∧
    ((NewDirectoryTree "/".toList).AddFile "a/b/c".toList "a/b/c/f.txt".toList 5
        ⟨1700000000, 0⟩).map (fun tree => tree.Root)
      = some (some (.mk "/".toList Directory
          [.mk "a/b/c".toList Directory []
            [{ path := "a/b/c/f.txt".toList, name := [], extension := ".txt".toList,
               metadata := Metadata.zeroValue }]
            Metadata.zeroValue]
          [] Metadata.zeroValue)) ∧
    ((NewDirectoryTree "/".toList).AddDirectory "a/b/c".toList).map (fun r => r.1.Root)
      = some (some (.mk "/".toList Directory
          [.mk "a".toList Directory
            [.mk "b".toList Directory
              [.mk "c".toList Directory [] [] Metadata.zeroValue] [] Metadata.zeroValue]
            [] Metadata.zeroValue]
          [] Metadata.zeroValue)) := by
  refine ⟨?_, by rfl, by rfl⟩
  intro path hne hcolon
  rw [filepathSplitList, if_neg hne]
  exact stringsSplit_of_not_mem ':' path hcolon

/-! ## Free names, the mapping root, the error channel -/

/-- C25 fails on the code. For a name that begins with a dot and has no other dot,
`filepath.Ext` returns the whole name, so the stem `generateUniqueFilename` takes is the
base of the directory part: for the occupied `t/Notes/.txt` it returns
`t/Notes/Notes_1.txt`, which bears the name of the folder, although `t/Notes/_1.txt`
is free. For the name `README` without extension the result is `t/Notes/README_1`, and
for `a.txt` it is `t/Notes/a_1.txt`. -/
theorem generateUniqueFilename_dot_name :
    Sample.dotFS.exists_ "t/Notes/.txt".toList = true ∧
    filepathExt "t/Notes/.txt".toList = ".txt".toList ∧
    generateUniqueFilename Sample.dotFS 10 "t/Notes/.txt".toList
      = some "t/Notes/Notes_1.txt".toList ∧
    Sample.dotFS.exists_ "t/Notes/_1.txt".toList = false ∧
    generateUniqueFilename Sample.dotFS 10 "t/Notes/README".toList
      = some "t/Notes/README_1".toList ∧
    generateUniqueFilename Sample.dotFS 10 "t/Notes/a.txt".toList
      = some "t/Notes/a_1.txt".toList := by
  refine ⟨by decide, by decide, by decide, by decide, by decide, by decide⟩

/-- C27 fails on the code. The capacity `EnhancedOrganize` gives the error channel is the
number of files of the root directory alone: for every tree model the number of file
nodes of the whole tree is that capacity plus the number of file nodes below the child
directories, so that the two agree only when no file lies below the root directory. For
the tree of `src`, whose one file lies in the folder `sub`, the capacity is 0 while the
tree has one file node, for which `traverseAndOrganize` starts a task. -/
theorem errCh_capacity_counts_root_files_only :
    (∀ root : DirectoryNode,
      errChCapacity root = root.files.length ∧
      countFileNodes root = errChCapacity root + countFileList root.children ∧
      (errChCapacity root = countFileNodes root ↔ countFileList root.children = 0)) ∧
    errChCapacity Sample.nestedTree = 0 ∧ countFileNodes Sample.nestedTree = 1 ∧
    Sample.toOut.Recursive = true ∧
    (traverseAndOrganize Sample.oneDevice Sample.mapping Sample.toOut 1 10 Sample.nestedTree
        ⟨Sample.nestedFS, [], false⟩).map (fun st => st.errCh)
      = some [.fileOperation "src/sub/a.txt".toList (.moveFailed OsErr.notExist)] := by
  refine ⟨?_, by decide, by decide, by decide, by decide⟩
  rintro ⟨p, t, cs, fs, m⟩
  refine ⟨rfl, ?_, ?_⟩
  · simp [countFileNodes, errChCapacity, DirectoryNode.files, DirectoryNode.children]
  · simp [countFileNodes, errChCapacity, DirectoryNode.files, DirectoryNode.children]

/-! ## Sibling uniqueness under `AddDirectory` -/

theorem siblingsUniqueList_iff : ∀ cs : List DirectoryNode,
    siblingsUniqueList cs = true ↔ ∀ c ∈ cs, siblingsUnique c = true
  | [] => by simp [siblingsUniqueList]
  | c :: rest => by
    rw [siblingsUniqueList, Bool.and_eq_true, siblingsUniqueList_iff rest]
    simp

theorem childrenAreDirectoriesList_iff : ∀ cs : List DirectoryNode,
    childrenAreDirectoriesList cs = true ↔
      ∀ c ∈ cs, c.type = Directory ∧ childrenAreDirectories c = true
  | [] => by simp [childrenAreDirectoriesList]
  | c :: rest => by
    rw [childrenAreDirectoriesList, Bool.and_eq_true, Bool.and_eq_true,
      childrenAreDirectoriesList_iff rest]
    simp

theorem siblingsUnique_mk (p : GoString) (t : Int) (cs : List DirectoryNode)
    (fs : List FileNode) (m : Metadata) :
    siblingsUnique (.mk p t cs fs m) = true ↔
      (cs.map DirectoryNode.path).Nodup ∧ ∀ c ∈ cs, siblingsUnique c = true := by
  rw [siblingsUnique, Bool.and_eq_true, siblingsUniqueList_iff]
  simp

theorem childrenAreDirectories_mk (p : GoString) (t : Int) (cs : List DirectoryNode)
    (fs : List FileNode) (m : Metadata) :
    childrenAreDirectories (.mk p t cs fs m) = true ↔
      ∀ c ∈ cs, c.type = Directory ∧ childrenAreDirectories c = true := by
  rw [childrenAreDirectories, childrenAreDirectoriesList_iff]

theorem map_set_same {α β : Type} (f : α → β) :
    ∀ (l : List α) (i : Nat) (c x : α), l[i]? = some x → f c = f x →
      (l.set i c).map f = l.map f
  | [], _, _, _, h, _ => by simp at h
  | y :: ys, 0, c, x, h, hf => by
    simp only [List.getElem?_cons_zero, Option.some.injEq] at h
    subst h
    simp [hf]
  | y :: ys, i + 1, c, x, h, hf => by
    simp only [List.getElem?_cons_succ] at h
    simp [map_set_same f ys i c x h hf]

theorem addDirectoryFrom_found (p : GoString) (t : Int) (cs : List DirectoryNode)
    (fs : List FileNode) (m : Metadata) (segment : GoString) (rest : List GoString)
    (child : DirectoryNode)
    (h : cs[cs.findIdx
      (fun child => decide (child.path = segment) && decide (child.type = Directory))]?
        = some child) :
    addDirectoryFrom (.mk p t cs fs m) (segment :: rest)
      = (.mk p t (cs.set (cs.findIdx
            (fun child => decide (child.path = segment) && decide (child.type = Directory)))
            (addDirectoryFrom child rest).1) fs m,
          cs.findIdx
            (fun child => decide (child.path = segment) && decide (child.type = Directory))
            :: (addDirectoryFrom child rest).2) := by
  have hc : (DirectoryNode.mk p t cs fs m).children = cs := rfl
  rw [addDirectoryFrom]
  simp only [hc, h]
  rfl

theorem addDirectoryFrom_created (p : GoString) (t : Int) (cs : List DirectoryNode)
    (fs : List FileNode) (m : Metadata) (segment : GoString) (rest : List GoString)
    (h : cs[cs.findIdx
      (fun child => decide (child.path = segment) && decide (child.type = Directory))]?
        = none) :
    addDirectoryFrom (.mk p t cs fs m) (segment :: rest)
      = (.mk p t (cs ++ [(addDirectoryFrom
            (.mk segment Directory [] [] Metadata.zeroValue) rest).1]) fs m,
          cs.length :: (addDirectoryFrom
            (.mk segment Directory [] [] Metadata.zeroValue) rest).2) := by
  have hc : (DirectoryNode.mk p t cs fs m).children = cs := rfl
  have hlen := (findIdx_of_getElem?_none _ cs h).1
  rw [hlen] at h
  rw [addDirectoryFrom]
  simp only [hc, hlen, h]
  show (DirectoryNode.mk p t
    ((cs ++ [DirectoryNode.mk segment Directory [] [] Metadata.zeroValue]).set cs.length _)
    fs m, _) = _
  rw [set_length_snoc]

theorem addDirectoryFrom_path_type : ∀ (segments : List GoString) (node : DirectoryNode),
    (addDirectoryFrom node segments).1.path = node.path ∧
    (addDirectoryFrom node segments).1.type = node.type
  | [], _ => ⟨rfl, rfl⟩
  | segment :: rest, node => by
    rw [addDirectoryFrom]
    simp only
    split <;> exact ⟨rfl, rfl⟩

theorem addDirectoryFrom_invariant : ∀ (segments : List GoString) (node : DirectoryNode),
    siblingsUnique node = true → childrenAreDirectories node = true →
    siblingsUnique (addDirectoryFrom node segments).1 = true ∧
    childrenAreDirectories (addDirectoryFrom node segments).1 = true
  | [], _, hu, hd => ⟨hu, hd⟩
  | segment :: rest, .mk p t cs fs m, hu, hd => by
    rw [siblingsUnique_mk] at hu
    rw [childrenAreDirectories_mk] at hd
    cases h : cs[cs.findIdx
      (fun child => decide (child.path = segment) && decide (child.type = Directory))]? with
    | some child =>
      rw [addDirectoryFrom_found p t cs fs m segment rest child h]
      have hmem : child ∈ cs := by
        obtain ⟨hlt, heq⟩ := List.getElem?_eq_some.mp h
        exact heq ▸ List.getElem_mem hlt
      have ih := addDirectoryFrom_invariant rest child (hu.2 child hmem) (hd child hmem).2
      have hpt := addDirectoryFrom_path_type rest child
      rw [siblingsUnique_mk, childrenAreDirectories_mk]
      refine ⟨⟨?_, ?_⟩, ?_⟩
      · rw [map_set_same DirectoryNode.path cs _ _ child h hpt.1]
        exact hu.1
      · intro c hc
        rcases List.mem_or_eq_of_mem_set hc with hc | hc
        · exact hu.2 c hc
        · rw [hc]; exact ih.1
      · intro c hc
        rcases List.mem_or_eq_of_mem_set hc with hc | hc
        · exact hd c hc
        · rw [hc]; exact ⟨hpt.2.trans (hd child hmem).1, ih.2⟩
    | none =>
      rw [addDirectoryFrom_created p t cs fs m segment rest h]
      have hnone := (findIdx_of_getElem?_none _ cs h).2
      have hfresh : segment ∉ cs.map DirectoryNode.path := by
        intro hin
        obtain ⟨c, hc, hcp⟩ := List.mem_map.mp hin
        have := hnone c hc
        simp [hcp, (hd c hc).1] at this
      have ih := addDirectoryFrom_invariant rest
        (.mk segment Directory [] [] Metadata.zeroValue)
        (by simp [siblingsUnique, siblingsUniqueList])
        (by simp [childrenAreDirectories, childrenAreDirectoriesList])
      have hpt := addDirectoryFrom_path_type rest
        (.mk segment Directory [] [] Metadata.zeroValue)
      rw [siblingsUnique_mk, childrenAreDirectories_mk]
      refine ⟨⟨?_, ?_⟩, ?_⟩
      · rw [List.map_append, List.map_singleton, hpt.1]
        exact List.Nodup.append hu.1 (List.nodup_singleton _)
          (by simpa [List.Disjoint, DirectoryNode.path] using hfresh)
      · intro c hc
        rcases List.mem_append.mp hc with hc | hc
        · exact hu.2 c hc
        · rw [List.mem_singleton.mp hc]; exact ih.1
      · intro c hc
        rcases List.mem_append.mp hc with hc | hc
        · exact hd c hc
        · rw [List.mem_singleton.mp hc]; exact ⟨hpt.2, ih.2⟩


/-- C28 fails on the code: `AddDirectory` takes a child for the segment only when its
type is `Directory`. In the tree whose root has the one child `a`, a node of type `File`,
the children of every node have distinct segments; after `AddDirectory` of the path `a`
the root has two children with the segment `a`. -/
theorem addDirectory_uniqueness_counterexample :
    siblingsUnique Sample.fileChildRoot = true ∧
    ((freshTreeOf Sample.fileChildRoot).AddDirectory "a".toList).map
        (fun r => r.1.Root.map
          (fun root => (root.children.map (fun c => (c.path, c.type)), siblingsUnique root)))
      = some (some ([("a".toList, File), ("a".toList, Directory)], false)) := by
  refine ⟨by decide, by decide⟩

/-- C28, amended. On a tree that has a root, in which the children of every node have
pairwise distinct path segments and every node below the root has the type `Directory`,
`AddDirectory` returns for every path string, and in the tree it leaves the children of
every node still have pairwise distinct path segments and every node below the root
still has the type `Directory`. -/
theorem addDirectory_preserves_sibling_uniqueness (tree : DirectoryTree)
    (root : DirectoryNode) (path : GoString) (h : tree.Root = some root)
    (hu : siblingsUnique root = true) (hd : childrenAreDirectories root = true) :
    ∃ (tree1 : DirectoryTree) (place : List Nat) (root1 : DirectoryNode),
      tree.AddDirectory path = some (tree1, place) ∧ tree1.Root = some root1 ∧
      siblingsUnique root1 = true ∧ childrenAreDirectories root1 = true := by
  have hinv := addDirectoryFrom_invariant (stringsSplit Separator path) root hu hd
  refine ⟨{ tree with Root := some (addDirectoryFrom root (stringsSplit Separator path)).1 },
    (addDirectoryFrom root (stringsSplit Separator path)).2,
    (addDirectoryFrom root (stringsSplit Separator path)).1, ?_, rfl, hinv.1, hinv.2⟩
  simp only [DirectoryTree.AddDirectory, h]

/-- The call of C28 for the path `t/Notes/old` on the tree of `t` with its folder
`t/Notes`. -/
theorem addDirectory_preserves_sibling_uniqueness_witness :
    ∃ (tree1 : DirectoryTree) (place : List Nat) (root1 : DirectoryNode),
      (freshTreeOf Sample.placedTree).AddDirectory "t/Notes/old".toList = some (tree1, place) ∧
      tree1.Root = some root1 ∧
      siblingsUnique root1 = true ∧ childrenAreDirectories root1 = true :=
  addDirectory_preserves_sibling_uniqueness (freshTreeOf Sample.placedTree) Sample.placedTree
    "t/Notes/old".toList rfl (by decide) (by decide)


/-! ## What the conversation memory keeps -/

theorem sliceOf_prefix (s : List GoString) (k : Nat) (h : k ≤ s.length) :
    sliceOf s 0 (k : Int) = some (s.take k) := by
  have : (0 : Int) ≤ 0 ∧ (0 : Int) ≤ (k : Int) ∧ (k : Int) ≤ (s.length : Int) :=
    ⟨le_refl _, by omega, by omega⟩
  simp [sliceOf, this]

theorem sliceOf_suffix (s : List GoString) (k : Nat) (h : k ≤ s.length) :
    sliceOf s (k : Int) (s.length : Int) = some (s.drop k) := by
  have : (0 : Int) ≤ (k : Int) ∧ (k : Int) ≤ (s.length : Int)
      ∧ (s.length : Int) ≤ (s.length : Int) := ⟨by omega, by omega, le_refl _⟩
  simp [sliceOf, this]

theorem addMessage_below (bm : BufferMemory) (message : GoString) (n : Nat)
    (h : bm.maxTokenLimit = (n : Int)) (hlt : bm.messages.length + 1 < n) :
    bm.AddMessage message = some { bm with messages := bm.messages ++ [message] } := by
  have hc : (((bm.messages ++ [message]).length : Nat) : Int) < bm.maxTokenLimit := by
    rw [h]; simp only [List.length_append, List.length_singleton]; omega
  simp only [BufferMemory.AddMessage, if_pos hc]

theorem addMessage_full (bm : BufferMemory) (message : GoString) (n : Nat)
    (h : bm.maxTokenLimit = ((n + 1 : Nat) : Int)) (hge : n ≤ bm.messages.length) :
    bm.AddMessage message
      = some { bm with
          messages := summarizeMessages ((bm.messages ++ [message]).take (bm.messages.length - n))
            :: (bm.messages ++ [message]).drop (bm.messages.length - n + 1) } := by
  have hlen : (bm.messages ++ [message]).length = bm.messages.length + 1 := by simp
  have hc : ¬ (((bm.messages ++ [message]).length : Nat) : Int) < bm.maxTokenLimit := by
    rw [h, hlen]; omega
  have e1 : (((bm.messages ++ [message]).length : Nat) : Int) - bm.maxTokenLimit
      = ((bm.messages.length - n : Nat) : Int) := by
    rw [h, hlen]; omega
  have e2 : (((bm.messages ++ [message]).length : Nat) : Int) - bm.maxTokenLimit + 1
      = ((bm.messages.length - n + 1 : Nat) : Int) := by
    rw [h, hlen]; omega
  simp only [BufferMemory.AddMessage, if_neg hc]
  rw [e2, e1, sliceOf_prefix _ _ (by rw [hlen]; omega),
    sliceOf_suffix _ _ (by rw [hlen]; omega)]

theorem holdsLast_step (n : Nat) (bm : BufferMemory) (added : List GoString)
    (message : GoString) (h : HoldsLast n bm added) :
    ∃ bm1, bm.AddMessage message = some bm1 ∧ HoldsLast n bm1 (added ++ [message]) := by
  obtain ⟨hlim, hbelow, hfull⟩ := h
  by_cases hcase : added.length < n + 1
  · have hm := hbelow hcase
    by_cases hnext : added.length + 1 < n + 1
    · refine ⟨_, addMessage_below bm message (n + 1) hlim (by rw [hm]; exact hnext), hlim, ?_, ?_⟩
      · intro _; simp [hm]
      · intro hle; simp at hle; omega
    · have hlen : added.length = n := by omega
      refine ⟨_, addMessage_full bm message n hlim (by rw [hm]; omega), hlim, ?_, ?_⟩
      · intro hlt; simp at hlt; omega
      · intro _
        have e : bm.messages.length - n + 1 = (added ++ [message]).length - n := by
          rw [hm]; simp only [List.length_append, List.length_singleton]; omega
        exact ⟨_, by rw [← e, hm]⟩
  · obtain ⟨summary, hm⟩ := hfull (by omega)
    have hl : bm.messages.length = n + 1 := by
      rw [hm]; simp only [List.length_cons, List.length_drop]; omega
    have e : (bm.messages ++ [message]).drop (bm.messages.length - n + 1)
        = (added ++ [message]).drop ((added ++ [message]).length - n) := by
      have h2 : n + 1 - n + 1 = 2 := by omega
      rw [hl, h2, hm]
      simp only [List.cons_append, List.drop_succ_cons, List.drop_append_eq_append_drop,
        List.drop_drop, List.length_drop, List.length_append, List.length_singleton]
      congr 2 <;> omega
    refine ⟨_, addMessage_full bm message n hlim (by omega), hlim, ?_, ?_⟩
    · intro hlt; simp at hlt; omega
    · intro _
      exact ⟨_, by rw [e]⟩

theorem holdsLast_run (n : Nat) : ∀ (rest added : List GoString) (bm : BufferMemory),
    HoldsLast n bm added →
    ∃ bm1, addMessages bm rest = some bm1 ∧ HoldsLast n bm1 (added ++ rest)
  | [], added, bm, h => ⟨bm, rfl, by simpa using h⟩
  | message :: rest, added, bm, h => by
    obtain ⟨bm1, h1, hh⟩ := holdsLast_step n bm added message h
    obtain ⟨bm2, h2, hh2⟩ := holdsLast_run n rest (added ++ [message]) bm1 hh
    exact ⟨bm2, by rw [addMessages, h1]; exact h2, by simpa using hh2⟩

/-- C29 fails on the code. A memory of limit `n + 1` does hold at most `n + 1` entries,
and every message while fewer than `n + 1` have been added; but from the moment `n + 1`
messages have been added it holds a summary followed by the last `n` messages only, one
message less than the limit. With the limit 3, after the three messages `a`, `b`, `c`
the memory holds a summary of no message, then `b` and `c`: the message `a` is gone,
although three messages fit. A fourth message `d` leaves a summary of the earlier
summary, then `c` and `d`: `b` is dropped and is part of no summary. With the limit 1
the memory holds after each call the summary alone, and never the message just added. -/
theorem bufferMemory_keeps_one_message_less :
    (∀ (n : Nat) (added : List GoString), ∃ bm,
      (NewBufferMemory ((n + 1 : Nat) : Int)).bind (fun bm0 => addMessages bm0 added) = some bm ∧
      bm.messages.length ≤ n + 1 ∧
      (added.length < n + 1 → bm.messages = added) ∧
      (n + 1 ≤ added.length →
        ∃ summary, bm.messages = summary :: added.drop (added.length - n))) ∧
    (NewBufferMemory 3).bind (fun bm => addMessages bm ["a".toList, "b".toList, "c".toList])
      = some ⟨["Summary: ".toList, "b".toList, "c".toList], 3⟩ ∧
    (NewBufferMemory 3).bind
        (fun bm => addMessages bm ["a".toList, "b".toList, "c".toList, "d".toList])
      = some ⟨["Summary: Summary: ".toList, "c".toList, "d".toList], 3⟩ ∧
    (NewBufferMemory 1).bind (fun bm => addMessages bm ["hello".toList])
      = some ⟨["Summary: ".toList], 1⟩ := by
  refine ⟨?_, by decide, by decide, by decide⟩
  intro n added
  have hnew : NewBufferMemory ((n + 1 : Nat) : Int) = some ⟨[], ((n + 1 : Nat) : Int)⟩ := by
    have : ¬ ((n + 1 : Nat) : Int) < 0 := by omega
    simp only [NewBufferMemory, if_neg this]
  have h0 : HoldsLast n ⟨[], ((n + 1 : Nat) : Int)⟩ [] :=
    ⟨rfl, fun _ => rfl, fun h => by simp at h⟩
  obtain ⟨bm, hrun, hlim, hbelow, hfull⟩ := holdsLast_run n added [] _ h0
  rw [List.nil_append] at hbelow hfull
  refine ⟨bm, by rw [hnew]; exact hrun, ?_, hbelow, hfull⟩
  by_cases hcase : added.length < n + 1
  · rw [hbelow hcase]; omega
  · obtain ⟨summary, hm⟩ := hfull (by omega)
    rw [hm]; simp only [List.length_cons, List.length_drop]; omega

end File4You
